import Mathlib

/-!
Sudoku as exact cover: the encoder and decoder of `sudoku.go`.

A shallow embedding of `createMatrixHeader`, `createSudokuMatrix`, `getValueString` and
`convertDLXSolutions`, followed by the properties proved about them.

Conventions of the embedding.
* A Go `string` used as a label is a Lean `String`; the puzzle string, which the source only
  indexes byte by byte (`is[p]`), is the list of its bytes, each byte given as the character
  that `string(is[p])` produces.
* A Go `int` that is never negative in the source (sizes, positions, indices) is a `Nat`; the
  products `size*size*4` stay far below `2^63` for every size the value table admits.
* A run-time panic (index out of range) is the result `none`.
-/

namespace Sudoku

/-! ## The dlx matrix -/

/-- Modelled from the spec: the constraint matrix of the external dlx package, of which the
source only uses `New`, `PushHead`, `PushItem`, `Head` and `Right`. A matrix is the list of its
column labels in creation order together with its rows in creation order, every row being the
list of the column indices of its elements in the order in which they were linked. -/
structure Matrix where
  heads : List String
  rows : List (List Nat)
deriving DecidableEq

/-- Modelled from the spec: `dlx.New()`, the matrix without columns and rows. -/
def Matrix.new : Matrix := ⟨[], []⟩

/-- Modelled from the spec: `m.PushHead(name)` appends one column labelled `name`. -/
def Matrix.pushHead (m : Matrix) (name : String) : Matrix :=
  ⟨m.heads ++ [name], m.rows⟩

/-- Modelled from the spec: `m.PushItem(re, ce)` links a new element of column `ce` after the
row element `re`; `re = nil` (here `none`) starts a new row. The handle of a row element is the
index of its row. The result is the matrix and the handle of the new element. -/
def Matrix.pushItem (m : Matrix) (re : Option Nat) (ce : Nat) : Matrix × Option Nat :=
  match re with
  | none => (⟨m.heads, m.rows ++ [[ce]]⟩, some m.rows.length)
  | some r => (⟨m.heads, List.modify (fun row => row ++ [ce]) r m.rows⟩, some r)

/-! ## The symbol alphabet and the labels -/

/-- The table `arr` of `getValueString`. -/
def valueTable : List String :=
  ["0", "1", "2", "3", "4", "5", "6", "7", "8", "9", "A", "B", "C", "D", "E", "F", "G", "H",
   "I", "J", "K", "L", "M", "N", "O"]

/-- `getValueString(v)`: `arr[v]`, which panics (`none`) when `v` is not below 25. -/
def getValueString (v : Nat) : Option String := valueTable.get? v

/-- `fmt.Sprintf("p%v", p)`. -/
def labelP (p : Nat) : String := "p" ++ toString p

/-- `fmt.Sprintf("r%vv%v", r, vs)`. -/
def labelR (r : Nat) (vs : String) : String := "r" ++ toString r ++ "v" ++ vs

/-- `fmt.Sprintf("c%vv%v", c, vs)`. -/
def labelC (c : Nat) (vs : String) : String := "c" ++ toString c ++ "v" ++ vs

/-- `fmt.Sprintf("b%vv%v", b, vs)`. -/
def labelB (b : Nat) (vs : String) : String := "b" ++ toString b ++ "v" ++ vs

/-! ## createMatrixHeader -/

/-- One iteration of the loop of `createMatrixHeader`: the `switch` on `i`. -/
def headerStep (size : Nat) (m : Matrix) (i : Nat) : Option Matrix :=
  if i < size * size then
    some (m.pushHead (labelP i))
  else if i < size * size * 2 then
    let r := (i - size * size) / size
    let v := (i - size * size) % size
    (getValueString v).map fun vs => m.pushHead (labelR r vs)
  else if i < size * size * 3 then
    let c := (i - size * size * 2) / size
    let v := (i - size * size * 2) % size
    (getValueString v).map fun vs => m.pushHead (labelC c vs)
  else if i < size * size * 4 then
    let b := (i - size * size * 3) / size
    let v := (i - size * size * 3) % size
    (getValueString v).map fun vs => m.pushHead (labelB b vs)
  else
    some m

/-- `createMatrixHeader(size, m)`: the loop `for i := 0; i < size*size*4; i++`. -/
def createMatrixHeader (size : Nat) (m : Matrix) : Option Matrix :=
  (List.range (size * size * 4)).foldlM (headerStep size) m

/-! ## createSudokuMatrix -/

/-- The body of the loop over the column headers: an element is pushed when the header name
equals one of the four labels. The state is the matrix and the row element `re`. -/
def linkStep (hpv hrv hcv hbv : String) (st : Matrix × Option Nat) (ce : Nat × String) :
    Matrix × Option Nat :=
  if ce.2 == hpv || ce.2 == hrv || ce.2 == hcv || ce.2 == hbv then
    st.1.pushItem st.2 ce.1
  else
    st

/-- The loop `re = nil; for ce := m.Head(); ce != nil; ce = ce.Right() ...`: one traversal of
the columns in creation order that links the matching ones into one new row. -/
def linkRow (m : Matrix) (hpv hrv hcv hbv : String) : Matrix :=
  (m.heads.enum.foldl (linkStep hpv hrv hcv hbv) (m, none)).1

/-- The body of the loop over the option values `v` of a blank cell. -/
def valueStep (p r c b : Nat) (m : Matrix) (v : Nat) : Option Matrix :=
  (getValueString v).map fun vs => linkRow m (labelP p) (labelR r vs) (labelC c vs) (labelB b vs)

/-- The body of the loop over the cell positions `p` of `createSudokuMatrix`. The loop runs only
for a size of at least 1, whose `sizeSqrt` is at least 1, so that no division is by zero. -/
def cellStep (size sizeSqrt : Nat) (is : List Char) (m : Matrix) (p : Nat) : Option Matrix :=
  let r := p / size
  let c := p % size
  let b := p / (size * sizeSqrt) * sizeSqrt + p / sizeSqrt % sizeSqrt
  match is.get? p with
  | none => none
  | some ch =>
    let isv := String.singleton ch
    if isv != "." then
      some (linkRow m (labelP p) (labelR r isv) (labelC c isv) (labelB b isv))
    else
      (List.range size).foldlM (valueStep p r c b) m

/-- `int(math.Sqrt(float64(size)))` for a size that is not negative: the largest `k` with
`k*k ≤ size` (the square root of a float64 is correctly rounded, so the truncation is the
integer square root for every size far beyond the supported ones). -/
def intSqrt (size : Nat) : Nat := Nat.findGreatest (fun k => k * k ≤ size) size

/-- `createSudokuMatrix(size, is)`. -/
def createSudokuMatrix (size : Nat) (is : List Char) : Option Matrix :=
  let sizeSqr := size * size
  let sizeSqrt := intSqrt size
  (createMatrixHeader size Matrix.new).bind fun m =>
    (List.range sizeSqr).foldlM (cellStep size sizeSqrt is) m

/-- The sizes that `main` accepts. -/
def Supported (size : Nat) : Prop :=
  size = 2 ∨ size = 4 ∨ size = 9 ∨ size = 16 ∨ size = 25

instance (size : Nat) : Decidable (Supported size) := by
  unfold Supported; infer_instance

/-! ## convertDLXSolutions -/

/-- The capture group of the match of `^.*p(\d+).*$` on a text without line feed, if there is
one. The greedy `.*` prefers the last `p` that a digit follows, and the greedy `\d+` takes the
whole run of ASCII digits after it. -/
def captureP : List Char → Option (List Char)
  | [] => none
  | c :: rest =>
    match captureP rest with
    | some cap => some cap
    | none =>
      if c = 'p' ∧ rest.takeWhile Char.isDigit ≠ [] then some (rest.takeWhile Char.isDigit)
      else none

/-- The capture group of the match of `^.*v(.).*$` on a text without line feed, if there is
one: the character after the last `v` that has a successor. -/
def captureV : List Char → Option Char
  | [] => none
  | c :: rest =>
    match captureV rest with
    | some x => some x
    | none => if c = 'v' then rest.head? else none

/-- `regexp.MustCompile("^.*p(\\d+).*$").ReplaceAllString(s, "$1")`: `.` does not match a line
feed, and a text that does not match is returned unchanged. -/
def replaceP (s : String) : String :=
  if '\n' ∈ s.data then s
  else
    match captureP s.data with
    | some cap => String.mk cap
    | none => s

/-- `regexp.MustCompile("^.*v(.).*$").ReplaceAllString(s, "$1")`. -/
def replaceV (s : String) : String :=
  if '\n' ∈ s.data then s
  else
    match captureV s.data with
    | some x => String.singleton x
    | none => s

/-- The value of a run of decimal digits. -/
def digitsValue (ds : List Char) : Nat :=
  ds.foldl (fun a c => 10 * a + (c.toNat - 48)) 0

/-- The value `strconv.Atoi` returns for an optional sign followed by the digits `ds`: 0 on a
syntax error, the nearest 64-bit integer on a range error. -/
def atoiBody (ds : List Char) (neg : Bool) : Int :=
  if ds = [] ∨ ¬ ds.all Char.isDigit then 0
  else if neg then max (-(digitsValue ds : Int)) (-(2 : Int) ^ 63)
  else min (digitsValue ds : Int) ((2 : Int) ^ 63 - 1)

/-- The first result of `strconv.Atoi(s)`; the source discards the error. -/
def atoi (s : String) : Int :=
  if s.data.head? = some '-' then atoiBody s.data.tail true
  else if s.data.head? = some '+' then atoiBody s.data.tail false
  else atoiBody s.data false

/-- The first byte of the UTF-8 encoding of a character, which is what `v[0]` reads. -/
def leadByte (c : Char) : Nat :=
  if c.toNat < 128 then c.toNat
  else if c.toNat < 2048 then 192 + c.toNat / 64
  else if c.toNat < 65536 then 224 + c.toNat / 4096
  else 240 + c.toNat / 262144

/-- The body of the loop over the rows of one solution: `sol[p] = rune(v[0])`, which panics
when `v` is empty or `p` is not an index of `sol`. -/
def decodeStep (sol : List Char) (label : String) : Option (List Char) :=
  let p := atoi (replaceP label)
  let v := replaceV label
  match v.data.head? with
  | none => none
  | some x =>
    if 0 ≤ p ∧ p < (sol.length : Int) then some (sol.set p.toNat (Char.ofNat (leadByte x)))
    else none

/-- The body of the loop over the solutions: `sol` starts as `len(s[sc])` zero runes and
`string(sol)` is the result. -/
def decodeCover (cover : List String) : Option String :=
  (cover.foldlM decodeStep (List.replicate cover.length (Char.ofNat 0))).map String.mk

/-- `convertDLXSolutions(s)`. -/
def convertDLXSolutions (s : List (List String)) : Option (List String) :=
  s.mapM decodeCover

/-! ## Exact covers and the labels of selected rows -/

/-- Modelled from the spec: the label under which the solver reports a selected row, the
labels of the columns of the row joined in a cyclic order (`rot` is the rotation). -/
def rowLabel (m : Matrix) (k rot : Nat) : String :=
  String.join (((m.rows.getD k []).rotate rot).map fun j => m.heads.getD j "")

/-- Row `k` of the matrix has an element in column `j`. -/
def covers (m : Matrix) (j k : Nat) : Bool := decide (j ∈ m.rows.getD k [])

/-- The selection `S` of rows (row indices, in the order of selection) is an exact cover:
every column is covered by exactly one selected row. -/
def IsExactCover (m : Matrix) (S : List Nat) : Prop :=
  (∀ k ∈ S, k < m.rows.length) ∧ ∀ j < m.heads.length, S.countP (covers m j) = 1

instance (m : Matrix) (S : List Nat) : Decidable (IsExactCover m S) := by
  unfold IsExactCover; infer_instance

/-! ## Closed forms of the header and of the rows

The functions of this section are not taken from the source: they describe, in closed form,
the labels and rows that the loops above produce, and the theorems below relate the two. -/

/-- The glyph of the value `v`: the entry of the value table, the empty string outside it. -/
def glyph (v : Nat) : String := valueTable.getD v ""

/-- The label of the `i`-th column: four ranges of `size*size` indices, the cell columns, then
the row, column and block columns, each of the latter ordered by index and then by value. -/
def headLabel (size i : Nat) : String :=
  if i < size * size then labelP i
  else if i < size * size * 2 then
    labelR ((i - size * size) / size) (glyph ((i - size * size) % size))
  else if i < size * size * 3 then
    labelC ((i - size * size * 2) / size) (glyph ((i - size * size * 2) % size))
  else
    labelB ((i - size * size * 3) / size) (glyph ((i - size * size * 3) % size))

/-- The labels of the `4*size*size` columns in creation order. -/
def headerLabels (size : Nat) : List String :=
  (List.range (size * size * 4)).map (headLabel size)

/-- The block index that `createSudokuMatrix` computes for the position `p`. -/
def blockOf (size sizeSqrt p : Nat) : Nat :=
  p / (size * sizeSqrt) * sizeSqrt + p / sizeSqrt % sizeSqrt

/-- The columns of the candidate row "cell `p` holds value `v`", in header order: the cell
column, the row column, the column column and, when the block index is below `size`, the block
column. -/
def candRow (size sizeSqrt p v : Nat) : List Nat :=
  [p, size * size + p / size * size + v, size * size * 2 + p % size * size + v] ++
    if blockOf size sizeSqrt p < size then [size * size * 3 + blockOf size sizeSqrt p * size + v]
    else []

/-- The value below `size` whose glyph is the symbol `ch`, if there is one. -/
def valueOf (size : Nat) (ch : Char) : Option Nat :=
  if valueTable.indexOf (String.singleton ch) < size then
    some (valueTable.indexOf (String.singleton ch))
  else none

/-- The row of a pre-filled cell: the candidate row of its value, or the cell column alone when
the symbol is not the glyph of a value below `size`. -/
def filledRow (size sizeSqrt p : Nat) (ch : Char) : List Nat :=
  match valueOf size ch with
  | some v => candRow size sizeSqrt p v
  | none => [p]

/-- The rows created for the cell `p`: one row for a pre-filled cell, `size` rows for a blank
cell. -/
def cellRows (size sizeSqrt : Nat) (is : List Char) (p : Nat) : List (List Nat) :=
  match is.get? p with
  | none => []
  | some ch =>
    if ch = '.' then (List.range size).map (candRow size sizeSqrt p)
    else [filledRow size sizeSqrt p ch]

/-- The rows of the matrix in creation order. -/
def matrixRows (size : Nat) (is : List Char) : List (List Nat) :=
  ((List.range (size * size)).map (cellRows size (intSqrt size) is)).flatten

/-- The indices, counted from `off`, of the labels of `hs` that satisfy `q`. -/
def matching (q : String → Bool) : Nat → List String → List Nat
  | _, [] => []
  | off, h :: t => if q h then off :: matching q (off + 1) t else matching q (off + 1) t

/-- The test of the loop over the column headers of `createSudokuMatrix`. -/
def isTarget (hpv hrv hcv hbv : String) (hev : String) : Bool :=
  hev == hpv || hev == hrv || hev == hcv || hev == hbv

/-- The number of pre-filled cells of a puzzle. -/
def filledCount (is : List Char) : Nat := is.countP (fun ch => ch != '.')

/-- The first character of a label, which tells the family of the column. -/
def family (s : String) : Option Char := s.data.head?

/-- A constraint of the board: its family, its index and, for the row, column and block
families, its value. -/
inductive Constraint where
  | cell (p : Nat)
  | row (r v : Nat)
  | col (c v : Nat)
  | block (b v : Nat)
deriving DecidableEq

/-- The label of the column of a constraint. -/
def Constraint.label : Constraint → String
  | .cell p => labelP p
  | .row r v => labelR r (glyph v)
  | .col c v => labelC c (glyph v)
  | .block b v => labelB b (glyph v)

/-- The constraints of a board of size `N`: positions below `N*N`, indices and values below
`N`. -/
def Constraint.InRange (N : Nat) : Constraint → Prop
  | .cell p => p < N * N
  | .row r v => r < N ∧ v < N
  | .col c v => c < N ∧ v < N
  | .block b v => b < N ∧ v < N

/-- The constraint of the `i`-th column of the header. -/
def constraintAt (N i : Nat) : Constraint :=
  if i < N * N then .cell i
  else if i < N * N * 2 then .row ((i - N * N) / N) ((i - N * N) % N)
  else if i < N * N * 3 then .col ((i - N * N * 2) / N) ((i - N * N * 2) % N)
  else .block ((i - N * N * 3) / N) ((i - N * N * 3) % N)

/-- The character of the glyph of the value `v`. -/
def glyphChar (v : Nat) : Char := (glyph v).data.headD '0'

/-- The text of a full candidate row: its four column labels joined in the cyclic order given
by the rotation `rot`. -/
def rowText (p r c b : Nat) (g : String) (rot : Nat) : String :=
  String.join ([labelP p, labelR r g, labelC c g, labelB b g].rotate rot)

/-- The cell of a row: its first column. -/
def cellOf (row : List Nat) : Nat := row.headD 0

/-- The shape of a row of the matrix of a board of size `N`: the cell column alone, or the four
columns of a candidate. -/
def RowShape (N B : Nat) (row : List Nat) : Prop :=
  ∃ p, p < N * N ∧ (row = [p] ∨ ∃ v, v < N ∧
    row = [p, N * N + p / N * N + v, N * N * 2 + p % N * N + v,
      N * N * 3 + blockOf N B p * N + v])

/-- The position and the value of a full row of a board of size `N`. -/
def pvOf (N : Nat) (row : List Nat) : Nat × Nat := (cellOf row, row.getD 1 0 % N)

/-! ## A worked example of size 2 -/

/-- The size-2 puzzle `"0..."`. -/
def puzzle2 : List Char := ['0', '.', '.', '.']

/-- The matrix of the size-2 puzzle `"0..."`. -/
def matrix2 : Matrix :=
  ⟨["p0", "p1", "p2", "p3", "r0v0", "r0v1", "r1v0", "r1v1", "c0v0", "c0v1", "c1v0", "c1v1",
    "b0v0", "b0v1", "b1v0", "b1v1"],
   [[0, 4, 8, 12], [1, 4, 10, 12], [1, 5, 11, 13], [2, 6, 8, 14], [2, 7, 9, 15],
    [3, 6, 10, 14], [3, 7, 11, 15]]⟩

/-- The exact cover of `matrix2`, every selected row with a rotation of its columns. -/
def cover2 : List (Nat × Nat) := [(5, 3), (0, 0), (4, 2), (2, 1)]

/-! ## Filled boards -/

/-- The grid `grid`, which gives the value of every position, is a valid filled board of block
dimension `B`: with `N = B*B`, every value is below `N`, and every row, every column and every
`B`-by-`B` block holds every value exactly once. The block `b` lies in the block row `b / B`
and the block column `b % B`; its cell `t` has the offsets `t / B` and `t % B`. -/
def IsValidGrid (B : Nat) (grid : Nat → Nat) : Prop :=
  (∀ p, p < B * B * (B * B) → grid p < B * B) ∧
  (∀ r, r < B * B → ∀ v, v < B * B →
    (List.range (B * B)).countP (fun c => grid (r * (B * B) + c) == v) = 1) ∧
  (∀ c, c < B * B → ∀ v, v < B * B →
    (List.range (B * B)).countP (fun r => grid (r * (B * B) + c) == v) = 1) ∧
  (∀ b, b < B * B → ∀ v, v < B * B →
    (List.range (B * B)).countP
      (fun t => grid ((b / B * B + t / B) * (B * B) + (b % B * B + t % B)) == v) = 1)

instance (B : Nat) (grid : Nat → Nat) : Decidable (IsValidGrid B grid) := by
  unfold IsValidGrid; infer_instance

/-- The rows that a grid selects in the matrix of the all-blank puzzle of size `N`: for every
position `p` the candidate row `p*N + grid p`. -/
def rowsOfGrid (N : Nat) (grid : Nat → Nat) : List Nat :=
  (List.range (N * N)).map fun p => p * N + grid p

/-- The grid that a selection of rows of the all-blank matrix of size `N` describes: the value
of the first selected row of every position. -/
def gridOf (N : Nat) (S : List Nat) (p : Nat) : Nat :=
  (S.find? fun k => k / N == p).getD 0 % N

/-- The matrix of the all-blank puzzle of size 2: 16 columns and the 8 candidate rows, the row
`p*2 + v` being the candidate "cell `p` holds value `v`". -/
def blankMatrix2 : Matrix :=
  ⟨["p0", "p1", "p2", "p3", "r0v0", "r0v1", "r1v0", "r1v1", "c0v0", "c0v1", "c1v0", "c1v1",
    "b0v0", "b0v1", "b1v0", "b1v1"],
   [[0, 4, 8, 12], [0, 5, 9, 13], [1, 4, 10, 12], [1, 5, 11, 13], [2, 6, 8, 14],
    [2, 7, 9, 15], [3, 6, 10, 14], [3, 7, 11, 15]]⟩

/-! ## printSolution -/

/-- The error of `strconv.Atoi` for an optional sign followed by the digits `ds`: a syntax
error (no digits, or a character that is no digit) or a range error. -/
def atoiBodyErr (ds : List Char) (neg : Bool) : Bool :=
  decide (ds = []) || !ds.all Char.isDigit ||
    (if neg then decide (2 ^ 63 < digitsValue ds) else decide (2 ^ 63 ≤ digitsValue ds))

/-- The second result of `strconv.Atoi(s)` is not `nil`. -/
def atoiErr (s : String) : Bool :=
  if s.data.head? = some '-' then atoiBodyErr s.data.tail true
  else if s.data.head? = some '+' then atoiBodyErr s.data.tail false
  else atoiBodyErr s.data false

/-- The value of `vs` before the `switch` of `printSolution`: the byte `s[p:p+1]`, replaced for
a size below 10 by a space when `strconv.Atoi` fails and by `strconv.Itoa(v+1)` otherwise. -/
def cellValue (size : Nat) (ch : Char) : String :=
  if size < 10 then
    if atoiErr (String.singleton ch) then " "
    else toString (atoi (String.singleton ch) + 1)
  else String.singleton ch

/-- The text that the last statement of the loop of `printSolution` prints for `vs`. -/
def cellPrint (vs : String) : String :=
  if vs == "." then "  " else " " ++ vs

/-- The loop `for i := 0; i < sizeSqrt; i++` that prints the dashes and crosses of a horizontal
separator. The output is the list of the printed strings, in order. -/
def printDashes (sizeSqrt : Nat) (out : List String) : List String :=
  (List.range sizeSqrt).foldl
    (fun o i =>
      let o1 := (List.range sizeSqrt).foldl (fun o2 _ => o2 ++ [" -"]) o
      if (i + 1) % sizeSqrt != 0 then o1 ++ [" +"] else o1)
    out

/-- The body of the loop of `printSolution` at the position `p`. The string is the list of its
bytes; `s[p:p+1]` panics when the string has no byte `p`, and the remainders of the `switch`
panic when `size*sizeSqrt` is zero. -/
def printStep (size sizeSqrt : Nat) (s : List Char) (out : List String) (p : Nat) :
    Option (List String) :=
  match s.get? p with
  | none => none
  | some ch =>
    let vs := cellValue size ch
    if size * sizeSqrt = 0 then none
    else
      let out1 :=
        if p % (size * sizeSqrt) == 0 && p / (size * sizeSqrt) != 0 then
          printDashes sizeSqrt (out ++ ["\n"]) ++ ["\n"]
        else if p % size == 0 then out ++ ["\n"]
        else if p % sizeSqrt == 0 then out ++ [" |"]
        else out
      some (out1 ++ [cellPrint vs])

/-- `printSolution(s, size)`: the list of the strings printed, in order; the text emitted is
their concatenation. -/
def printSolution (s : List Char) (size : Nat) : Option (List String) :=
  (List.range (size * size)).foldlM (printStep size (intSqrt size) s) []

/-- The text emitted by `printSolution(s, size)`. -/
def printedText (s : List Char) (size : Nat) : Option String :=
  (printSolution s size).map String.join

/-! ## The layout of a printed board -/

/-- An item of a board line: the text of a cell or a vertical separator. -/
inductive Item where
  | cell (text : String)
  | bar
deriving DecidableEq

/-- A line of a printed board: a board line or a horizontal separator line. -/
inductive Line where
  | board (items : List Item)
  | separator
deriving DecidableEq

/-- The board line of the row `r`: the `size` cells of the row, a vertical separator after
every `B`-th column except the last. -/
def boardItems (size B : Nat) (s : List Char) (r : Nat) : List Item :=
  ((List.range size).map fun c =>
    Item.cell (cellPrint (cellValue size (s.getD (r * size + c) ' '))) ::
      if (c + 1) % B = 0 ∧ c + 1 ≠ size then [Item.bar] else []).flatten

/-- The lines of the board: the `size` board lines, a horizontal separator line after every
`B`-th row except the last. -/
def boardLines (size B : Nat) (s : List Char) : List Line :=
  ((List.range size).map fun r =>
    Line.board (boardItems size B s r) ::
      if (r + 1) % B = 0 ∧ r + 1 ≠ size then [Line.separator] else []).flatten

/-- The strings printed for an item. -/
def Item.chunks : Item → List String
  | .cell text => [text]
  | .bar => [" |"]

/-- The strings printed for a horizontal separator line of block dimension `B`: `B` groups of
`B` dashes, a cross between two groups. -/
def dashChunks (B : Nat) : List String :=
  ((List.range B).map fun i =>
    List.replicate B " -" ++ if i + 1 ≠ B then [" +"] else []).flatten

/-- The strings printed for a line, the line feed that starts it included. -/
def Line.chunks (B : Nat) : Line → List String
  | .board items => "\n" :: (items.map Item.chunks).flatten
  | .separator => "\n" :: dashChunks B

/-- The number of cells of a board line. -/
def cellCount (items : List Item) : Nat := items.countP fun it => it != Item.bar

/-- The number of vertical separators of a board line. -/
def barCount (items : List Item) : Nat := items.countP fun it => it == Item.bar

/-- The strings that the `switch` of `printSolution` prints before the cell `p`, the loop of
the dashes in closed form. -/
def leadChunks (size B p : Nat) : List String :=
  if p % (size * B) = 0 ∧ p / (size * B) ≠ 0 then "\n" :: dashChunks B ++ ["\n"]
  else if p % size = 0 then ["\n"]
  else if p % B = 0 then [" |"]
  else []

/-- The strings of the horizontal separator line printed before the row `r`: one before every
row whose index is a multiple of `B`, the first row excepted. -/
def rowLead (size B r : Nat) : List String :=
  if r % B = 0 ∧ r ≠ 0 ∧ r ≠ size then "\n" :: dashChunks B else []

/-- The vertical separator printed before the column `c`: one before every column whose index
is a multiple of `B`, the first column excepted. -/
def colLead (size B c : Nat) : List String :=
  if c % B = 0 ∧ c ≠ 0 ∧ c ≠ size then [" |"] else []

/-- The text of a line: its strings joined. -/
def Line.text (B : Nat) (l : Line) : String := String.join (l.chunks B)

/-! ## Decimal numerals -/

theorem toDigitsCore_acc (f : Nat) : ∀ (n : Nat) (ds : List Char),
    Nat.toDigitsCore 10 f n ds = Nat.toDigitsCore 10 f n [] ++ ds := by
  induction f with
  | zero => intro n ds; simp [Nat.toDigitsCore]
  | succ f ih =>
    intro n ds
    simp only [Nat.toDigitsCore]
    split
    · simp
    · rw [ih _ (_ :: ds), ih _ [_]]; simp

theorem toDigitsCore_fuel : ∀ (n f : Nat), n < f →
    Nat.toDigitsCore 10 f n [] =
      if n < 10 then [Nat.digitChar n] else Nat.toDigits 10 (n / 10) ++ [Nat.digitChar (n % 10)] := by
  intro n
  induction n using Nat.strong_induction_on with
  | _ n ih =>
    intro f hf
    obtain ⟨f, rfl⟩ : ∃ g, f = g + 1 := ⟨f - 1, by omega⟩
    simp only [Nat.toDigitsCore]
    by_cases h : n < 10
    · have h0 : n / 10 = 0 := by omega
      have h1 : n % 10 = n := by omega
      simp [h0, h1, h]
    · have h0 : n / 10 ≠ 0 := by omega
      simp only [h0, if_false, h]
      rw [toDigitsCore_acc]
      congr 1
      have hlt : n / 10 < n := by omega
      rw [ih (n / 10) hlt f (by omega)]
      exact (ih (n / 10) hlt (n / 10 + 1) (by omega)).symm

theorem toDigits_unfold (n : Nat) :
    Nat.toDigits 10 n =
      if n < 10 then [Nat.digitChar n] else Nat.toDigits 10 (n / 10) ++ [Nat.digitChar (n % 10)] := by
  rw [Nat.toDigits]; exact toDigitsCore_fuel n (n + 1) (by omega)

theorem digitChar_isDigit (k : Nat) (h : k < 10) : (Nat.digitChar k).isDigit = true := by
  interval_cases k <;> rfl

theorem digitChar_toNat (k : Nat) (h : k < 10) : (Nat.digitChar k).toNat - 48 = k := by
  interval_cases k <;> rfl

theorem toDigits_isDigit (n : Nat) : ∀ c ∈ Nat.toDigits 10 n, c.isDigit = true := by
  induction n using Nat.strong_induction_on with
  | _ n ih =>
    rw [toDigits_unfold]
    by_cases h : n < 10
    · simp only [h, if_true, List.mem_singleton]
      rintro c rfl; exact digitChar_isDigit n h
    · simp only [h, if_false, List.mem_append, List.mem_singleton]
      rintro c (hc | rfl)
      · exact ih (n / 10) (by omega) c hc
      · exact digitChar_isDigit _ (Nat.mod_lt _ (by decide))

theorem toDigits_ne_nil (n : Nat) : Nat.toDigits 10 n ≠ [] := by
  rw [toDigits_unfold]; split <;> simp

theorem digitsValue_append (xs : List Char) (c : Char) :
    digitsValue (xs ++ [c]) = 10 * digitsValue xs + (c.toNat - 48) := by
  simp [digitsValue, List.foldl_append]

theorem digitsValue_toDigits (n : Nat) : digitsValue (Nat.toDigits 10 n) = n := by
  induction n using Nat.strong_induction_on with
  | _ n ih =>
    rw [toDigits_unfold]
    by_cases h : n < 10
    · simp only [h, if_true]
      simpa [digitsValue] using digitChar_toNat n h
    · simp only [h, if_false]
      rw [digitsValue_append, ih (n / 10) (by omega), digitChar_toNat _ (Nat.mod_lt _ (by decide))]
      omega

theorem toString_data (n : Nat) : (toString n).data = Nat.toDigits 10 n := rfl

/-! ## Labels -/

theorem labelP_data (p : Nat) : (labelP p).data = 'p' :: Nat.toDigits 10 p := rfl

theorem labelR_data (r : Nat) (vs : String) :
    (labelR r vs).data = 'r' :: (Nat.toDigits 10 r ++ 'v' :: vs.data) := by
  simp [labelR, String.data_append, toString_data]

theorem labelC_data (r : Nat) (vs : String) :
    (labelC r vs).data = 'c' :: (Nat.toDigits 10 r ++ 'v' :: vs.data) := by
  simp [labelC, String.data_append, toString_data]

theorem labelB_data (r : Nat) (vs : String) :
    (labelB r vs).data = 'b' :: (Nat.toDigits 10 r ++ 'v' :: vs.data) := by
  simp [labelB, String.data_append, toString_data]

theorem toDigits_inj {a b : Nat} (h : Nat.toDigits 10 a = Nat.toDigits 10 b) : a = b := by
  rw [← digitsValue_toDigits a, ← digitsValue_toDigits b, h]

theorem labelP_inj {p q : Nat} (h : labelP p = labelP q) : p = q := by
  have := congrArg String.data h
  rw [labelP_data, labelP_data] at this
  exact toDigits_inj (List.cons_injective this)

theorem tail_inj {a b : Nat} {vs ws : String} (hl : vs.length = ws.length)
    (h : Nat.toDigits 10 a ++ 'v' :: vs.data = Nat.toDigits 10 b ++ 'v' :: ws.data) :
    a = b ∧ vs = ws := by
  have := List.append_inj' h (by simpa using hl)
  refine ⟨toDigits_inj this.1, ?_⟩
  have h2 := List.cons_injective this.2
  exact String.ext h2

theorem labelR_inj {a b : Nat} {vs ws : String} (hl : vs.length = ws.length)
    (h : labelR a vs = labelR b ws) : a = b ∧ vs = ws := by
  have := congrArg String.data h
  rw [labelR_data, labelR_data] at this
  exact tail_inj hl (List.cons_injective this)

theorem labelC_inj {a b : Nat} {vs ws : String} (hl : vs.length = ws.length)
    (h : labelC a vs = labelC b ws) : a = b ∧ vs = ws := by
  have := congrArg String.data h
  rw [labelC_data, labelC_data] at this
  exact tail_inj hl (List.cons_injective this)

theorem labelB_inj {a b : Nat} {vs ws : String} (hl : vs.length = ws.length)
    (h : labelB a vs = labelB b ws) : a = b ∧ vs = ws := by
  have := congrArg String.data h
  rw [labelB_data, labelB_data] at this
  exact tail_inj hl (List.cons_injective this)

@[simp] theorem family_P (p : Nat) : family (labelP p) = some 'p' := rfl
@[simp] theorem family_R (r : Nat) (vs : String) : family (labelR r vs) = some 'r' := by
  simp [family, labelR_data]
@[simp] theorem family_C (r : Nat) (vs : String) : family (labelC r vs) = some 'c' := by
  simp [family, labelC_data]
@[simp] theorem family_B (r : Nat) (vs : String) : family (labelB r vs) = some 'b' := by
  simp [family, labelB_data]

theorem ne_of_family {s t : String} (h : family s ≠ family t) : s ≠ t := by
  intro e; exact h (by rw [e])


/-! ## The header -/

theorem valueTable_length : valueTable.length = 25 := rfl

theorem valueTable_nodup : valueTable.Nodup := by decide

theorem getValueString_lt {v : Nat} (h : v < 25) : getValueString v = some (glyph v) := by
  unfold getValueString glyph
  rw [List.getD_eq_getElem?_getD]
  have : v < valueTable.length := h
  simp [List.getElem?_eq_getElem this]

theorem getValueString_ge {v : Nat} (h : 25 ≤ v) : getValueString v = none := by
  unfold getValueString
  simp [List.get?_eq_none, valueTable_length, h]

theorem glyph_length {v : Nat} (h : v < 25) : (glyph v).length = 1 := by
  interval_cases v <;> rfl

theorem glyph_inj {v w : Nat} (hv : v < 25) (hw : w < 25) (h : glyph v = glyph w) : v = w := by
  have hv' : v < valueTable.length := hv
  have hw' : w < valueTable.length := hw
  have e1 : glyph v = valueTable[v] := by
    unfold glyph; rw [List.getD_eq_getElem?_getD]; simp [List.getElem?_eq_getElem hv']
  have e2 : glyph w = valueTable[w] := by
    unfold glyph; rw [List.getD_eq_getElem?_getD]; simp [List.getElem?_eq_getElem hw']
  rw [e1, e2] at h
  exact (List.Nodup.getElem_inj_iff valueTable_nodup).1 h

theorem headerStep_eq {size i : Nat} (hs : size ≤ 25) (hi : i < size * size * 4) (m : Matrix) :
    headerStep size m i = some (m.pushHead (headLabel size i)) := by
  have hpos : 0 < size := by
    rcases Nat.eq_zero_or_pos size with h | h
    · subst h; simp at hi
    · exact h
  have hv : ∀ k, k % size < 25 := fun k => lt_of_lt_of_le (Nat.mod_lt _ hpos) hs
  unfold headerStep headLabel
  split
  · rfl
  · split
    · simp [getValueString_lt (hv _)]
    · split
      · simp [getValueString_lt (hv _)]
      · simp [hi, getValueString_lt (hv _)]

theorem foldlM_headerStep (size : Nat) (hs : size ≤ 25) (m : Matrix) :
    ∀ n, n ≤ size * size * 4 →
      (List.range n).foldlM (headerStep size) m =
        some ⟨m.heads ++ (List.range n).map (headLabel size), m.rows⟩ := by
  intro n
  induction n with
  | zero => intro _; simp
  | succ n ih =>
    intro hn
    rw [List.range_succ, List.foldlM_append, ih (by omega)]
    simp [headerStep_eq hs (show n < size * size * 4 by omega), Matrix.pushHead]

theorem createMatrixHeader_eq {size : Nat} (hs : size ≤ 25) (m : Matrix) :
    createMatrixHeader size m = some ⟨m.heads ++ headerLabels size, m.rows⟩ :=
  foldlM_headerStep size hs m _ le_rfl

theorem foldlM_none_of_mem {α β : Type} (f : β → α → Option β) (i : α)
    (hf : ∀ b, f b i = none) : ∀ (l : List α), i ∈ l → ∀ b, l.foldlM f b = none := by
  intro l
  induction l with
  | nil => intro h; simp at h
  | cons a t ih =>
    intro h b
    rw [List.foldlM_cons]
    rcases List.mem_cons.1 h with rfl | h'
    · simp [hf]
    · cases hfa : f b a with
      | none => rfl
      | some b' => simpa using ih h' b'

theorem headerStep_none {size : Nat} (hs : 26 ≤ size) (m : Matrix) :
    headerStep size m (size * size + 25) = none := by
  have h1 : ¬ (size * size + 25 < size * size) := by omega
  have h2 : size * size + 25 < size * size * 2 := by nlinarith
  have h3 : (size * size + 25 - size * size) % size = 25 := by
    rw [Nat.add_sub_cancel_left]; exact Nat.mod_eq_of_lt (by omega)
  unfold headerStep
  simp only [h1, h2, if_false, if_true, h3]
  rfl

theorem createMatrixHeader_none {size : Nat} (hs : 26 ≤ size) (m : Matrix) :
    createMatrixHeader size m = none := by
  unfold createMatrixHeader
  apply foldlM_none_of_mem (headerStep size) (size * size + 25) (headerStep_none hs)
  rw [List.mem_range]; nlinarith


/-! ## Linking a row -/

theorem modify_length_append {α : Type} (f : α → α) (rows : List α) (a : α) :
    List.modify f rows.length (rows ++ [a]) = rows ++ [f a] := by
  induction rows with
  | nil => rfl
  | cons x t ih => simpa [List.modify, List.modifyTailIdx] using ih

theorem matching_append (q : String → Bool) : ∀ (a b : List String) (off : Nat),
    matching q off (a ++ b) = matching q off a ++ matching q (off + a.length) b := by
  intro a
  induction a with
  | nil => intro b off; simp [matching]
  | cons h t ih =>
    intro b off
    have e : off + 1 + t.length = off + (t.length + 1) := by omega
    rw [List.cons_append]
    by_cases hq : q h = true
    · simp only [matching, hq, if_true, ih b (off + 1), List.length_cons, e, List.cons_append]
    · simp [matching, hq, ih b (off + 1), e]

/-- The traversal after a first element has been linked: the open row is the last one. -/
theorem foldl_linkStep_open (hp hr hc hb : String) (H : List String) :
    ∀ (l : List String) (off : Nat) (rows : List (List Nat)) (acc : List Nat),
      (l.enumFrom off).foldl (linkStep hp hr hc hb) (⟨H, rows ++ [acc]⟩, some rows.length) =
        (⟨H, rows ++ [acc ++ matching (isTarget hp hr hc hb) off l]⟩, some rows.length) := by
  intro l
  induction l with
  | nil => intro off rows acc; simp [matching]
  | cons h t ih =>
    intro off rows acc
    rw [List.enumFrom_cons, List.foldl_cons]
    by_cases hq : isTarget hp hr hc hb h = true
    · have hq' : (h == hp || h == hr || h == hc || h == hb) = true := hq
      have : linkStep hp hr hc hb (⟨H, rows ++ [acc]⟩, some rows.length) (off, h) =
          (⟨H, rows ++ [acc ++ [off]]⟩, some rows.length) := by
        simp only [linkStep, hq', if_true, Matrix.pushItem]
        rw [modify_length_append]
      rw [this, ih]
      simp [matching, hq]
    · have hq' : ¬ ((h == hp || h == hr || h == hc || h == hb) = true) := hq
      have : linkStep hp hr hc hb (⟨H, rows ++ [acc]⟩, some rows.length) (off, h) =
          (⟨H, rows ++ [acc]⟩, some rows.length) := by
        simp [linkStep, hq']
      rw [this, ih]
      simp [matching, hq]

/-- The traversal before any element has been linked. -/
theorem foldl_linkStep_closed (hp hr hc hb : String) (H : List String) (rows : List (List Nat)) :
    ∀ (l : List String) (off : Nat),
      ((l.enumFrom off).foldl (linkStep hp hr hc hb) (⟨H, rows⟩, none)).1 =
        if matching (isTarget hp hr hc hb) off l = [] then ⟨H, rows⟩
        else ⟨H, rows ++ [matching (isTarget hp hr hc hb) off l]⟩ := by
  intro l
  induction l with
  | nil => intro off; simp [matching]
  | cons h t ih =>
    intro off
    rw [List.enumFrom_cons, List.foldl_cons]
    by_cases hq : isTarget hp hr hc hb h = true
    · have hq' : (h == hp || h == hr || h == hc || h == hb) = true := hq
      have : linkStep hp hr hc hb (⟨H, rows⟩, none) (off, h) =
          (⟨H, rows ++ [[off]]⟩, some rows.length) := by
        simp only [linkStep, hq', if_true, Matrix.pushItem]
      rw [this, foldl_linkStep_open]
      simp [matching, hq]
    · have hq' : ¬ ((h == hp || h == hr || h == hc || h == hb) = true) := hq
      have : linkStep hp hr hc hb (⟨H, rows⟩, none) (off, h) = (⟨H, rows⟩, none) := by
        simp [linkStep, hq']
      rw [this, ih]
      simp [matching, hq]

theorem linkRow_eq (m : Matrix) (hp hr hc hb : String) :
    linkRow m hp hr hc hb =
      if matching (isTarget hp hr hc hb) 0 m.heads = [] then m
      else ⟨m.heads, m.rows ++ [matching (isTarget hp hr hc hb) 0 m.heads]⟩ := by
  unfold linkRow List.enum
  exact foldl_linkStep_closed hp hr hc hb m.heads m.rows m.heads 0


/-! ## Looking up labels in the header -/

theorem matching_congr {q q' : String → Bool} : ∀ (l : List String) (off : Nat),
    (∀ s ∈ l, q s = q' s) → matching q off l = matching q' off l := by
  intro l
  induction l with
  | nil => intro off _; rfl
  | cons h t ih =>
    intro off hl
    have h1 : q h = q' h := hl h (List.mem_cons_self _ _)
    have h2 := ih (off + 1) (fun s hs => hl s (List.mem_cons_of_mem _ hs))
    simp only [matching, h1, h2]

theorem matching_map_none (q : String → Bool) (F : Nat → String) (off : Nat) :
    ∀ n, (∀ i < n, q (F i) = false) → matching q off ((List.range n).map F) = [] := by
  intro n
  induction n with
  | zero => intro _; rfl
  | succ n ih =>
    intro h
    rw [List.range_succ, List.map_append, matching_append, ih (fun i hi => h i (by omega))]
    simp [matching, h n (by omega)]

theorem matching_map_unique (q : String → Bool) (F : Nat → String) (off a : Nat) :
    ∀ n, a < n → (∀ i < n, q (F i) = true ↔ i = a) →
      matching q off ((List.range n).map F) = [off + a] := by
  intro n
  induction n with
  | zero => intro h; omega
  | succ n ih =>
    intro ha h
    rw [List.range_succ, List.map_append, matching_append]
    by_cases han : a = n
    · subst han
      have hn : q (F a) = true := (h a (by omega)).2 rfl
      rw [matching_map_none q F off a (fun i hi => by
        have := h i (by omega)
        cases hqi : q (F i) with
        | false => rfl
        | true => exact absurd (this.1 hqi) (by omega))]
      simp [matching, hn]
    · have hn : q (F n) = false := by
        cases hqi : q (F n) with
        | false => rfl
        | true => exact absurd ((h n (by omega)).1 hqi).symm han
      rw [ih (by omega) (fun i hi => h i (by omega))]
      simp [matching, hn]

theorem headLabel_P {size i : Nat} (hi : i < size * size) : headLabel size i = labelP i := by
  simp [headLabel, hi]

theorem headLabel_R {size i : Nat} (hi : i < size * size) (k : Nat) (hk : k = size * size + i) :
    headLabel size k = labelR (i / size) (glyph (i % size)) := by
  subst hk
  have h1 : ¬ (size * size + i < size * size) := by omega
  have h2 : size * size + i < size * size * 2 := by omega
  simp [headLabel, h1, h2]

theorem headLabel_C {size i : Nat} (hi : i < size * size) (k : Nat)
    (hk : k = size * size * 2 + i) :
    headLabel size k = labelC (i / size) (glyph (i % size)) := by
  subst hk
  have h1 : ¬ (size * size * 2 + i < size * size) := by omega
  have h2 : ¬ (size * size * 2 + i < size * size * 2) := by omega
  have h3 : size * size * 2 + i < size * size * 3 := by omega
  simp [headLabel, h1, h2, h3]

theorem headLabel_B {size i : Nat} (k : Nat)
    (hk : k = size * size * 3 + i) :
    headLabel size k = labelB (i / size) (glyph (i % size)) := by
  subst hk
  have h1 : ¬ (size * size * 3 + i < size * size) := by omega
  have h2 : ¬ (size * size * 3 + i < size * size * 2) := by omega
  have h3 : ¬ (size * size * 3 + i < size * size * 3) := by omega
  simp [headLabel, h1, h2, h3]

theorem headerLabels_split (size : Nat) :
    headerLabels size =
      (List.range (size * size)).map labelP ++
      ((List.range (size * size)).map (fun j => labelR (j / size) (glyph (j % size))) ++
      ((List.range (size * size)).map (fun j => labelC (j / size) (glyph (j % size))) ++
       (List.range (size * size)).map (fun j => labelB (j / size) (glyph (j % size))))) := by
  unfold headerLabels
  have e : size * size * 4 = size * size + (size * size + (size * size + size * size)) := by ring
  rw [e, List.range_add, List.range_add, List.range_add]
  simp only [List.map_append, List.map_map]
  congr 1
  · apply List.map_congr_left
    intro i hi
    exact headLabel_P (List.mem_range.1 hi)
  congr 1
  · apply List.map_congr_left
    intro i hi
    exact headLabel_R (List.mem_range.1 hi) _ (by simp)
  congr 1
  · apply List.map_congr_left
    intro i hi
    exact headLabel_C (List.mem_range.1 hi) _ (by simp; omega)
  · apply List.map_congr_left
    intro i hi
    exact headLabel_B _ (by simp; omega)

theorem headerLabels_length (size : Nat) : (headerLabels size).length = 4 * size * size := by
  simp [headerLabels]; ring


/-! ## The columns of a candidate row -/

theorem divmod_unique {N j r v : Nat} (hv : v < N) : (j / N = r ∧ j % N = v) ↔ j = r * N + v := by
  constructor
  · rintro ⟨h1, h2⟩
    have := Nat.div_add_mod j N
    rw [h1, h2] at this
    rw [← this]; ring
  · rintro rfl
    have hN : 0 < N := by omega
    constructor
    · rw [Nat.add_comm, Nat.add_mul_div_right _ _ hN, Nat.div_eq_of_lt hv]; simp
    · rw [Nat.add_comm, Nat.add_mul_mod_self_right, Nat.mod_eq_of_lt hv]

theorem block_hit (lab : Nat → String → String)
    (hinj : ∀ {a b : Nat} {vs ws : String}, vs.length = ws.length → lab a vs = lab b ws →
      a = b ∧ vs = ws)
    (q : String → Bool) (N r v off : Nat)
    (hq : ∀ x y, q (lab x y) = decide (lab x y = lab r (glyph v)))
    (hN : N ≤ 25) (hv : v < N) (hr : r < N) :
    matching q off ((List.range (N * N)).map fun j => lab (j / N) (glyph (j % N))) =
      [off + (r * N + v)] := by
  apply matching_map_unique q _ off (r * N + v) (N * N)
  · calc r * N + v < r * N + N := by omega
      _ = (r + 1) * N := by ring
      _ ≤ N * N := Nat.mul_le_mul_right N hr
  · intro j _
    rw [hq, decide_eq_true_iff, ← divmod_unique hv]
    have hjv : j % N < 25 := lt_of_lt_of_le (Nat.mod_lt _ (by omega)) hN
    constructor
    · intro h
      have := hinj (by rw [glyph_length hjv, glyph_length (by omega)]) h
      exact ⟨this.1, glyph_inj hjv (by omega) this.2⟩
    · rintro ⟨h1, h2⟩; rw [h1, h2]

theorem block_miss (lab : Nat → String → String)
    (hinj : ∀ {a b : Nat} {vs ws : String}, vs.length = ws.length → lab a vs = lab b ws →
      a = b ∧ vs = ws)
    (q : String → Bool) (N r off : Nat) (g : String)
    (hq : ∀ x y, q (lab x y) = decide (lab x y = lab r g))
    (hN : N ≤ 25) (hg : g.length = 1) (h : N ≤ r ∨ ∀ v < N, glyph v ≠ g) :
    matching q off ((List.range (N * N)).map fun j => lab (j / N) (glyph (j % N))) = [] := by
  apply matching_map_none
  intro j hj
  rw [hq, decide_eq_false_iff_not]
  intro e
  have hpos : 0 < N := by
    rcases Nat.eq_zero_or_pos N with h0 | h0
    · subst h0; simp at hj
    · exact h0
  have hjv : j % N < N := Nat.mod_lt _ hpos
  have := hinj (by rw [glyph_length (by omega), hg]) e
  rcases h with h | h
  · have : j / N < N := Nat.div_lt_of_lt_mul hj
    omega
  · exact h _ hjv this.2

theorem isTarget_P (p r c b i : Nat) (g1 g2 g3 : String) :
    isTarget (labelP p) (labelR r g1) (labelC c g2) (labelB b g3) (labelP i) = decide (i = p) := by
  have h1 : labelP i ≠ labelR r g1 := ne_of_family (by simp)
  have h2 : labelP i ≠ labelC c g2 := ne_of_family (by simp)
  have h3 : labelP i ≠ labelB b g3 := ne_of_family (by simp)
  have h4 : labelP i = labelP p ↔ i = p := ⟨labelP_inj, fun h => by rw [h]⟩
  simp only [isTarget, beq_eq_false_iff_ne.2 h1, beq_eq_false_iff_ne.2 h2,
    beq_eq_false_iff_ne.2 h3, Bool.or_false]
  rw [Bool.eq_iff_iff]; simp [h4]

theorem isTarget_R (p r c b x : Nat) (g1 g2 g3 y : String) :
    isTarget (labelP p) (labelR r g1) (labelC c g2) (labelB b g3) (labelR x y) =
      decide (labelR x y = labelR r g1) := by
  have h1 : labelR x y ≠ labelP p := ne_of_family (by simp)
  have h2 : labelR x y ≠ labelC c g2 := ne_of_family (by simp)
  have h3 : labelR x y ≠ labelB b g3 := ne_of_family (by simp)
  simp only [isTarget, beq_eq_false_iff_ne.2 h1, beq_eq_false_iff_ne.2 h2,
    beq_eq_false_iff_ne.2 h3, Bool.or_false, Bool.false_or]
  rw [Bool.eq_iff_iff]; simp

theorem isTarget_C (p r c b x : Nat) (g1 g2 g3 y : String) :
    isTarget (labelP p) (labelR r g1) (labelC c g2) (labelB b g3) (labelC x y) =
      decide (labelC x y = labelC c g2) := by
  have h1 : labelC x y ≠ labelP p := ne_of_family (by simp)
  have h2 : labelC x y ≠ labelR r g1 := ne_of_family (by simp)
  have h3 : labelC x y ≠ labelB b g3 := ne_of_family (by simp)
  simp only [isTarget, beq_eq_false_iff_ne.2 h1, beq_eq_false_iff_ne.2 h2,
    beq_eq_false_iff_ne.2 h3, Bool.or_false, Bool.false_or]
  rw [Bool.eq_iff_iff]; simp

theorem isTarget_B (p r c b x : Nat) (g1 g2 g3 y : String) :
    isTarget (labelP p) (labelR r g1) (labelC c g2) (labelB b g3) (labelB x y) =
      decide (labelB x y = labelB b g3) := by
  have h1 : labelB x y ≠ labelP p := ne_of_family (by simp)
  have h2 : labelB x y ≠ labelR r g1 := ne_of_family (by simp)
  have h3 : labelB x y ≠ labelC c g2 := ne_of_family (by simp)
  simp only [isTarget, beq_eq_false_iff_ne.2 h1, beq_eq_false_iff_ne.2 h2,
    beq_eq_false_iff_ne.2 h3, Bool.or_false, Bool.false_or]
  rw [Bool.eq_iff_iff]; simp

theorem matching_P (p r c b N off : Nat) (g1 g2 g3 : String) (hp : p < N * N) :
    matching (isTarget (labelP p) (labelR r g1) (labelC c g2) (labelB b g3)) off
      ((List.range (N * N)).map labelP) = [off + p] := by
  apply matching_map_unique _ _ off p (N * N) hp
  intro i _
  rw [isTarget_P]; simp

/-- The columns that the traversal links for a candidate "cell `p` holds value `v`". -/
theorem matching_cand {N : Nat} (hN : N ≤ 25) (p r c b v : Nat) (hp : p < N * N) (hr : r < N)
    (hc : c < N) (hv : v < N) :
    matching (isTarget (labelP p) (labelR r (glyph v)) (labelC c (glyph v)) (labelB b (glyph v)))
        0 (headerLabels N) =
      [p, N * N + r * N + v, N * N * 2 + c * N + v] ++
        if b < N then [N * N * 3 + b * N + v] else [] := by
  rw [headerLabels_split, matching_append, matching_append, matching_append,
    matching_P _ _ _ _ _ _ _ _ _ hp,
    block_hit labelR labelR_inj _ N r v _ (fun x y => isTarget_R _ _ _ _ _ _ _ _ _) hN hv hr,
    block_hit labelC labelC_inj _ N c v _ (fun x y => isTarget_C _ _ _ _ _ _ _ _ _) hN hv hc]
  simp only [List.length_map, List.length_range, Nat.zero_add]
  by_cases hb : b < N
  · rw [block_hit labelB labelB_inj _ N b v _ (fun x y => isTarget_B _ _ _ _ _ _ _ _ _) hN hv hb]
    simp only [hb, if_true, List.singleton_append, List.cons_append, List.nil_append]
    congr 2 <;> ring_nf
  · rw [block_miss labelB labelB_inj _ N b _ (glyph v)
      (fun x y => isTarget_B _ _ _ _ _ _ _ _ _) hN (glyph_length (by omega)) (Or.inl (by omega))]
    simp only [hb, if_false, List.singleton_append, List.append_nil]
    congr 2 <;> ring_nf

/-- The traversal links the cell column alone when the symbol is not a glyph below `N`. -/
theorem matching_bad {N : Nat} (hN : N ≤ 25) (p r c b : Nat) (g : String) (hp : p < N * N)
    (hg : g.length = 1) (hbad : ∀ v < N, glyph v ≠ g) :
    matching (isTarget (labelP p) (labelR r g) (labelC c g) (labelB b g)) 0 (headerLabels N) =
      [p] := by
  rw [headerLabels_split, matching_append, matching_append, matching_append,
    matching_P _ _ _ _ _ _ _ _ _ hp,
    block_miss labelR labelR_inj _ N r _ g (fun x y => isTarget_R _ _ _ _ _ _ _ _ _) hN hg
      (Or.inr hbad),
    block_miss labelC labelC_inj _ N c _ g (fun x y => isTarget_C _ _ _ _ _ _ _ _ _) hN hg
      (Or.inr hbad),
    block_miss labelB labelB_inj _ N b _ g (fun x y => isTarget_B _ _ _ _ _ _ _ _ _) hN hg
      (Or.inr hbad)]
  simp


/-! ## The matrix in closed form -/

theorem candRow_ne_nil (N B p v : Nat) : candRow N B p v ≠ [] := by simp [candRow]

theorem linkRow_cand {N : Nat} (hN : N ≤ 25) (B p v : Nat) (hp : p < N * N) (hv : v < N)
    (rows : List (List Nat)) :
    linkRow ⟨headerLabels N, rows⟩ (labelP p) (labelR (p / N) (glyph v))
        (labelC (p % N) (glyph v)) (labelB (blockOf N B p) (glyph v)) =
      ⟨headerLabels N, rows ++ [candRow N B p v]⟩ := by
  have hpos : 0 < N := by omega
  rw [linkRow_eq]
  simp only []
  rw [matching_cand hN p (p / N) (p % N) (blockOf N B p) v hp (Nat.div_lt_of_lt_mul hp)
    (Nat.mod_lt _ hpos) hv]
  have : ([p, N * N + p / N * N + v, N * N * 2 + p % N * N + v] ++
      if blockOf N B p < N then [N * N * 3 + blockOf N B p * N + v] else []) = candRow N B p v :=
    rfl
  rw [this, if_neg (candRow_ne_nil N B p v)]

theorem linkRow_bad {N : Nat} (hN : N ≤ 25) (p r c b : Nat) (g : String) (hp : p < N * N)
    (hg : g.length = 1) (hbad : ∀ v < N, glyph v ≠ g) (rows : List (List Nat)) :
    linkRow ⟨headerLabels N, rows⟩ (labelP p) (labelR r g) (labelC c g) (labelB b g) =
      ⟨headerLabels N, rows ++ [[p]]⟩ := by
  rw [linkRow_eq]
  simp only []
  rw [matching_bad hN p r c b g hp hg hbad]
  simp

theorem valueOf_some {N : Nat} (hN : N ≤ 25) {ch : Char} {v : Nat} (h : valueOf N ch = some v) :
    v < N ∧ glyph v = String.singleton ch := by
  unfold valueOf at h
  split at h
  · rename_i hlt
    simp only [Option.some.injEq] at h
    subst h
    refine ⟨hlt, ?_⟩
    have hl : List.indexOf (String.singleton ch) valueTable < valueTable.length := by
      rw [valueTable_length]; omega
    unfold glyph
    rw [List.getD_eq_getElem?_getD, List.getElem?_eq_getElem hl]
    simp
  · simp at h

theorem valueOf_none {N : Nat} (hN : N ≤ 25) {ch : Char} (h : valueOf N ch = none) :
    ∀ v < N, glyph v ≠ String.singleton ch := by
  intro v hv e
  unfold valueOf at h
  split at h
  · simp at h
  · rename_i hge
    apply hge
    have hl : v < valueTable.length := by rw [valueTable_length]; omega
    have e2 : valueTable[v] = String.singleton ch := by
      rw [← e]; unfold glyph
      rw [List.getD_eq_getElem?_getD, List.getElem?_eq_getElem hl]; simp
    rw [← e2, List.indexOf_getElem valueTable_nodup v hl]
    exact hv

theorem singleton_ne_dot (ch : Char) : (String.singleton ch != ".") = true ↔ ch ≠ '.' := by
  rw [bne_iff_ne]
  constructor
  · intro h e; apply h; rw [e]; rfl
  · intro h e
    apply h
    have := congrArg String.data e
    simpa [String.singleton] using this

theorem valueStep_eq {N : Nat} (hN : N ≤ 25) (B p v : Nat) (hp : p < N * N) (hv : v < N)
    (rows : List (List Nat)) :
    valueStep p (p / N) (p % N) (blockOf N B p) ⟨headerLabels N, rows⟩ v =
      some ⟨headerLabels N, rows ++ [candRow N B p v]⟩ := by
  unfold valueStep
  rw [getValueString_lt (by omega)]
  simp only [Option.map_some']
  rw [linkRow_cand hN B p v hp hv]

theorem foldlM_valueStep {N : Nat} (hN : N ≤ 25) (B p : Nat) (hp : p < N * N)
    (rows : List (List Nat)) : ∀ n, n ≤ N →
    (List.range n).foldlM (valueStep p (p / N) (p % N) (blockOf N B p)) ⟨headerLabels N, rows⟩ =
      some ⟨headerLabels N, rows ++ (List.range n).map (candRow N B p)⟩ := by
  intro n
  induction n with
  | zero => intro _; simp
  | succ n ih =>
    intro hn
    rw [List.range_succ, List.foldlM_append, ih (by omega)]
    simp [valueStep_eq hN B p n hp (by omega)]

theorem cellStep_eq {N : Nat} (hN : N ≤ 25) (B : Nat) (is : List Char) (p : Nat)
    (hp : p < N * N) (hl : p < is.length) (rows : List (List Nat)) :
    cellStep N B is ⟨headerLabels N, rows⟩ p =
      some ⟨headerLabels N, rows ++ cellRows N B is p⟩ := by
  unfold cellStep cellRows
  have hget : is.get? p = some is[p] := by simp [List.getElem?_eq_getElem hl]
  rw [hget]
  simp only []
  by_cases hdot : is[p] = '.'
  · have : ¬ ((String.singleton is[p] != ".") = true) := by
      rw [singleton_ne_dot]; simp [hdot]
    rw [if_neg this, if_pos hdot]
    exact foldlM_valueStep hN B p hp rows N le_rfl
  · have : (String.singleton is[p] != ".") = true := (singleton_ne_dot _).2 hdot
    rw [if_pos this, if_neg hdot]
    unfold filledRow
    cases hval : valueOf N is[p] with
    | none =>
      have hb := valueOf_none hN hval
      rw [linkRow_bad hN p _ _ _ _ hp (by rfl) hb]
    | some v =>
      obtain ⟨hv, hg⟩ := valueOf_some hN hval
      rw [← hg]
      exact congrArg some (linkRow_cand hN B p v hp hv rows)

theorem cellStep_none (N B : Nat) (is : List Char) (m : Matrix) :
    cellStep N B is m is.length = none := by
  unfold cellStep
  have : is.get? is.length = none := by simp
  rw [this]

theorem foldlM_cellStep {N : Nat} (hN : N ≤ 25) (B : Nat) (is : List Char)
    (rows : List (List Nat)) : ∀ n, n ≤ N * N → n ≤ is.length →
    (List.range n).foldlM (cellStep N B is) ⟨headerLabels N, rows⟩ =
      some ⟨headerLabels N, rows ++ ((List.range n).map (cellRows N B is)).flatten⟩ := by
  intro n
  induction n with
  | zero => intro _ _; simp
  | succ n ih =>
    intro hn hl
    rw [List.range_succ, List.foldlM_append, ih (by omega) (by omega)]
    simp [cellStep_eq hN B is n (by omega) (by omega)]

/-- The matrix that `createSudokuMatrix` returns, in closed form. -/
theorem createSudokuMatrix_eq {N : Nat} (hN : N ≤ 25) (is : List Char) (hl : N * N ≤ is.length) :
    createSudokuMatrix N is = some ⟨headerLabels N, matrixRows N is⟩ := by
  unfold createSudokuMatrix
  simp only []
  rw [createMatrixHeader_eq hN]
  simp only [Option.some_bind, Matrix.new, List.nil_append]
  rw [foldlM_cellStep hN _ is [] (N * N) le_rfl hl]
  simp [matrixRows]

theorem createSudokuMatrix_short {N : Nat} (is : List Char) (hl : is.length < N * N) :
    createSudokuMatrix N is = none := by
  unfold createSudokuMatrix
  simp only []
  cases h : createMatrixHeader N Matrix.new with
  | none => rfl
  | some m =>
    simp only [Option.some_bind]
    exact foldlM_none_of_mem _ is.length (cellStep_none N _ is) _ (List.mem_range.2 hl) m

theorem createSudokuMatrix_large {N : Nat} (hN : 26 ≤ N) (is : List Char) :
    createSudokuMatrix N is = none := by
  unfold createSudokuMatrix
  simp only []
  rw [createMatrixHeader_none hN]
  rfl


/-! ## Counting rows -/

theorem cellRows_length (N B : Nat) (is : List Char) (p : Nat) (hl : p < is.length) :
    (cellRows N B is p).length = if is[p] = '.' then N else 1 := by
  unfold cellRows
  have hget : is.get? p = some is[p] := by simp [List.getElem?_eq_getElem hl]
  rw [hget]
  simp only []
  split <;> simp

theorem rows_length_prefix (N B : Nat) (is : List Char) : ∀ n, n ≤ is.length →
    ((List.range n).map (cellRows N B is)).flatten.length =
      filledCount (is.take n) + N * (n - filledCount (is.take n)) := by
  intro n
  induction n with
  | zero => intro _; simp [filledCount]
  | succ n ih =>
    intro hn
    have hlt : n < is.length := by omega
    have hle : filledCount (is.take n) ≤ n := by
      unfold filledCount
      exact le_trans (List.countP_le_length _) (by simp)
    rw [List.range_succ, List.map_append, List.flatten_append, List.length_append, ih (by omega)]
    have htake : is.take (n + 1) = is.take n ++ [is[n]] := by
      rw [List.take_succ, List.getElem?_eq_getElem hlt]; rfl
    simp only [List.map_cons, List.map_nil, List.flatten_cons, List.flatten_nil, List.append_nil]
    rw [cellRows_length N B is n hlt, htake]
    unfold filledCount at hle ⊢
    rw [List.countP_append]
    by_cases hdot : is[n] = '.'
    · simp only [hdot, if_true, List.countP_cons, List.countP_nil]
      have : n + 1 - List.countP (fun ch => ch != '.') (List.take n is) =
          (n - List.countP (fun ch => ch != '.') (List.take n is)) + 1 := by omega
      simp [this, Nat.mul_succ]; omega
    · have hb : (is[n] != '.') = true := by simp [hdot]
      simp only [hdot, if_false, List.countP_cons, List.countP_nil, hb, if_true]
      have : n + 1 - (List.countP (fun ch => ch != '.') (List.take n is) + (0 + 1)) =
          (n - List.countP (fun ch => ch != '.') (List.take n is)) := by omega
      rw [this]; omega

theorem matrixRows_length (N : Nat) (is : List Char) (hl : is.length = N * N) :
    (matrixRows N is).length = filledCount is + N * (N * N - filledCount is) := by
  have := rows_length_prefix N (intSqrt N) is (N * N) (by omega)
  unfold matrixRows
  rw [this, ← hl, List.take_length]

theorem Supported.le {N : Nat} (h : Supported N) : N ≤ 25 := by
  unfold Supported at h; omega

theorem Supported.pos {N : Nat} (h : Supported N) : 1 ≤ N := by
  unfold Supported at h; omega


/-! ## Rows and their labels -/

theorem blockOf_lt_sq {B p : Nat} (hp : p < B * B * (B * B)) : blockOf (B * B) B p < B * B := by
  have hB : 0 < B := by
    rcases Nat.eq_zero_or_pos B with h | h
    · subst h; simp at hp
    · exact h
  unfold blockOf
  have h1 : p / (B * B * B) < B := Nat.div_lt_of_lt_mul (by
    calc p < B * B * (B * B) := hp
      _ = B * B * B * B := by ring)
  have h2 : p / B % B < B := Nat.mod_lt _ hB
  calc p / (B * B * B) * B + p / B % B < p / (B * B * B) * B + B := by omega
    _ = (p / (B * B * B) + 1) * B := by ring
    _ ≤ B * B := Nat.mul_le_mul_right B h1

theorem sqrt_two : intSqrt 2 = 1 := by decide

theorem blockOf_two (p : Nat) : blockOf 2 1 p = p / 2 := by
  unfold blockOf; simp [Nat.mod_one]

theorem blockOf_lt_of_supported {N p : Nat} (hN : Supported N) (hp : p < N * N) :
    blockOf N (intSqrt N) p < N := by
  rcases hN with rfl | rfl | rfl | rfl | rfl
  · rw [sqrt_two, blockOf_two]; omega
  · have : intSqrt 4 = 2 := by decide
    rw [this]; exact blockOf_lt_sq (B := 2) hp
  · have : intSqrt 9 = 3 := by decide
    rw [this]; exact blockOf_lt_sq (B := 3) hp
  · have : intSqrt 16 = 4 := by decide
    rw [this]; exact blockOf_lt_sq (B := 4) hp
  · have : intSqrt 25 = 5 := by decide
    rw [this]; exact blockOf_lt_sq (B := 5) hp

theorem valueOf_of_glyph {N : Nat} (hN : N ≤ 25) {ch : Char} {v : Nat} (hv : v < N)
    (h : glyph v = String.singleton ch) : valueOf N ch = some v := by
  cases hval : valueOf N ch with
  | none => exact absurd h (valueOf_none hN hval v hv)
  | some w =>
    obtain ⟨hw, hg⟩ := valueOf_some hN hval
    rw [glyph_inj (by omega) (by omega) (hg.trans h.symm)]

theorem headerLabels_getD {N i : Nat} (hi : i < N * N * 4) :
    (headerLabels N).getD i "" = headLabel N i := by
  unfold headerLabels
  rw [List.getD_eq_getElem?_getD, List.getElem?_eq_getElem (by simpa using hi)]
  simp

theorem mul_add_lt_sq {N a v : Nat} (ha : a < N) (hv : v < N) : a * N + v < N * N := by
  calc a * N + v < a * N + N := by omega
    _ = (a + 1) * N := by ring
    _ ≤ N * N := Nat.mul_le_mul_right N ha

theorem head_R {N a v : Nat} (ha : a < N) (hv : v < N) :
    (headerLabels N).getD (N * N + a * N + v) "" = labelR a (glyph v) := by
  have h := mul_add_lt_sq ha hv
  rw [headerLabels_getD (by omega), headLabel_R h _ (by omega)]
  have := (divmod_unique (j := a * N + v) hv).2 rfl
  rw [this.1, this.2]

theorem head_C {N a v : Nat} (ha : a < N) (hv : v < N) :
    (headerLabels N).getD (N * N * 2 + a * N + v) "" = labelC a (glyph v) := by
  have h := mul_add_lt_sq ha hv
  rw [headerLabels_getD (by omega), headLabel_C h _ (by omega)]
  have := (divmod_unique (j := a * N + v) hv).2 rfl
  rw [this.1, this.2]

theorem head_B {N a v : Nat} (ha : a < N) (hv : v < N) :
    (headerLabels N).getD (N * N * 3 + a * N + v) "" = labelB a (glyph v) := by
  have h := mul_add_lt_sq ha hv
  rw [headerLabels_getD (by omega), headLabel_B (i := a * N + v) _ (by omega)]
  have := (divmod_unique (j := a * N + v) hv).2 rfl
  rw [this.1, this.2]

theorem head_P {N p : Nat} (hp : p < N * N) : (headerLabels N).getD p "" = labelP p := by
  rw [headerLabels_getD (by omega), headLabel_P hp]

/-- The labels of the columns of a full candidate row. -/
theorem candRow_labels {N B p v : Nat} (hp : p < N * N) (hv : v < N)
    (hb : blockOf N B p < N) :
    candRow N B p v =
      [p, N * N + p / N * N + v, N * N * 2 + p % N * N + v, N * N * 3 + blockOf N B p * N + v] ∧
    (candRow N B p v).map (fun j => (headerLabels N).getD j "") =
      [labelP p, labelR (p / N) (glyph v), labelC (p % N) (glyph v),
        labelB (blockOf N B p) (glyph v)] := by
  have hpos : 0 < N := by omega
  have e : candRow N B p v =
      [p, N * N + p / N * N + v, N * N * 2 + p % N * N + v, N * N * 3 + blockOf N B p * N + v] := by
    simp [candRow, hb]
  refine ⟨e, ?_⟩
  rw [e]
  simp only [List.map_cons, List.map_nil]
  rw [head_P hp, head_R (Nat.div_lt_of_lt_mul hp) hv, head_C (Nat.mod_lt _ hpos) hv, head_B hb hv]

/-- Membership in the rows of the matrix: a row belongs to the rows of some cell. -/
theorem mem_matrixRows {N : Nat} {is : List Char} {row : List Nat}
    (h : row ∈ matrixRows N is) : ∃ p, p < N * N ∧ row ∈ cellRows N (intSqrt N) is p := by
  unfold matrixRows at h
  rw [List.mem_flatten] at h
  obtain ⟨g, hg, hrow⟩ := h
  rw [List.mem_map] at hg
  obtain ⟨p, hp, rfl⟩ := hg
  exact ⟨p, List.mem_range.1 hp, hrow⟩

theorem mem_cellRows {N B : Nat} {is : List Char} {p : Nat} {row : List Nat}
    (h : row ∈ cellRows N B is p) :
    ∃ ch, is.get? p = some ch ∧
      ((ch = '.' ∧ ∃ v, v < N ∧ row = candRow N B p v) ∨ (ch ≠ '.' ∧ row = filledRow N B p ch)) := by
  unfold cellRows at h
  cases hget : is.get? p with
  | none => rw [hget] at h; simp at h
  | some ch =>
    rw [hget] at h
    simp only [] at h
    refine ⟨ch, rfl, ?_⟩
    by_cases hdot : ch = '.'
    · rw [if_pos hdot, List.mem_map] at h
      obtain ⟨v, hv, rfl⟩ := h
      exact Or.inl ⟨hdot, v, List.mem_range.1 hv, rfl⟩
    · rw [if_neg hdot, List.mem_singleton] at h
      exact Or.inr ⟨hdot, h⟩


/-! ## The first column of a row -/

theorem cellRows_head {N B : Nat} {is : List Char} {p : Nat} {row : List Nat}
    (h : row ∈ cellRows N B is p) : row.head? = some p := by
  obtain ⟨ch, _, h | h⟩ := mem_cellRows h
  · obtain ⟨_, v, _, rfl⟩ := h; simp [candRow]
  · obtain ⟨_, rfl⟩ := h
    unfold filledRow
    cases valueOf N ch <;> simp [candRow]

/-! ## Distinct labels -/

theorem Constraint.label_inj {N : Nat} (hN : N ≤ 25) {k1 k2 : Constraint}
    (h1 : k1.InRange N) (h2 : k2.InRange N) (h : k1.label = k2.label) : k1 = k2 := by
  cases k1 <;> cases k2 <;> simp only [Constraint.label, Constraint.InRange] at h h1 h2
  case cell.cell => rw [labelP_inj h]
  case row.row =>
    obtain ⟨e1, e2⟩ := labelR_inj (by rw [glyph_length (by omega), glyph_length (by omega)]) h
    rw [e1, glyph_inj (by omega) (by omega) e2]
  case col.col =>
    obtain ⟨e1, e2⟩ := labelC_inj (by rw [glyph_length (by omega), glyph_length (by omega)]) h
    rw [e1, glyph_inj (by omega) (by omega) e2]
  case block.block =>
    obtain ⟨e1, e2⟩ := labelB_inj (by rw [glyph_length (by omega), glyph_length (by omega)]) h
    rw [e1, glyph_inj (by omega) (by omega) e2]
  all_goals exact absurd h (ne_of_family (by simp))

theorem headLabel_eq_label (N i : Nat) : headLabel N i = (constraintAt N i).label := by
  unfold headLabel constraintAt
  split
  · rfl
  · split
    · rfl
    · split <;> rfl

theorem constraintAt_inRange {N i : Nat} (hi : i < N * N * 4) : (constraintAt N i).InRange N := by
  have hpos : 0 < N := by
    rcases Nat.eq_zero_or_pos N with h | h
    · subst h; simp at hi
    · exact h
  unfold constraintAt
  split
  · assumption
  · split
    · exact ⟨Nat.div_lt_of_lt_mul (by omega), Nat.mod_lt _ hpos⟩
    · split
      · exact ⟨Nat.div_lt_of_lt_mul (by omega), Nat.mod_lt _ hpos⟩
      · exact ⟨Nat.div_lt_of_lt_mul (by omega), Nat.mod_lt _ hpos⟩

theorem eq_of_divmod {N a b : Nat} (h1 : a / N = b / N) (h2 : a % N = b % N) : a = b := by
  rw [← Nat.div_add_mod a N, ← Nat.div_add_mod b N, h1, h2]

theorem constraintAt_inj {N i j : Nat} (h : constraintAt N i = constraintAt N j) : i = j := by
  unfold constraintAt at h
  split at h <;> split at h
  all_goals try split at h
  all_goals try split at h
  all_goals try split at h
  all_goals try split at h
  all_goals first
    | (cases h; done)
    | (simp only [Constraint.cell.injEq] at h; exact h)
    | (simp only [Constraint.row.injEq] at h
       have := eq_of_divmod h.1 h.2; omega)
    | (simp only [Constraint.col.injEq] at h
       have := eq_of_divmod h.1 h.2; omega)
    | (simp only [Constraint.block.injEq] at h
       have := eq_of_divmod h.1 h.2; omega)

theorem headerLabels_nodup {N : Nat} (hN : N ≤ 25) : (headerLabels N).Nodup := by
  unfold headerLabels
  apply List.Nodup.map_on _ (List.nodup_range _)
  intro i hi j hj h
  rw [headLabel_eq_label, headLabel_eq_label] at h
  exact constraintAt_inj (Constraint.label_inj hN (constraintAt_inRange (List.mem_range.1 hi))
    (constraintAt_inRange (List.mem_range.1 hj)) h)

theorem label_mem_headerLabels {N : Nat} {k : Constraint} (hk : k.InRange N) :
    k.label ∈ headerLabels N := by
  unfold headerLabels
  rw [List.mem_map]
  cases k with
  | cell p =>
    simp only [Constraint.InRange] at hk
    exact ⟨p, List.mem_range.2 (by omega), headLabel_P hk⟩
  | row r v =>
    obtain ⟨hr, hv⟩ := hk
    have h := mul_add_lt_sq hr hv
    refine ⟨N * N + (r * N + v), List.mem_range.2 (by omega), ?_⟩
    rw [headLabel_R h _ rfl]
    have := (divmod_unique (j := r * N + v) hv).2 rfl
    rw [this.1, this.2]; rfl
  | col r v =>
    obtain ⟨hr, hv⟩ := hk
    have h := mul_add_lt_sq hr hv
    refine ⟨N * N * 2 + (r * N + v), List.mem_range.2 (by omega), ?_⟩
    rw [headLabel_C h _ rfl]
    have := (divmod_unique (j := r * N + v) hv).2 rfl
    rw [this.1, this.2]; rfl
  | block r v =>
    obtain ⟨hr, hv⟩ := hk
    have h := mul_add_lt_sq hr hv
    refine ⟨N * N * 3 + (r * N + v), List.mem_range.2 (by omega), ?_⟩
    rw [headLabel_B (i := r * N + v) _ rfl]
    have := (divmod_unique (j := r * N + v) hv).2 rfl
    rw [this.1, this.2]; rfl

/-! ## The loop over the solutions -/

theorem mapM_option_some {α β : Type} (f : α → Option β) :
    ∀ (s : List α) (out : List β), s.mapM f = some out →
      out.length = s.length ∧
      ∀ i c, s.get? i = some c → ∃ g, out.get? i = some g ∧ f c = some g := by
  intro s
  induction s with
  | nil =>
    intro out h
    rw [List.mapM_nil] at h
    cases h
    simp
  | cons a t ih =>
    intro out h
    rw [List.mapM_cons] at h
    cases hfa : f a with
    | none => rw [hfa] at h; simp at h
    | some b =>
      rw [hfa] at h
      cases ht : t.mapM f with
      | none => rw [ht] at h; simp at h
      | some bs =>
        rw [ht] at h
        simp at h
        subst h
        obtain ⟨hlen, hget⟩ := ih bs ht
        refine ⟨by simp [hlen], ?_⟩
        intro i c hc
        cases i with
        | zero =>
          simp at hc; subst hc
          exact ⟨b, by simp, hfa⟩
        | succ i =>
          simp at hc
          obtain ⟨g, hg, hfc⟩ := hget i c (by simpa using hc)
          exact ⟨g, by simpa using hg, hfc⟩

theorem convertDLXSolutions_single (c : List String) (g : String) :
    convertDLXSolutions [c] = some [g] ↔ decodeCover c = some g := by
  unfold convertDLXSolutions
  rw [List.mapM_cons, List.mapM_nil]
  cases decodeCover c <;> simp

/-! ## The two regular expressions -/

theorem captureP_skip : ∀ (xs ys : List Char), (∀ c ∈ xs, c ≠ 'p') →
    captureP (xs ++ ys) = captureP ys := by
  intro xs
  induction xs with
  | nil => intro ys _; rfl
  | cons x t ih =>
    intro ys h
    have hx : x ≠ 'p' := h x (List.mem_cons_self _ _)
    rw [List.cons_append, captureP, ih ys (fun c hc => h c (List.mem_cons_of_mem _ hc))]
    cases captureP ys with
    | none => simp [hx]
    | some cap => rfl

theorem captureP_none (xs : List Char) (h : ∀ c ∈ xs, c ≠ 'p') : captureP xs = none := by
  have := captureP_skip xs [] h
  rw [List.append_nil] at this
  rw [this]; rfl

theorem takeWhile_digits (ds ys : List Char) (hd : ∀ c ∈ ds, c.isDigit = true)
    (hy : ∀ c, ys.head? = some c → c.isDigit = false) :
    (ds ++ ys).takeWhile Char.isDigit = ds := by
  induction ds with
  | nil =>
    cases ys with
    | nil => rfl
    | cons y t => simp [List.takeWhile, hy y rfl]
  | cons d t ih =>
    have hd0 := hd d (List.mem_cons_self _ _)
    rw [List.cons_append, List.takeWhile_cons, hd0]
    simp only [if_true]
    rw [ih (fun c hc => hd c (List.mem_cons_of_mem _ hc))]

theorem isDigit_ne_p {c : Char} (h : c.isDigit = true) : c ≠ 'p' := by
  rintro rfl; exact absurd h (by decide)

theorem isDigit_ne_v {c : Char} (h : c.isDigit = true) : c ≠ 'v' := by
  rintro rfl; exact absurd h (by decide)

theorem isDigit_ne_lf {c : Char} (h : c.isDigit = true) : c ≠ '\n' := by
  rintro rfl; exact absurd h (by decide)

theorem captureV_skip : ∀ (xs ys : List Char), (∀ c ∈ xs, c ≠ 'v') →
    captureV (xs ++ ys) = captureV ys := by
  intro xs
  induction xs with
  | nil => intro ys _; rfl
  | cons x t ih =>
    intro ys h
    have hx : x ≠ 'v' := h x (List.mem_cons_self _ _)
    rw [List.cons_append, captureV, ih ys (fun c hc => h c (List.mem_cons_of_mem _ hc))]
    cases captureV ys with
    | none => simp [hx]
    | some cap => rfl

theorem captureV_none (xs : List Char) (h : ∀ c ∈ xs, c ≠ 'v') : captureV xs = none := by
  have := captureV_skip xs [] h
  rw [List.append_nil] at this
  rw [this]; rfl

/-- The capture of `v(.)` at the last `v` of the text. -/
theorem captureV_hit (xs ys : List Char) (x : Char) (hx : x ≠ 'v') (hy : ∀ c ∈ ys, c ≠ 'v') :
    captureV (xs ++ 'v' :: x :: ys) = some x := by
  have hnone : captureV (x :: ys) = none := by
    apply captureV_none
    intro c hc
    rcases List.mem_cons.1 hc with h | h
    · rw [h]; exact hx
    · exact hy c h
  have hlast : captureV ('v' :: x :: ys) = some x := by
    rw [captureV, hnone]; simp
  have : ∀ (zs : List Char), captureV (zs ++ 'v' :: x :: ys) = some x := by
    intro zs
    induction zs with
    | nil => exact hlast
    | cons z t ih => rw [List.cons_append, captureV, ih]
  exact this xs

theorem captureP_last (xs ds ys : List Char) (hne : ds ≠ [])
    (hd : ∀ c ∈ ds, c.isDigit = true) (hy : ∀ c ∈ ys, c ≠ 'p')
    (hh : ∀ c, ys.head? = some c → c.isDigit = false) :
    captureP (xs ++ 'p' :: (ds ++ ys)) = some ds := by
  have hnone : captureP (ds ++ ys) = none := by
    apply captureP_none
    intro c hc
    rcases List.mem_append.1 hc with h | h
    · exact isDigit_ne_p (hd c h)
    · exact hy c h
  have hlast : captureP ('p' :: (ds ++ ys)) = some ds := by
    rw [captureP, hnone, takeWhile_digits ds ys hd hh]; simp [hne]
  induction xs with
  | nil => exact hlast
  | cons z t ih => rw [List.cons_append, captureP, ih]


/-! ## The text of a full row -/

theorem join_four (a b c d : String) :
    (String.join [a, b, c, d]).data = a.data ++ (b.data ++ (c.data ++ d.data)) := by
  simp [String.join, String.data_append]

theorem rotate_four {α : Type} (a b c d : α) (rot : Nat) :
    [a, b, c, d].rotate rot = [a, b, c, d] ∨ [a, b, c, d].rotate rot = [b, c, d, a] ∨
    [a, b, c, d].rotate rot = [c, d, a, b] ∨ [a, b, c, d].rotate rot = [d, a, b, c] := by
  have h : [a, b, c, d].rotate rot = [a, b, c, d].rotate (rot % 4) := by
    rw [← List.rotate_mod]; rfl
  rw [h]
  have hlt : rot % 4 < 4 := Nat.mod_lt _ (by decide)
  generalize rot % 4 = k at hlt
  interval_cases k
  · exact Or.inl rfl
  · exact Or.inr (Or.inl rfl)
  · exact Or.inr (Or.inr (Or.inl rfl))
  · exact Or.inr (Or.inr (Or.inr rfl))

theorem avoid_append {k : Char} {a b : List Char} (ha : ∀ x ∈ a, x ≠ k)
    (hb : ∀ x ∈ b, x ≠ k) : ∀ x ∈ a ++ b, x ≠ k := fun x hx =>
  (List.mem_append.1 hx).elim (ha x) (hb x)

theorem avoid_cons {k y : Char} {b : List Char} (hy : y ≠ k) (hb : ∀ x ∈ b, x ≠ k) :
    ∀ x ∈ y :: b, x ≠ k := fun x hx =>
  (List.mem_cons.1 hx).elim (fun e => e ▸ hy) (hb x)

theorem avoid_nil {k : Char} : ∀ x ∈ ([] : List Char), x ≠ k := fun _ hx =>
  absurd hx (List.not_mem_nil _)

theorem avoid_digits {k : Char} (hch : k.isDigit = false) (n : Nat) :
    ∀ x ∈ Nat.toDigits 10 n, x ≠ k := by
  intro x hx e
  have := toDigits_isDigit n x hx
  rw [e, hch] at this
  cases this

/-- A segment `f<n>v<g>` avoids the character `k`. -/
theorem avoid_seg {k f g : Char} (hch : k.isDigit = false) (hf : f ≠ k) (hv : 'v' ≠ k)
    (hg : g ≠ k) (n : Nat) : ∀ x ∈ f :: (Nat.toDigits 10 n ++ ['v', g]), x ≠ k :=
  avoid_cons hf (avoid_append (avoid_digits hch n) (avoid_cons hv (avoid_cons hg avoid_nil)))

/-- The shape of the text of a full row: a single `p` followed by the digits of the position
and then by the end or a letter, the glyph after the last `v`, and no line feed. -/
theorem rowText_shape (p r c b : Nat) (g : Char) (rot : Nat) (hp : g ≠ 'p') (hlf : g ≠ '\n') :
    (∃ xs ys, (rowText p r c b (String.singleton g) rot).data =
        xs ++ 'p' :: (Nat.toDigits 10 p ++ ys) ∧ (∀ x ∈ ys, x ≠ 'p') ∧
        ∀ x, ys.head? = some x → x.isDigit = false) ∧
    (∃ xs ys, (rowText p r c b (String.singleton g) rot).data = xs ++ 'v' :: g :: ys ∧
        ∀ x ∈ ys, x ≠ 'v') ∧
    ∀ x ∈ (rowText p r c b (String.singleton g) rot).data, x ≠ '\n' := by
  have sg : (String.singleton g).data = [g] := rfl
  have pR := avoid_seg (k := 'p') (f := 'r') (g := g) rfl (by decide) (by decide) hp r
  have pC := avoid_seg (k := 'p') (f := 'c') (g := g) rfl (by decide) (by decide) hp c
  have pB := avoid_seg (k := 'p') (f := 'b') (g := g) rfl (by decide) (by decide) hp b
  have lR := avoid_seg (k := '\n') (f := 'r') (g := g) rfl (by decide) (by decide) hlf r
  have lC := avoid_seg (k := '\n') (f := 'c') (g := g) rfl (by decide) (by decide) hlf c
  have lB := avoid_seg (k := '\n') (f := 'b') (g := g) rfl (by decide) (by decide) hlf b
  have lP : ∀ x ∈ 'p' :: Nat.toDigits 10 p, x ≠ '\n' :=
    avoid_cons (by decide) (avoid_digits (k := '\n') rfl p)
  have vP : ∀ x ∈ 'p' :: Nat.toDigits 10 p, x ≠ 'v' :=
    avoid_cons (by decide) (avoid_digits (k := 'v') rfl p)
  unfold rowText
  rcases rotate_four (labelP p) (labelR r (String.singleton g)) (labelC c (String.singleton g))
    (labelB b (String.singleton g)) rot with h | h | h | h <;>
    rw [h, join_four, labelP_data, labelR_data, labelC_data, labelB_data, sg]
  · exact ⟨⟨[], 'r' :: (Nat.toDigits 10 r ++ ['v', g]) ++
        ('c' :: (Nat.toDigits 10 c ++ ['v', g]) ++ 'b' :: (Nat.toDigits 10 b ++ ['v', g])),
        by simp, avoid_append pR (avoid_append pC pB), by simp⟩,
      ⟨'p' :: Nat.toDigits 10 p ++ ('r' :: (Nat.toDigits 10 r ++ ['v', g]) ++
        ('c' :: (Nat.toDigits 10 c ++ ['v', g]) ++ 'b' :: Nat.toDigits 10 b)), [],
        by simp, avoid_nil⟩,
      avoid_append lP (avoid_append lR (avoid_append lC lB))⟩
  · exact ⟨⟨'r' :: (Nat.toDigits 10 r ++ ['v', g]) ++
        ('c' :: (Nat.toDigits 10 c ++ ['v', g]) ++ 'b' :: (Nat.toDigits 10 b ++ ['v', g])), [],
        by simp, avoid_nil, by simp⟩,
      ⟨'r' :: (Nat.toDigits 10 r ++ ['v', g]) ++
        ('c' :: (Nat.toDigits 10 c ++ ['v', g]) ++ 'b' :: Nat.toDigits 10 b),
        'p' :: Nat.toDigits 10 p, by simp, vP⟩,
      avoid_append lR (avoid_append lC (avoid_append lB lP))⟩
  · exact ⟨⟨'c' :: (Nat.toDigits 10 c ++ ['v', g]) ++ 'b' :: (Nat.toDigits 10 b ++ ['v', g]),
        'r' :: (Nat.toDigits 10 r ++ ['v', g]), by simp, pR, by simp⟩,
      ⟨'c' :: (Nat.toDigits 10 c ++ ['v', g]) ++ ('b' :: (Nat.toDigits 10 b ++ ['v', g]) ++
        ('p' :: Nat.toDigits 10 p ++ 'r' :: Nat.toDigits 10 r)), [], by simp, avoid_nil⟩,
      avoid_append lC (avoid_append lB (avoid_append lP lR))⟩
  · exact ⟨⟨'b' :: (Nat.toDigits 10 b ++ ['v', g]),
        'r' :: (Nat.toDigits 10 r ++ ['v', g]) ++ 'c' :: (Nat.toDigits 10 c ++ ['v', g]),
        by simp, avoid_append pR pC, by simp⟩,
      ⟨'b' :: (Nat.toDigits 10 b ++ ['v', g]) ++ ('p' :: Nat.toDigits 10 p ++
        ('r' :: (Nat.toDigits 10 r ++ ['v', g]) ++ 'c' :: Nat.toDigits 10 c)), [],
        by simp, avoid_nil⟩,
      avoid_append lB (avoid_append lP (avoid_append lR lC))⟩


/-! ## Decoding one row -/

theorem glyph_eq_singleton {v : Nat} (h : v < 25) : glyph v = String.singleton (glyphChar v) := by
  interval_cases v <;> rfl

theorem glyphChar_ne_p {v : Nat} (h : v < 25) : glyphChar v ≠ 'p' := by
  interval_cases v <;> decide

theorem glyphChar_ne_v {v : Nat} (h : v < 25) : glyphChar v ≠ 'v' := by
  interval_cases v <;> decide

theorem glyphChar_ne_lf {v : Nat} (h : v < 25) : glyphChar v ≠ '\n' := by
  interval_cases v <;> decide

theorem glyphChar_leadByte {v : Nat} (h : v < 25) :
    Char.ofNat (leadByte (glyphChar v)) = glyphChar v := by
  interval_cases v <;> rfl

theorem atoi_toDigits (p : Nat) (hp : p < 2 ^ 63) : atoi (String.mk (Nat.toDigits 10 p)) = p := by
  have hne := toDigits_ne_nil p
  have hd := toDigits_isDigit p
  unfold atoi
  simp only []
  cases hds : Nat.toDigits 10 p with
  | nil => exact absurd hds hne
  | cons d t =>
    have hd0 : d.isDigit = true := hd d (by rw [hds]; exact List.mem_cons_self _ _)
    have h1 : d ≠ '-' := by rintro rfl; exact absurd hd0 (by decide)
    have h2 : d ≠ '+' := by rintro rfl; exact absurd hd0 (by decide)
    simp only [List.head?_cons, Option.some.injEq, h1, h2, if_false]
    unfold atoiBody
    have hall : (d :: t).all Char.isDigit = true := by
      rw [List.all_eq_true]; intro x hx; exact hd x (by rw [hds]; exact hx)
    have hv : digitsValue (d :: t) = p := by rw [← hds]; exact digitsValue_toDigits p
    simp only [hall, hv]
    simp
    omega

/-- Decoding the text of a full row: the position and the glyph are recovered. -/
theorem decodeStep_rowText (sol : List Char) (p r c b v rot : Nat) (hv : v < 25)
    (hp : p < sol.length) (hp63 : p < 2 ^ 63) :
    decodeStep sol (rowText p r c b (glyph v) rot) = some (sol.set p (glyphChar v)) := by
  rw [glyph_eq_singleton hv]
  obtain ⟨⟨xs, ys, e1, hy, hh⟩, ⟨xs', ys', e2, hy'⟩, hlf⟩ :=
    rowText_shape p r c b (glyphChar v) rot (glyphChar_ne_p hv) (glyphChar_ne_lf hv)
  have hnl : ¬ ('\n' ∈ (rowText p r c b (String.singleton (glyphChar v)) rot).data) :=
    fun hmem => hlf _ hmem rfl
  have hP : replaceP (rowText p r c b (String.singleton (glyphChar v)) rot) =
      String.mk (Nat.toDigits 10 p) := by
    unfold replaceP
    rw [if_neg hnl, e1, captureP_last xs _ ys (toDigits_ne_nil p) (toDigits_isDigit p) hy hh]
  have hV : replaceV (rowText p r c b (String.singleton (glyphChar v)) rot) =
      String.singleton (glyphChar v) := by
    unfold replaceV
    rw [if_neg hnl, e2, captureV_hit xs' ys' _ (glyphChar_ne_v hv) hy']
  unfold decodeStep
  simp only [hP, hV, atoi_toDigits p hp63]
  have : (String.singleton (glyphChar v)).data.head? = some (glyphChar v) := rfl
  rw [this]
  simp only [glyphChar_leadByte hv]
  have hlt : (0 : Int) ≤ (p : Int) ∧ (p : Int) < (sol.length : Int) := by
    constructor <;> omega
  rw [if_pos hlt]
  simp


/-! ## Decoding one solution -/

theorem writes_length (pvs : List (Nat × Char)) : ∀ (init : List Char),
    (pvs.foldl (fun sol qc => sol.set qc.1 qc.2) init).length = init.length := by
  induction pvs with
  | nil => intro init; rfl
  | cons a t ih => intro init; rw [List.foldl_cons, ih]; simp

theorem writes_get_of_not_mem (pvs : List (Nat × Char)) : ∀ (init : List Char) (q : Nat),
    q ∉ pvs.map Prod.fst →
    (pvs.foldl (fun sol qc => sol.set qc.1 qc.2) init)[q]? = init[q]? := by
  induction pvs with
  | nil => intro init q _; rfl
  | cons a t ih =>
    intro init q hq
    rw [List.map_cons, List.mem_cons, not_or] at hq
    rw [List.foldl_cons, ih _ q hq.2]
    exact List.getElem?_set_ne (fun e => hq.1 e.symm)

/-- After the writes of pairwise distinct positions, every written position holds its
character. -/
theorem writes_get (pvs : List (Nat × Char)) : ∀ (init : List Char) (q : Nat) (ch : Char),
    (pvs.map Prod.fst).Nodup → (q, ch) ∈ pvs → q < init.length →
    (pvs.foldl (fun sol qc => sol.set qc.1 qc.2) init)[q]? = some ch := by
  induction pvs with
  | nil => intro init q ch _ h; simp at h
  | cons a t ih =>
    intro init q ch hnd hmem hq
    rw [List.map_cons, List.nodup_cons] at hnd
    rw [List.foldl_cons]
    rcases List.mem_cons.1 hmem with rfl | hmem
    · rw [writes_get_of_not_mem t _ q hnd.1]
      simp [hq]
    · exact ih _ q ch hnd.2 hmem (by simpa using hq)

/-- The loop over the rows of one solution, when every row is the text of a full row and every
position is an index of `sol`. -/
theorem foldlM_decodeStep (labels : List String) (pvs : List (Nat × Nat))
    (hrel : List.Forall₂ (fun label (pv : Nat × Nat) =>
      ∃ r c b rot, label = rowText pv.1 r c b (glyph pv.2) rot) labels pvs) :
    ∀ (init : List Char), (∀ pv ∈ pvs, pv.1 < init.length ∧ pv.1 < 2 ^ 63 ∧ pv.2 < 25) →
    labels.foldlM decodeStep init =
      some ((pvs.map fun pv => (pv.1, glyphChar pv.2)).foldl
        (fun sol qc => sol.set qc.1 qc.2) init) := by
  induction hrel with
  | nil => intro init _; rfl
  | @cons label pv labels pvs hhead _ ih =>
    intro init hall
    obtain ⟨r, c, b, rot, rfl⟩ := hhead
    obtain ⟨h1, h2, h3⟩ := hall pv (List.mem_cons_self _ _)
    rw [List.foldlM_cons, decodeStep_rowText init pv.1 r c b pv.2 rot h3 h1 h2]
    simp only [Option.some_bind, List.map_cons, List.foldl_cons]
    apply ih
    intro pv' hpv'
    have := hall pv' (List.mem_cons_of_mem _ hpv')
    simpa using this

/-- The string that `convertDLXSolutions` returns for one solution made of the texts of full
rows at pairwise distinct positions below the number of rows. -/
theorem decodeCover_rows (labels : List String) (pvs : List (Nat × Nat))
    (hrel : List.Forall₂ (fun label (pv : Nat × Nat) =>
      ∃ r c b rot, label = rowText pv.1 r c b (glyph pv.2) rot) labels pvs)
    (hall : ∀ pv ∈ pvs, pv.1 < pvs.length ∧ pv.2 < 25) (hlen : pvs.length < 2 ^ 63)
    (hnd : (pvs.map Prod.fst).Nodup) :
    ∃ g, decodeCover labels = some g ∧ g.data.length = pvs.length ∧
      ∀ pv ∈ pvs, g.data[pv.1]? = some (glyphChar pv.2) := by
  have hl : labels.length = pvs.length := hrel.length_eq
  have hfold := foldlM_decodeStep labels pvs hrel (List.replicate labels.length (Char.ofNat 0))
    (by
      intro pv hpv
      obtain ⟨h1, h2⟩ := hall pv hpv
      refine ⟨by simp [hl, h1], by omega, h2⟩)
  refine ⟨_, by unfold decodeCover; rw [hfold]; rfl, ?_, ?_⟩
  · simp only []
    rw [writes_length]; simp [hl]
  · intro pv hpv
    simp only []
    apply writes_get
    · simpa [List.map_map, Function.comp_def] using hnd
    · exact List.mem_map.2 ⟨pv, hpv, rfl⟩
    · simp [hl, (hall pv hpv).1]


/-! ## Counting -/

theorem sum_ite_eq_countP {β : Type} (q : β → Bool) (B : List β) :
    (B.map fun b => if q b = true then 1 else 0).sum = B.countP q := by
  induction B with
  | nil => rfl
  | cons b t ih =>
    rw [List.map_cons, List.sum_cons, ih, List.countP_cons]
    omega

theorem sum_map_add_nat {β : Type} (f g : β → Nat) (B : List β) :
    (B.map fun b => f b + g b).sum = (B.map f).sum + (B.map g).sum := by
  induction B with
  | nil => rfl
  | cons b t ih => simp only [List.map_cons, List.sum_cons, ih]; omega

/-- Counting the pairs of a relation by rows or by columns gives the same number. -/
theorem sum_countP_comm {α β : Type} (P : α → β → Bool) (A : List α) (B : List β) :
    (A.map fun a => B.countP (P a)).sum = (B.map fun b => A.countP (fun a => P a b)).sum := by
  induction A with
  | nil => simp
  | cons a t ih =>
    rw [List.map_cons, List.sum_cons, ih]
    have : (fun b => List.countP (fun a => P a b) (a :: t)) =
        fun b => List.countP (fun a => P a b) t + if P a b = true then 1 else 0 := by
      funext b; rw [List.countP_cons]
    rw [this, sum_map_add_nat, sum_ite_eq_countP]
    omega

theorem countP_one_unique {α : Type} (q : α → Bool) (S : List α) (h : S.countP q = 1)
    {a b : α} (ha : a ∈ S) (hb : b ∈ S) (hqa : q a = true) (hqb : q b = true) : a = b := by
  rw [List.countP_eq_length_filter, List.length_eq_one] at h
  obtain ⟨x, hx⟩ := h
  have h1 : a ∈ S.filter q := List.mem_filter.2 ⟨ha, hqa⟩
  have h2 : b ∈ S.filter q := List.mem_filter.2 ⟨hb, hqb⟩
  rw [hx, List.mem_singleton] at h1 h2
  rw [h1, h2]

theorem countP_one_exists {α : Type} (q : α → Bool) (S : List α) (h : S.countP q = 1) :
    ∃ a, a ∈ S ∧ q a = true := by
  have : 0 < S.countP q := by omega
  rw [List.countP_pos_iff] at this
  exact this

/-- A list of numbers in which every number below `n`, and no other, occurs once is a
permutation of `range n`. -/
theorem perm_range_of_count {n : Nat} (l : List Nat) (hlt : ∀ a ∈ l, a < n)
    (hc : ∀ p < n, l.countP (fun a => decide (a = p)) = 1) : l.Perm (List.range n) := by
  rw [List.perm_iff_count]
  intro p
  by_cases hp : p < n
  · rw [List.count_eq_one_of_mem (List.nodup_range n) (List.mem_range.2 hp)]
    rw [List.count_eq_countP, ← hc p hp]
    apply List.countP_congr
    intro x _; simp
  · rw [List.count_eq_zero_of_not_mem (fun h => hp (List.mem_range.1 h)),
      List.count_eq_zero_of_not_mem (fun h => hp (hlt p h))]


/-! ## The shape of the rows -/

theorem candRow_full {N p : Nat} (hN : Supported N) (hp : p < N * N) (v : Nat) :
    candRow N (intSqrt N) p v =
      [p, N * N + p / N * N + v, N * N * 2 + p % N * N + v,
        N * N * 3 + blockOf N (intSqrt N) p * N + v] := by
  simp [candRow, blockOf_lt_of_supported hN hp]

/-- Every row of the matrix of a supported size is the cell column alone or a full candidate
row; it belongs to the rows of its cell. -/
theorem row_shape {N : Nat} (hN : Supported N) {is : List Char} {row : List Nat}
    (h : row ∈ matrixRows N is) :
    RowShape N (intSqrt N) row ∧ row ∈ cellRows N (intSqrt N) is (cellOf row) := by
  obtain ⟨p, hp, hrow⟩ := mem_matrixRows h
  have hc : cellOf row = p := by
    have := cellRows_head hrow
    unfold cellOf
    cases row with
    | nil => simp at this
    | cons a t => simpa using this
  rw [hc]
  refine ⟨⟨p, hp, ?_⟩, hrow⟩
  obtain ⟨ch, _, h | h⟩ := mem_cellRows hrow
  · obtain ⟨_, v, hv, rfl⟩ := h
    exact Or.inr ⟨v, hv, candRow_full hN hp v⟩
  · obtain ⟨_, rfl⟩ := h
    unfold filledRow
    cases hval : valueOf N ch with
    | none => exact Or.inl rfl
    | some v => exact Or.inr ⟨v, (valueOf_some hN.le hval).1, candRow_full hN hp v⟩

theorem RowShape.cell_lt {N B : Nat} {row : List Nat} (h : RowShape N B row) :
    cellOf row < N * N := by
  obtain ⟨p, hp, rfl | ⟨v, _, rfl⟩⟩ := h <;> exact hp

/-- A row covers a cell column exactly when it is a row of that cell. -/
theorem RowShape.mem_cell {N B : Nat} {row : List Nat} (h : RowShape N B row) {j : Nat}
    (hj : j < N * N) : j ∈ row ↔ cellOf row = j := by
  obtain ⟨p, hp, rfl | ⟨v, _, rfl⟩⟩ := h
  · simp [cellOf, eq_comm]
  · simp only [cellOf, List.mem_cons, List.headD_cons, List.mem_singleton, List.not_mem_nil,
      or_false]
    constructor
    · rintro (h | h | h | h)
      · exact h.symm
      all_goals omega
    · intro h; exact Or.inl h.symm

/-- The number of row-constraint columns that a row covers: one for a full row, none for a row
made of the cell column alone. -/
theorem RowShape.count_rowColumns {N B : Nat} {row : List Nat} (h : RowShape N B row) :
    (List.range' (N * N) (N * N)).countP (fun j => decide (j ∈ row)) =
      if row.length = 4 then 1 else 0 := by
  obtain ⟨p, hp, rfl | ⟨v, hv, rfl⟩⟩ := h
  · have : (List.range' (N * N) (N * N)).countP (fun j => decide (j ∈ [p])) = 0 := by
      rw [List.countP_eq_zero]
      intro j hj
      rw [List.mem_range'_1] at hj
      simp; omega
    rw [this]; simp
  · have hx : p / N * N + v < N * N :=
      mul_add_lt_sq (Nat.div_lt_of_lt_mul hp) hv
    have hmem : N * N + p / N * N + v ∈ List.range' (N * N) (N * N) := by
      rw [List.mem_range'_1]; omega
    have : (List.range' (N * N) (N * N)).countP (fun j => decide (j ∈
        [p, N * N + p / N * N + v, N * N * 2 + p % N * N + v,
          N * N * 3 + blockOf N B p * N + v])) =
        (List.range' (N * N) (N * N)).count (N * N + p / N * N + v) := by
      rw [List.count_eq_countP]
      apply List.countP_congr
      intro j hj
      rw [List.mem_range'_1] at hj
      simp only [List.mem_cons, List.mem_singleton, List.not_mem_nil, or_false,
        decide_eq_true_eq, beq_iff_eq]
      constructor
      · rintro (h | h | h | h)
        · omega
        · exact h
        · omega
        · omega
      · intro h; exact Or.inr (Or.inl h)
    rw [this, List.count_eq_one_of_mem (List.nodup_range' _ _) hmem]
    simp


/-! ## Exact covers of the matrix -/

theorem getD_mem_rows {rows : List (List Nat)} {k : Nat} (hk : k < rows.length) :
    rows.getD k [] ∈ rows := by
  rw [List.getD_eq_getElem _ _ hk]
  exact List.getElem_mem hk

theorem sum_map_one {α : Type} (A : List α) (f : α → Nat) (h : ∀ a ∈ A, f a = 1) :
    (A.map f).sum = A.length := by
  induction A with
  | nil => rfl
  | cons a t ih =>
    rw [List.map_cons, List.sum_cons, h a (List.mem_cons_self _ _),
      ih (fun x hx => h x (List.mem_cons_of_mem _ hx)), List.length_cons]
    omega

/-- In an exact cover of a matrix whose rows have the shape of Sudoku rows, the cells of the
selected rows are the positions of the board, each once, and every selected row is full. -/
theorem exactCover_cells {N B : Nat} {H : List String} {rows : List (List Nat)} {S : List Nat}
    (hH : H.length = 4 * N * N) (hrows : ∀ row ∈ rows, RowShape N B row)
    (hS : IsExactCover ⟨H, rows⟩ S) :
    (S.map fun k => cellOf (rows.getD k [])).Perm (List.range (N * N)) ∧ S.length = N * N ∧
      ∀ k ∈ S, (rows.getD k []).length = 4 := by
  obtain ⟨hlt, hcov⟩ := hS
  simp only [] at hlt hcov
  have hshape : ∀ k ∈ S, RowShape N B (rows.getD k []) := fun k hk =>
    hrows _ (getD_mem_rows (hlt k hk))
  have hperm : (S.map fun k => cellOf (rows.getD k [])).Perm (List.range (N * N)) := by
    apply perm_range_of_count
    · intro a ha
      obtain ⟨k, hk, rfl⟩ := List.mem_map.1 ha
      exact (hshape k hk).cell_lt
    · intro p hp
      rw [List.countP_map, ← hcov p (by rw [hH]; nlinarith)]
      apply List.countP_congr
      intro k hk
      simp only [Function.comp_apply, decide_eq_true_eq, covers]
      exact ((hshape k hk).mem_cell hp).symm
  have hlen : S.length = N * N := by
    have := hperm.length_eq
    simpa using this
  refine ⟨hperm, hlen, ?_⟩
  have hsum := sum_countP_comm (fun j k => covers ⟨H, rows⟩ j k)
    (List.range' (N * N) (N * N)) S
  rw [sum_map_one _ _ (fun j hj => hcov j (by
      rw [List.mem_range'_1] at hj
      rw [hH]; nlinarith))] at hsum
  have hrhs : (S.map fun k => (List.range' (N * N) (N * N)).countP
      (fun j => covers ⟨H, rows⟩ j k)) =
      S.map fun k => if decide ((rows.getD k []).length = 4) = true then 1 else 0 := by
    apply List.map_congr_left
    intro k hk
    have := (hshape k hk).count_rowColumns
    simp only [covers]
    rw [this]
    simp
  rw [hrhs, sum_ite_eq_countP, List.length_range'] at hsum
  have hall : S.countP (fun k => decide ((rows.getD k []).length = 4)) = S.length := by
    rw [hlen, ← hsum]
  rw [List.countP_eq_length] at hall
  intro k hk
  simpa using hall k hk


/-! ## Full rows and their labels -/

theorem replaceP_rowText (p r c b v rot : Nat) (hv : v < 25) :
    replaceP (rowText p r c b (glyph v) rot) = String.mk (Nat.toDigits 10 p) := by
  rw [glyph_eq_singleton hv]
  obtain ⟨⟨xs, ys, e1, hy, hh⟩, _, hlf⟩ :=
    rowText_shape p r c b (glyphChar v) rot (glyphChar_ne_p hv) (glyphChar_ne_lf hv)
  have hnl : ¬ ('\n' ∈ (rowText p r c b (String.singleton (glyphChar v)) rot).data) :=
    fun hmem => hlf _ hmem rfl
  unfold replaceP
  rw [if_neg hnl, e1, captureP_last xs _ ys (toDigits_ne_nil p) (toDigits_isDigit p) hy hh]

theorem pvOf_full (N B p v : Nat) (hv : v < N) :
    pvOf N [p, N * N + p / N * N + v, N * N * 2 + p % N * N + v,
      N * N * 3 + blockOf N B p * N + v] = (p, v) := by
  simp only [pvOf, cellOf, List.headD_cons, List.getD_cons_succ, List.getD_cons_zero]
  have : N * N + p / N * N + v = v + (N + p / N) * N := by ring
  rw [this, Nat.add_mul_mod_self_right, Nat.mod_eq_of_lt hv]

/-- A full row: the shape of a row with four elements. -/
theorem RowShape.full {N B : Nat} {row : List Nat} (h : RowShape N B row)
    (h4 : row.length = 4) :
    (pvOf N row).1 < N * N ∧ (pvOf N row).2 < N ∧ cellOf row = (pvOf N row).1 ∧
      row = [(pvOf N row).1, N * N + (pvOf N row).1 / N * N + (pvOf N row).2,
        N * N * 2 + (pvOf N row).1 % N * N + (pvOf N row).2,
        N * N * 3 + blockOf N B (pvOf N row).1 * N + (pvOf N row).2] := by
  obtain ⟨p, hp, rfl | ⟨v, hv, rfl⟩⟩ := h
  · simp at h4
  · rw [pvOf_full N B p v hv]
    exact ⟨hp, hv, rfl, rfl⟩

/-- The labels of the columns of a full row of the matrix of a supported size. -/
theorem RowShape.labels {N : Nat} (hN : Supported N) {row : List Nat}
    (hs : RowShape N (intSqrt N) row) (h4 : row.length = 4) :
    row.map (fun j => (headerLabels N).getD j "") =
      [labelP (pvOf N row).1, labelR ((pvOf N row).1 / N) (glyph (pvOf N row).2),
        labelC ((pvOf N row).1 % N) (glyph (pvOf N row).2),
        labelB (blockOf N (intSqrt N) (pvOf N row).1) (glyph (pvOf N row).2)] := by
  obtain ⟨p, hp, rfl | ⟨v, hv, rfl⟩⟩ := hs
  · simp at h4
  · rw [pvOf_full N _ p v hv]
    obtain ⟨e1, e2⟩ := candRow_labels hp hv (blockOf_lt_of_supported hN hp)
    rw [← e1]; exact e2

/-- The label of a selected full row is the text of its candidate. -/
theorem rowLabel_full {N : Nat} (hN : Supported N) {rows : List (List Nat)} {k : Nat}
    (hs : RowShape N (intSqrt N) (rows.getD k [])) (h4 : (rows.getD k []).length = 4)
    (rot : Nat) :
    rowLabel ⟨headerLabels N, rows⟩ k rot =
      rowText (pvOf N (rows.getD k [])).1 ((pvOf N (rows.getD k [])).1 / N)
        ((pvOf N (rows.getD k [])).1 % N) (blockOf N (intSqrt N) (pvOf N (rows.getD k [])).1)
        (glyph (pvOf N (rows.getD k [])).2) rot := by
  unfold rowLabel rowText
  simp only []
  rw [List.map_rotate, hs.labels hN h4]


/-! ## Decoding an exact cover -/

theorem Supported.sq_lt {N : Nat} (h : Supported N) : N * N < 2 ^ 63 := by
  have := h.le
  have : N * N ≤ 25 * 25 := Nat.mul_le_mul this this
  omega

/-- Decoding an exact cover of a matrix whose rows have the shape of Sudoku rows: there are
`N*N` selected rows, all of them full, and the decoded string holds at the position of every
selected row the glyph of its value. -/
theorem cover_decode {N : Nat} (hN : Supported N) {rows : List (List Nat)}
    (hrows : ∀ row ∈ rows, RowShape N (intSqrt N) row) {sel : List (Nat × Nat)}
    (hS : IsExactCover ⟨headerLabels N, rows⟩ (sel.map Prod.fst)) :
    sel.length = N * N ∧
    (∀ kr ∈ sel, RowShape N (intSqrt N) (rows.getD kr.1 []) ∧
      (rows.getD kr.1 []).length = 4) ∧
    ∃ g, decodeCover (sel.map fun kr => rowLabel ⟨headerLabels N, rows⟩ kr.1 kr.2) = some g ∧
      g.data.length = N * N ∧
      ∀ kr ∈ sel, g.data[(pvOf N (rows.getD kr.1 [])).1]? =
        some (glyphChar (pvOf N (rows.getD kr.1 [])).2) := by
  obtain ⟨hperm, hlen, hfull⟩ := exactCover_cells (headerLabels_length N) hrows hS
  have hlen' : sel.length = N * N := by simpa using hlen
  have hshape : ∀ kr ∈ sel, RowShape N (intSqrt N) (rows.getD kr.1 []) ∧
      (rows.getD kr.1 []).length = 4 := by
    intro kr hkr
    have hmem : kr.1 ∈ sel.map Prod.fst := List.mem_map.2 ⟨kr, hkr, rfl⟩
    exact ⟨hrows _ (getD_mem_rows (hS.1 _ hmem)), hfull _ hmem⟩
  refine ⟨hlen', hshape, ?_⟩
  have hrel : List.Forall₂ (fun label (pv : Nat × Nat) =>
      ∃ r c b rot, label = rowText pv.1 r c b (glyph pv.2) rot)
      (sel.map fun kr => rowLabel ⟨headerLabels N, rows⟩ kr.1 kr.2)
      (sel.map fun kr => pvOf N (rows.getD kr.1 [])) := by
    rw [List.forall₂_map_left_iff, List.forall₂_map_right_iff, List.forall₂_same]
    intro kr hkr
    obtain ⟨hs, h4⟩ := hshape kr hkr
    exact ⟨_, _, _, kr.2, rowLabel_full hN hs h4 kr.2⟩
  have hall : ∀ pv ∈ sel.map (fun kr => pvOf N (rows.getD kr.1 [])),
      pv.1 < (sel.map fun kr => pvOf N (rows.getD kr.1 [])).length ∧ pv.2 < 25 := by
    intro pv hpv
    obtain ⟨kr, hkr, rfl⟩ := List.mem_map.1 hpv
    obtain ⟨hs, h4⟩ := hshape kr hkr
    obtain ⟨h1, h2, _, _⟩ := hs.full h4
    have := hN.le
    refine ⟨by simpa [hlen'] using h1, by omega⟩
  have hnd : ((sel.map fun kr => pvOf N (rows.getD kr.1 [])).map Prod.fst).Nodup := by
    have e : (sel.map fun kr => pvOf N (rows.getD kr.1 [])).map Prod.fst =
        (sel.map Prod.fst).map fun k => cellOf (rows.getD k []) := by
      simp [List.map_map, Function.comp_def, pvOf]
    rw [e, hperm.nodup_iff]
    exact List.nodup_range _
  obtain ⟨g, hg, hgl, hget⟩ := decodeCover_rows _ _ hrel hall
    (by simpa [hlen'] using hN.sq_lt) hnd
  refine ⟨g, hg, by simpa [hlen'] using hgl, ?_⟩
  intro kr hkr
  exact hget _ (List.mem_map.2 ⟨kr, hkr, rfl⟩)


/-! ## The matrix of the all-blank puzzle -/

theorem flatten_blocks {α : Type} (f : Nat → Nat → α) (N : Nat) : ∀ M,
    ((List.range M).map fun p => (List.range N).map (f p)).flatten =
      (List.range (M * N)).map fun k => f (k / N) (k % N) := by
  intro M
  induction M with
  | zero => simp
  | succ M ih =>
    rw [List.range_succ, List.map_append, List.flatten_append, ih]
    have e : (M + 1) * N = M * N + N := by ring
    rw [e, List.range_add, List.map_append]
    congr 1
    simp only [List.map_cons, List.map_nil, List.flatten_cons, List.flatten_nil, List.append_nil,
      List.map_map]
    apply List.map_congr_left
    intro v hv
    have hv' : v < N := List.mem_range.1 hv
    have := (divmod_unique (j := M * N + v) hv').2 rfl
    simp only [Function.comp_apply]
    rw [this.1, this.2]

theorem cellRows_blank (N B p : Nat) (hp : p < N * N) :
    cellRows N B (List.replicate (N * N) '.') p = (List.range N).map (candRow N B p) := by
  unfold cellRows
  have : (List.replicate (N * N) '.').get? p = some '.' := by
    rw [List.get?_eq_getElem?, List.getElem?_replicate]; simp [hp]
  rw [this]
  simp

/-- The rows of the matrix of the all-blank puzzle: row `p*N + v` is the candidate "cell `p`
holds value `v`". -/
theorem matrixRows_blank (N : Nat) :
    matrixRows N (List.replicate (N * N) '.') =
      (List.range (N * N * N)).map fun k => candRow N (intSqrt N) (k / N) (k % N) := by
  unfold matrixRows
  rw [← flatten_blocks]
  congr 1
  apply List.map_congr_left
  intro p hp
  exact cellRows_blank N _ p (List.mem_range.1 hp)

theorem matrixRows_blank_getD (N k : Nat) (hk : k < N * N * N) :
    (matrixRows N (List.replicate (N * N) '.')).getD k [] =
      candRow N (intSqrt N) (k / N) (k % N) := by
  rw [matrixRows_blank, List.getD_eq_getElem _ _ (by simpa using hk)]
  simp


/-! ## Labels of the rows of the all-blank matrix -/

/-- The label of the row `p*N + v` of the matrix of the all-blank puzzle. -/
theorem rowLabel_blank {N : Nat} (hN : Supported N) {p v : Nat} (hp : p < N * N) (hv : v < N)
    (rot : Nat) :
    rowLabel ⟨headerLabels N, matrixRows N (List.replicate (N * N) '.')⟩ (p * N + v) rot =
      rowText p (p / N) (p % N) (blockOf N (intSqrt N) p) (glyph v) rot := by
  have hk : p * N + v < N * N * N := by
    calc p * N + v < p * N + N := by omega
      _ = (p + 1) * N := by ring
      _ ≤ N * N * N := Nat.mul_le_mul_right N hp
  have hdm := (divmod_unique (j := p * N + v) hv).2 rfl
  obtain ⟨_, e2⟩ := candRow_labels (B := intSqrt N) hp hv (blockOf_lt_of_supported hN hp)
  unfold rowLabel rowText
  simp only []
  rw [List.map_rotate, matrixRows_blank_getD N _ hk, hdm.1, hdm.2, e2]

/-! ## Blocks and reindexing -/

theorem intSqrt_sq (B : Nat) : intSqrt (B * B) = B := by
  unfold intSqrt
  rw [Nat.findGreatest_eq_iff]
  refine ⟨Nat.le_mul_self B, fun _ => le_rfl, ?_⟩
  intro n hn _ hle
  have : B * B < n * n := Nat.mul_self_lt_mul_self hn
  omega

/-- Counting along an injective enumeration `f` of the numbers below `M` that satisfy `q`. -/
theorem countP_reindex (f : Nat → Nat) (n M : Nat) (q : Nat → Bool)
    (hinj : ∀ a, a < n → ∀ b, b < n → f a = f b → a = b) (hrng : ∀ a, a < n → f a < M)
    (hsurj : ∀ p, p < M → q p = true → ∃ a, a < n ∧ f a = p) :
    (List.range M).countP q = (List.range n).countP (fun a => q (f a)) := by
  rw [List.countP_eq_length_filter, List.countP_eq_length_filter,
    ← List.length_map ((List.range n).filter fun a => q (f a)) f]
  apply List.Perm.length_eq
  rw [List.perm_ext_iff_of_nodup ((List.nodup_range M).filter _)]
  · intro p
    simp only [List.mem_filter, List.mem_range, List.mem_map]
    constructor
    · rintro ⟨hp, hq⟩
      obtain ⟨a, ha, rfl⟩ := hsurj p hp hq
      exact ⟨a, ⟨ha, hq⟩, rfl⟩
    · rintro ⟨a, ⟨ha, hq⟩, rfl⟩
      exact ⟨hrng a ha, hq⟩
  · apply List.Nodup.map_on _ ((List.nodup_range n).filter _)
    intro a ha b hb h
    simp only [List.mem_filter, List.mem_range] at ha hb
    exact hinj a ha.1 b hb.1 h

/-- The position of the cell in row `r` and column `c`. -/
theorem cell_div_mod {N r c : Nat} (hc : c < N) : (r * N + c) / N = r ∧ (r * N + c) % N = c :=
  (divmod_unique hc).2 rfl

/-- The block index that the source computes is the block row times `B` plus the block
column. -/
theorem blockOf_eq {B p : Nat} (hB : 0 < B) :
    blockOf (B * B) B p = p / (B * B) / B * B + p % (B * B) / B := by
  unfold blockOf
  have h1 : p / (B * B * B) = p / (B * B) / B := by rw [Nat.div_div_eq_div_mul]
  have h2 : p / B % B = p % (B * B) / B := by
    have hp : p = p % (B * B) + (p / (B * B) * B) * B := by
      have := Nat.div_add_mod p (B * B)
      calc p = B * B * (p / (B * B)) + p % (B * B) := this.symm
        _ = p % (B * B) + (p / (B * B) * B) * B := by ring
    have hlt : p % (B * B) / B < B :=
      Nat.div_lt_of_lt_mul (Nat.mod_lt _ (Nat.mul_pos hB hB))
    conv_lhs => rw [hp]
    rw [Nat.add_mul_div_right _ _ hB, Nat.add_mul_mod_self_right, Nat.mod_eq_of_lt hlt]
  rw [h1, h2]

/-- The cell `t` of the block `b`: block row `b / B`, block column `b % B`, offsets `t / B` and
`t % B`. -/
theorem blockCell {B b t : Nat} (hb : b < B * B) (ht : t < B * B) :
    ((b / B * B + t / B) * (B * B) + (b % B * B + t % B)) / (B * B) = b / B * B + t / B ∧
    ((b / B * B + t / B) * (B * B) + (b % B * B + t % B)) % (B * B) = b % B * B + t % B ∧
    b / B * B + t / B < B * B ∧ b % B * B + t % B < B * B ∧
    blockOf (B * B) B ((b / B * B + t / B) * (B * B) + (b % B * B + t % B)) = b := by
  have hB : 0 < B := by
    rcases Nat.eq_zero_or_pos B with h | h
    · subst h; simp at hb
    · exact h
  have h1 : b / B < B := Nat.div_lt_of_lt_mul hb
  have h2 : t / B < B := Nat.div_lt_of_lt_mul ht
  have h3 : b % B < B := Nat.mod_lt _ hB
  have h4 : t % B < B := Nat.mod_lt _ hB
  have hrow : b / B * B + t / B < B * B := mul_add_lt_sq h1 h2
  have hcol : b % B * B + t % B < B * B := mul_add_lt_sq h3 h4
  obtain ⟨e1, e2⟩ := cell_div_mod (N := B * B) (r := b / B * B + t / B) hcol
  refine ⟨e1, e2, hrow, hcol, ?_⟩
  rw [blockOf_eq hB, e1, e2, (cell_div_mod (N := B) (r := b / B) h2).1,
    (cell_div_mod (N := B) (r := b % B) h4).1]
  exact Nat.div_add_mod' b B


/-! ## Rows of the all-blank matrix of size B*B -/

/-- The columns of the row `p*N + v` of the matrix of the all-blank puzzle of size `B*B`. -/
theorem blank_row {B p v : Nat} (hp : p < B * B * (B * B)) (hv : v < B * B) :
    (matrixRows (B * B) (List.replicate (B * B * (B * B)) '.')).getD (p * (B * B) + v) [] =
      [p, B * B * (B * B) + p / (B * B) * (B * B) + v,
        B * B * (B * B) * 2 + p % (B * B) * (B * B) + v,
        B * B * (B * B) * 3 + blockOf (B * B) B p * (B * B) + v] := by
  have hk : p * (B * B) + v < B * B * (B * B) * (B * B) := by
    calc p * (B * B) + v < p * (B * B) + B * B := by omega
      _ = (p + 1) * (B * B) := by ring
      _ ≤ B * B * (B * B) * (B * B) := Nat.mul_le_mul_right _ hp
  obtain ⟨e1, e2⟩ := cell_div_mod (N := B * B) (r := p) hv
  rw [matrixRows_blank_getD _ _ hk, e1, e2, intSqrt_sq]
  simp [candRow, blockOf_lt_sq hp]

theorem count_range_eq_one {n j : Nat} (hj : j < n) :
    (List.range n).countP (fun p => decide (p = j)) = 1 := by
  have := List.count_eq_one_of_mem (List.nodup_range n) (List.mem_range.2 hj)
  rw [List.count_eq_countP] at this
  rw [← this]
  apply List.countP_congr
  intro x _; simp


/-! ## Counting the rows of a grid in a column -/

/-- Membership of a column in the row that a grid selects for the position `p`. -/
theorem covers_grid {B : Nat} {grid : Nat → Nat} {p : Nat} (hp : p < B * B * (B * B))
    (hg : grid p < B * B) (j : Nat) :
    covers ⟨headerLabels (B * B), matrixRows (B * B) (List.replicate (B * B * (B * B)) '.')⟩ j
        (p * (B * B) + grid p) =
      decide (j ∈ [p, B * B * (B * B) + p / (B * B) * (B * B) + grid p,
        B * B * (B * B) * 2 + p % (B * B) * (B * B) + grid p,
        B * B * (B * B) * 3 + blockOf (B * B) B p * (B * B) + grid p]) := by
  unfold covers
  simp only []
  rw [blank_row hp hg]

theorem count_cell {B : Nat} {grid : Nat → Nat} (hgrid : ∀ p, p < B * B * (B * B) → grid p < B * B)
    {j : Nat} (hj : j < B * B * (B * B)) :
    (List.range (B * B * (B * B))).countP (fun p =>
      covers ⟨headerLabels (B * B), matrixRows (B * B) (List.replicate (B * B * (B * B)) '.')⟩ j
        (p * (B * B) + grid p)) = 1 := by
  rw [← count_range_eq_one hj]
  apply List.countP_congr
  intro p hp
  have hp' := List.mem_range.1 hp
  rw [covers_grid hp' (hgrid p hp')]
  simp only [decide_eq_true_eq, List.mem_cons, List.mem_singleton, List.not_mem_nil, or_false]
  constructor
  · rintro (h | h | h | h)
    · exact h.symm
    all_goals omega
  · intro h; exact Or.inl h.symm

theorem count_row {B : Nat} {grid : Nat → Nat} (hgrid : ∀ p, p < B * B * (B * B) → grid p < B * B)
    {r v : Nat} (hr : r < B * B) (hv : v < B * B) :
    (List.range (B * B * (B * B))).countP (fun p =>
      covers ⟨headerLabels (B * B), matrixRows (B * B) (List.replicate (B * B * (B * B)) '.')⟩
        (B * B * (B * B) + r * (B * B) + v) (p * (B * B) + grid p)) =
    (List.range (B * B)).countP (fun c => grid (r * (B * B) + c) == v) := by
  have step : (List.range (B * B * (B * B))).countP (fun p =>
      covers ⟨headerLabels (B * B), matrixRows (B * B) (List.replicate (B * B * (B * B)) '.')⟩
        (B * B * (B * B) + r * (B * B) + v) (p * (B * B) + grid p)) =
      (List.range (B * B * (B * B))).countP (fun p =>
        decide (p / (B * B) = r ∧ grid p = v)) := by
    apply List.countP_congr
    intro p hp
    have hp' := List.mem_range.1 hp
    have hg := hgrid p hp'
    have hrow : p / (B * B) < B * B := Nat.div_lt_of_lt_mul hp'
    have hx := mul_add_lt_sq hrow hg
    have hy := mul_add_lt_sq hr hv
    rw [covers_grid hp' hg]
    simp only [decide_eq_true_eq, List.mem_cons, List.mem_singleton, List.not_mem_nil, or_false]
    constructor
    · rintro (h | h | h | h)
      · omega
      · have e : p / (B * B) * (B * B) + grid p = r * (B * B) + v := by omega
        have := (divmod_unique hv).2 e
        rw [(cell_div_mod hg).1, (cell_div_mod hg).2] at this
        exact this
      · omega
      · omega
    · rintro ⟨h1, h2⟩
      rw [h1, h2]; exact Or.inr (Or.inl rfl)
  rw [step, countP_reindex (fun c => r * (B * B) + c) (B * B) (B * B * (B * B))]
  · apply List.countP_congr
    intro c hc
    have hc' := List.mem_range.1 hc
    simp only [(cell_div_mod hc').1, true_and, decide_eq_true_eq, beq_iff_eq]
  · intro a _ b _ h; omega
  · intro a ha; exact mul_add_lt_sq hr ha
  · intro p hp hq
    simp only [decide_eq_true_eq] at hq
    have hB : 0 < B * B := by omega
    refine ⟨p % (B * B), Nat.mod_lt _ hB, ?_⟩
    rw [← hq.1]; exact Nat.div_add_mod' p (B * B)

theorem count_col {B : Nat} {grid : Nat → Nat} (hgrid : ∀ p, p < B * B * (B * B) → grid p < B * B)
    {c v : Nat} (hc : c < B * B) (hv : v < B * B) :
    (List.range (B * B * (B * B))).countP (fun p =>
      covers ⟨headerLabels (B * B), matrixRows (B * B) (List.replicate (B * B * (B * B)) '.')⟩
        (B * B * (B * B) * 2 + c * (B * B) + v) (p * (B * B) + grid p)) =
    (List.range (B * B)).countP (fun r => grid (r * (B * B) + c) == v) := by
  have step : (List.range (B * B * (B * B))).countP (fun p =>
      covers ⟨headerLabels (B * B), matrixRows (B * B) (List.replicate (B * B * (B * B)) '.')⟩
        (B * B * (B * B) * 2 + c * (B * B) + v) (p * (B * B) + grid p)) =
      (List.range (B * B * (B * B))).countP (fun p =>
        decide (p % (B * B) = c ∧ grid p = v)) := by
    apply List.countP_congr
    intro p hp
    have hp' := List.mem_range.1 hp
    have hg := hgrid p hp'
    have hB : 0 < B * B := by omega
    have hcol : p % (B * B) < B * B := Nat.mod_lt _ hB
    have hx := mul_add_lt_sq hcol hg
    have hy := mul_add_lt_sq hc hv
    have hz := mul_add_lt_sq (blockOf_lt_sq hp') hg
    have hw := mul_add_lt_sq (Nat.div_lt_of_lt_mul hp') hg
    rw [covers_grid hp' hg]
    simp only [decide_eq_true_eq, List.mem_cons, List.mem_singleton, List.not_mem_nil, or_false]
    constructor
    · rintro (h | h | h | h)
      · omega
      · omega
      · have e : p % (B * B) * (B * B) + grid p = c * (B * B) + v := by omega
        have := (divmod_unique hv).2 e
        rw [(cell_div_mod hg).1, (cell_div_mod hg).2] at this
        exact this
      · omega
    · rintro ⟨h1, h2⟩
      rw [h1, h2]; exact Or.inr (Or.inr (Or.inl rfl))
  rw [step, countP_reindex (fun r => r * (B * B) + c) (B * B) (B * B * (B * B))]
  · apply List.countP_congr
    intro r hr
    simp only [(cell_div_mod hc).2, true_and, decide_eq_true_eq, beq_iff_eq]
  · intro a _ b _ h
    have hB : 0 < B * B := by omega
    have : a * (B * B) = b * (B * B) := by omega
    exact Nat.eq_of_mul_eq_mul_right hB this
  · intro a ha; exact mul_add_lt_sq ha hc
  · intro p hp hq
    simp only [decide_eq_true_eq] at hq
    refine ⟨p / (B * B), Nat.div_lt_of_lt_mul hp, ?_⟩
    rw [← hq.1]; exact Nat.div_add_mod' p (B * B)


/-! ## Counting the rows of a grid in a block column -/

theorem count_block {B : Nat} {grid : Nat → Nat}
    (hgrid : ∀ p, p < B * B * (B * B) → grid p < B * B)
    {b v : Nat} (hb : b < B * B) (hv : v < B * B) :
    (List.range (B * B * (B * B))).countP (fun p =>
      covers ⟨headerLabels (B * B), matrixRows (B * B) (List.replicate (B * B * (B * B)) '.')⟩
        (B * B * (B * B) * 3 + b * (B * B) + v) (p * (B * B) + grid p)) =
    (List.range (B * B)).countP
      (fun t => grid ((b / B * B + t / B) * (B * B) + (b % B * B + t % B)) == v) := by
  have hB : 0 < B := by
    rcases Nat.eq_zero_or_pos B with h | h
    · subst h; simp at hb
    · exact h
  have hBB : 0 < B * B := Nat.mul_pos hB hB
  have step : (List.range (B * B * (B * B))).countP (fun p =>
      covers ⟨headerLabels (B * B), matrixRows (B * B) (List.replicate (B * B * (B * B)) '.')⟩
        (B * B * (B * B) * 3 + b * (B * B) + v) (p * (B * B) + grid p)) =
      (List.range (B * B * (B * B))).countP (fun p =>
        decide (blockOf (B * B) B p = b ∧ grid p = v)) := by
    apply List.countP_congr
    intro p hp
    have hp' := List.mem_range.1 hp
    have hg := hgrid p hp'
    have hcol : p % (B * B) < B * B := Nat.mod_lt _ hBB
    have hx := mul_add_lt_sq hcol hg
    have hy := mul_add_lt_sq hb hv
    have hz := mul_add_lt_sq (blockOf_lt_sq hp') hg
    have hw := mul_add_lt_sq (Nat.div_lt_of_lt_mul hp') hg
    rw [covers_grid hp' hg]
    simp only [decide_eq_true_eq, List.mem_cons, List.mem_singleton, List.not_mem_nil, or_false]
    constructor
    · rintro (h | h | h | h)
      · omega
      · omega
      · omega
      · have e : blockOf (B * B) B p * (B * B) + grid p = b * (B * B) + v := by omega
        have := (divmod_unique hv).2 e
        rw [(cell_div_mod hg).1, (cell_div_mod hg).2] at this
        exact this
    · rintro ⟨h1, h2⟩
      rw [h1, h2]; exact Or.inr (Or.inr (Or.inr rfl))
  rw [step, countP_reindex
    (fun t => (b / B * B + t / B) * (B * B) + (b % B * B + t % B)) (B * B) (B * B * (B * B))]
  · apply List.countP_congr
    intro t ht
    have ht' := List.mem_range.1 ht
    simp only [(blockCell hb ht').2.2.2.2, true_and, decide_eq_true_eq, beq_iff_eq]
  · intro a ha c hc h
    obtain ⟨a1, a2, _, _, _⟩ := blockCell hb ha
    obtain ⟨c1, c2, _, _, _⟩ := blockCell hb hc
    have hd : b / B * B + a / B = b / B * B + c / B := by rw [← a1, ← c1, h]
    have hm : b % B * B + a % B = b % B * B + c % B := by rw [← a2, ← c2, h]
    exact eq_of_divmod (N := B) (by omega) (by omega)
  · intro a ha
    obtain ⟨_, _, h1, h2, _⟩ := blockCell hb ha
    exact mul_add_lt_sq h1 h2
  · intro p hp hq
    simp only [decide_eq_true_eq] at hq
    have hblock := hq.1
    rw [blockOf_eq hB] at hblock
    have hr : p / (B * B) < B * B := Nat.div_lt_of_lt_mul hp
    have hc : p % (B * B) < B * B := Nat.mod_lt _ hBB
    have hcb : p % (B * B) / B < B := Nat.div_lt_of_lt_mul hc
    have hbd : b / B = p / (B * B) / B := by
      rw [← hblock]; exact (cell_div_mod hcb).1
    have hbm : b % B = p % (B * B) / B := by
      rw [← hblock]; exact (cell_div_mod hcb).2
    have ht1 : p / (B * B) % B < B := Nat.mod_lt _ hB
    have ht2 : p % (B * B) % B < B := Nat.mod_lt _ hB
    refine ⟨p / (B * B) % B * B + p % (B * B) % B, mul_add_lt_sq ht1 ht2, ?_⟩
    rw [(cell_div_mod ht2).1, (cell_div_mod ht2).2, hbd, hbm, Nat.div_add_mod' (p / (B * B)) B,
      Nat.div_add_mod' (p % (B * B)) B]
    exact Nat.div_add_mod' p (B * B)


/-! ## Grids and exact covers -/

theorem IsExactCover.perm {m : Matrix} {S T : List Nat} (h : S.Perm T)
    (hS : IsExactCover m S) : IsExactCover m T :=
  ⟨fun k hk => hS.1 k (h.mem_iff.2 hk), fun j hj => by rw [← h.countP_eq]; exact hS.2 j hj⟩

theorem matrixRows_blank_length (N : Nat) :
    (matrixRows N (List.replicate (N * N) '.')).length = N * N * N := by
  rw [matrixRows_blank]; simp

theorem rowsOfGrid_lt {N : Nat} {grid : Nat → Nat} (hgrid : ∀ p, p < N * N → grid p < N)
    {k : Nat} (hk : k ∈ rowsOfGrid N grid) : k < N * N * N := by
  unfold rowsOfGrid at hk
  obtain ⟨p, hp, rfl⟩ := List.mem_map.1 hk
  have hp' := List.mem_range.1 hp
  have := hgrid p hp'
  calc p * N + grid p < p * N + N := by omega
    _ = (p + 1) * N := by ring
    _ ≤ N * N * N := Nat.mul_le_mul_right N hp'

/-- The rows that a grid selects form an exact cover of the matrix of the all-blank puzzle
exactly when every row, column and block of the grid holds every value once. -/
theorem grid_exactCover_iff {B : Nat} {grid : Nat → Nat}
    (hgrid : ∀ p, p < B * B * (B * B) → grid p < B * B) :
    IsExactCover
        ⟨headerLabels (B * B), matrixRows (B * B) (List.replicate (B * B * (B * B)) '.')⟩
        (rowsOfGrid (B * B) grid) ↔ IsValidGrid B grid := by
  have hcount : ∀ j, (rowsOfGrid (B * B) grid).countP (covers
      ⟨headerLabels (B * B), matrixRows (B * B) (List.replicate (B * B * (B * B)) '.')⟩ j) =
      (List.range (B * B * (B * B))).countP (fun p => covers
        ⟨headerLabels (B * B), matrixRows (B * B) (List.replicate (B * B * (B * B)) '.')⟩ j
        (p * (B * B) + grid p)) := by
    intro j
    unfold rowsOfGrid
    rw [List.countP_map]
    rfl
  have h4 : 4 * (B * B) * (B * B) = B * B * (B * B) * 4 := by ring
  constructor
  · intro h
    have hcol := h.2
    simp only [headerLabels_length, h4] at hcol
    refine ⟨hgrid, ?_, ?_, ?_⟩
    · intro r hr v hv
      have hj := mul_add_lt_sq hr hv
      rw [← count_row hgrid hr hv, ← hcount]
      exact hcol _ (by omega)
    · intro c hc v hv
      have hj := mul_add_lt_sq hc hv
      rw [← count_col hgrid hc hv, ← hcount]
      exact hcol _ (by omega)
    · intro b hb v hv
      have hj := mul_add_lt_sq hb hv
      rw [← count_block hgrid hb hv, ← hcount]
      exact hcol _ (by omega)
  · rintro ⟨_, hrow, hcol, hblock⟩
    refine ⟨?_, ?_⟩
    · intro k hk
      simp only []
      rw [matrixRows_blank_length]
      exact rowsOfGrid_lt hgrid hk
    · intro j hj
      simp only [headerLabels_length, h4] at hj
      rw [hcount]
      have hBB : 0 < B * B := by
        rcases Nat.eq_zero_or_pos (B * B) with h | h
        · rw [h] at hj; simp at hj
        · exact h
      by_cases h1 : j < B * B * (B * B)
      · exact count_cell hgrid h1
      by_cases h2 : j < B * B * (B * B) * 2
      · have hi : j - B * B * (B * B) < B * B * (B * B) := by omega
        have e : j = B * B * (B * B) + (j - B * B * (B * B)) / (B * B) * (B * B) +
            (j - B * B * (B * B)) % (B * B) := by
          have := Nat.div_add_mod' (j - B * B * (B * B)) (B * B)
          omega
        rw [e, count_row hgrid (Nat.div_lt_of_lt_mul hi) (Nat.mod_lt _ hBB)]
        exact hrow _ (Nat.div_lt_of_lt_mul hi) _ (Nat.mod_lt _ hBB)
      by_cases h3 : j < B * B * (B * B) * 3
      · have hi : j - B * B * (B * B) * 2 < B * B * (B * B) := by omega
        have e : j = B * B * (B * B) * 2 + (j - B * B * (B * B) * 2) / (B * B) * (B * B) +
            (j - B * B * (B * B) * 2) % (B * B) := by
          have := Nat.div_add_mod' (j - B * B * (B * B) * 2) (B * B)
          omega
        rw [e, count_col hgrid (Nat.div_lt_of_lt_mul hi) (Nat.mod_lt _ hBB)]
        exact hcol _ (Nat.div_lt_of_lt_mul hi) _ (Nat.mod_lt _ hBB)
      · have hi : j - B * B * (B * B) * 3 < B * B * (B * B) := by omega
        have e : j = B * B * (B * B) * 3 + (j - B * B * (B * B) * 3) / (B * B) * (B * B) +
            (j - B * B * (B * B) * 3) % (B * B) := by
          have := Nat.div_add_mod' (j - B * B * (B * B) * 3) (B * B)
          omega
        rw [e, count_block hgrid (Nat.div_lt_of_lt_mul hi) (Nat.mod_lt _ hBB)]
        exact hblock _ (Nat.div_lt_of_lt_mul hi) _ (Nat.mod_lt _ hBB)


/-! ## The grid of an exact cover -/

theorem rowShape_blank {B : Nat} {row : List Nat}
    (h : row ∈ matrixRows (B * B) (List.replicate (B * B * (B * B)) '.')) :
    RowShape (B * B) B row := by
  rw [matrixRows_blank, List.mem_map] at h
  obtain ⟨k, hk, rfl⟩ := h
  have hk' := List.mem_range.1 hk
  have hB : 0 < B * B := by
    rcases Nat.eq_zero_or_pos (B * B) with h | h
    · rw [h] at hk'; simp at hk'
    · exact h
  have hp : k / (B * B) < B * B * (B * B) := Nat.div_lt_of_lt_mul (by
    calc k < B * B * (B * B) * (B * B) := hk'
      _ = B * B * (B * B * (B * B)) := by ring)
  refine ⟨k / (B * B), hp, Or.inr ⟨k % (B * B), Nat.mod_lt _ hB, ?_⟩⟩
  rw [intSqrt_sq]
  simp [candRow, blockOf_lt_sq hp]

theorem cellOf_blank {B k : Nat} (hk : k < B * B * (B * B) * (B * B)) :
    cellOf ((matrixRows (B * B) (List.replicate (B * B * (B * B)) '.')).getD k []) =
      k / (B * B) := by
  rw [matrixRows_blank_getD _ _ hk]
  simp [cellOf, candRow]

/-- An exact cover of the matrix of the all-blank puzzle selects, for every position, exactly
one candidate row: it is the selection of rows of a grid, up to the order. -/
theorem exactCover_grid {B : Nat} {S : List Nat}
    (hS : IsExactCover
      ⟨headerLabels (B * B), matrixRows (B * B) (List.replicate (B * B * (B * B)) '.')⟩ S) :
    (∀ p, p < B * B * (B * B) → gridOf (B * B) S p < B * B) ∧
      S.Perm (rowsOfGrid (B * B) (gridOf (B * B) S)) := by
  obtain ⟨hperm, hlen, _⟩ := exactCover_cells (N := B * B) (B := B)
    (by rw [headerLabels_length]) (fun row hrow => rowShape_blank hrow) hS
  have hlt : ∀ k ∈ S, k < B * B * (B * B) * (B * B) := fun k hk => by
    have := hS.1 k hk
    simpa [matrixRows_blank_length] using this
  have hmap : (S.map fun k => cellOf ((matrixRows (B * B)
      (List.replicate (B * B * (B * B)) '.')).getD k [])) = S.map fun k => k / (B * B) :=
    List.map_congr_left fun k hk => cellOf_blank (hlt k hk)
  rw [hmap] at hperm
  have hnd : (S.map fun k => k / (B * B)).Nodup := hperm.nodup_iff.2 (List.nodup_range _)
  have hinj := List.inj_on_of_nodup_map hnd
  -- the value of the grid at the cell of a selected row
  have hgrid : ∀ k ∈ S, k / (B * B) * (B * B) + gridOf (B * B) S (k / (B * B)) = k := by
    intro k hk
    unfold gridOf
    cases hf : S.find? (fun k' => k' / (B * B) == k / (B * B)) with
    | none =>
      rw [List.find?_eq_none] at hf
      exact absurd (hf k hk) (by simp)
    | some k' =>
      have h1 := List.find?_some hf
      have h2 := List.mem_of_find?_eq_some hf
      have : k' = k := hinj h2 hk (by simpa using h1)
      subst this
      simp only [Option.getD_some]
      exact Nat.div_add_mod' k' (B * B)
  by_cases hB : B * B = 0
  · have hS0 : S = [] := by
      cases S with
      | nil => rfl
      | cons a t =>
        have := hlt a (List.mem_cons_self _ _)
        rw [hB] at this; simp at this
    subst hS0
    constructor
    · intro p hp; rw [hB] at hp; simp at hp
    · simp [rowsOfGrid, hB]
  have hBpos : 0 < B * B := Nat.pos_of_ne_zero hB
  refine ⟨fun p _ => Nat.mod_lt _ hBpos, ?_⟩
  rw [List.perm_ext_iff_of_nodup (List.Nodup.of_map _ hnd)]
  · intro k
    unfold rowsOfGrid
    rw [List.mem_map]
    constructor
    · intro hk
      have hp : k / (B * B) ∈ List.range (B * B * (B * B)) :=
        hperm.mem_iff.1 (List.mem_map.2 ⟨k, hk, rfl⟩)
      exact ⟨k / (B * B), hp, hgrid k hk⟩
    · rintro ⟨p, hp, rfl⟩
      obtain ⟨k0, hk0, hk0p⟩ := List.mem_map.1 (hperm.mem_iff.2 hp)
      have := hgrid k0 hk0
      rw [hk0p] at this
      rw [this]; exact hk0
  · unfold rowsOfGrid
    apply List.Nodup.map_on _ (List.nodup_range _)
    intro p _ q _ h
    have hp := (cell_div_mod (N := B * B) (r := p) (c := gridOf (B * B) S p)
      (Nat.mod_lt _ hBpos)).1
    have hq := (cell_div_mod (N := B * B) (r := q) (c := gridOf (B * B) S q)
      (Nat.mod_lt _ hBpos)).1
    rw [← hp, ← hq, h]


/-! ## Block counts and the glyph table -/

/-- The number of positions of a board of block dimension `B` that lie in the block `b`. -/
theorem blockOf_count {B b : Nat} (hb : b < B * B) :
    (List.range (B * B * (B * B))).countP (fun p => decide (blockOf (B * B) B p = b)) =
      B * B := by
  have hB : 0 < B := by
    rcases Nat.eq_zero_or_pos B with h | h
    · subst h; simp at hb
    · exact h
  have hBB : 0 < B * B := Nat.mul_pos hB hB
  rw [countP_reindex
    (fun t => (b / B * B + t / B) * (B * B) + (b % B * B + t % B)) (B * B) (B * B * (B * B))]
  · rw [List.countP_eq_length_filter, List.filter_eq_self.2, List.length_range]
    intro t ht
    simp only [(blockCell hb (List.mem_range.1 ht)).2.2.2.2, decide_True]
  · intro a ha c hc h
    obtain ⟨a1, a2, _, _, _⟩ := blockCell hb ha
    obtain ⟨c1, c2, _, _, _⟩ := blockCell hb hc
    have hd : b / B * B + a / B = b / B * B + c / B := by rw [← a1, ← c1, h]
    have hm : b % B * B + a % B = b % B * B + c % B := by rw [← a2, ← c2, h]
    exact eq_of_divmod (N := B) (by omega) (by omega)
  · intro a ha
    obtain ⟨_, _, h1, h2, _⟩ := blockCell hb ha
    exact mul_add_lt_sq h1 h2
  · intro p hp hq
    simp only [decide_eq_true_eq] at hq
    have hblock := hq
    rw [blockOf_eq hB] at hblock
    have hr : p / (B * B) < B * B := Nat.div_lt_of_lt_mul hp
    have hc : p % (B * B) < B * B := Nat.mod_lt _ hBB
    have hcb : p % (B * B) / B < B := Nat.div_lt_of_lt_mul hc
    have hbd : b / B = p / (B * B) / B := by
      rw [← hblock]; exact (cell_div_mod hcb).1
    have hbm : b % B = p % (B * B) / B := by
      rw [← hblock]; exact (cell_div_mod hcb).2
    have ht1 : p / (B * B) % B < B := Nat.mod_lt _ hB
    have ht2 : p % (B * B) % B < B := Nat.mod_lt _ hB
    refine ⟨p / (B * B) % B * B + p % (B * B) % B, mul_add_lt_sq ht1 ht2, ?_⟩
    rw [(cell_div_mod ht2).1, (cell_div_mod ht2).2, hbd, hbm, Nat.div_add_mod' (p / (B * B)) B,
      Nat.div_add_mod' (p % (B * B)) B]
    exact Nat.div_add_mod' p (B * B)

/-- The glyph table, entry by entry. -/
theorem getValueString_char {v : Nat} (hv : v < 25) :
    getValueString v = ("0123456789ABCDEFGHIJKLMNO".data.get? v).map String.singleton ∧
    valueTable.indexOf (glyph v) = v := by
  interval_cases v <;> exact ⟨rfl, by decide⟩

/-- The integer square root of the supported sizes. -/
theorem intSqrt_supported :
    intSqrt 2 = 1 ∧ intSqrt 4 = 2 ∧ intSqrt 9 = 3 ∧ intSqrt 16 = 4 ∧ intSqrt 25 = 5 := by
  decide


/-! ## The loop of printSolution in closed form -/

theorem foldl_chunks {α β : Type} (step : List β → α → List β) (g : α → List β) :
    ∀ (l : List α), (∀ o, ∀ a ∈ l, step o a = o ++ g a) → ∀ out,
      l.foldl step out = out ++ (l.map g).flatten := by
  intro l
  induction l with
  | nil => intro _ out; simp
  | cons a l ih =>
    intro h out
    rw [List.foldl_cons, h out a (List.mem_cons_self _ _),
      ih (fun o b hb => h o b (List.mem_cons_of_mem _ hb))]
    simp

theorem foldlM_chunks {α β : Type} (step : List β → α → Option (List β)) (g : α → List β) :
    ∀ (l : List α), (∀ o, ∀ a ∈ l, step o a = some (o ++ g a)) → ∀ out,
      l.foldlM step out = some (out ++ (l.map g).flatten) := by
  intro l
  induction l with
  | nil => intro _ out; simp
  | cons a l ih =>
    intro h out
    rw [List.foldlM_cons, h out a (List.mem_cons_self _ _)]
    simp only [Option.some_bind, Option.bind_eq_bind]
    rw [ih (fun o b hb => h o b (List.mem_cons_of_mem _ hb))]
    simp

theorem flatten_map_flatten {α β γ : Type} (F : β → List γ) (G : α → List β) (l : List α) :
    ((l.map G).flatten.map F).flatten = (l.map fun a => ((G a).map F).flatten).flatten := by
  induction l with
  | nil => simp
  | cons a l ih =>
    rw [List.map_cons, List.flatten_cons, List.map_append, List.flatten_append, ih,
      List.map_cons, List.flatten_cons]

theorem flatten_shift {α : Type} (pre x : Nat → List α) (n : Nat) :
    ((List.range n).map fun c => pre c ++ x c).flatten ++ pre n =
      pre 0 ++ ((List.range n).map fun c => x c ++ pre (c + 1)).flatten := by
  induction n with
  | zero => simp
  | succ n ih =>
    simp only [List.range_succ, List.map_append, List.flatten_append, List.map_cons,
      List.map_nil, List.flatten_cons, List.flatten_nil, List.append_nil]
    calc ((List.range n).map fun c => pre c ++ x c).flatten ++ (pre n ++ x n) ++ pre (n + 1)
        = (((List.range n).map fun c => pre c ++ x c).flatten ++ pre n) ++
            (x n ++ pre (n + 1)) := by simp
      _ = _ := by rw [ih]; simp

theorem flatten_first {α : Type} (A : List α) (g : Nat → List α) (n : Nat) :
    ((List.range (n + 1)).map fun c => (if c = 0 then A else []) ++ g c).flatten =
      A ++ ((List.range (n + 1)).map g).flatten := by
  induction n with
  | zero => simp [List.range_succ]
  | succ n ih =>
    rw [List.range_succ, List.map_append, List.flatten_append, ih, List.map_append,
      List.flatten_append]
    simp

theorem flatten_rows {α : Type} (g : Nat → List α) (N : Nat) : ∀ M,
    ((List.range (M * N)).map g).flatten =
      ((List.range M).map fun r => ((List.range N).map fun c => g (r * N + c)).flatten).flatten := by
  intro M
  induction M with
  | zero => simp
  | succ M ih =>
    have e : (M + 1) * N = M * N + N := by ring
    rw [e, List.range_add, List.map_append, List.flatten_append, ih, List.range_succ,
      List.map_append, List.flatten_append]
    simp [List.map_map, Function.comp_def]

theorem replicate_foldl (B : Nat) (x : String) (o : List String) :
    (List.range B).foldl (fun o2 _ => o2 ++ [x]) o = o ++ List.replicate B x := by
  rw [foldl_chunks _ (fun _ => [x]) _ (fun _ _ _ => rfl)]
  congr 1
  induction B with
  | zero => simp
  | succ B ih => rw [List.range_succ, List.map_append, List.flatten_append, ih]; simp [List.replicate_succ']

theorem printDashes_eq (B : Nat) (out : List String) :
    printDashes B out = out ++ dashChunks B := by
  unfold printDashes dashChunks
  apply foldl_chunks
  intro o i hi
  have hi' := List.mem_range.1 hi
  simp only [replicate_foldl]
  have hmod : (i + 1) % B = 0 ↔ i + 1 = B := by
    constructor
    · intro h
      rcases Nat.lt_or_ge (i + 1) B with h1 | h1
      · rw [Nat.mod_eq_of_lt h1] at h; omega
      · omega
    · intro h; rw [h]; exact Nat.mod_self B
  by_cases h : i + 1 = B
  · simp [h]
  · have : ¬ (i + 1) % B = 0 := fun h0 => h (hmod.1 h0)
    simp [h, this]

theorem intSqrt_pos {size : Nat} (h : 0 < size) : 0 < intSqrt size := by
  unfold intSqrt
  exact Nat.le_findGreatest h (by omega)

theorem printStep_eq (size B : Nat) (s : List Char) (out : List String) (p : Nat)
    (hp : p < s.length) (h0 : 0 < size * B) :
    printStep size B s out p =
      some (out ++ (leadChunks size B p ++ [cellPrint (cellValue size (s.getD p ' '))])) := by
  unfold printStep leadChunks
  have hget : s.get? p = some (s.getD p ' ') := by
    rw [List.get?_eq_getElem?, List.getD_eq_getElem?_getD, List.getElem?_eq_getElem hp]
    rfl
  rw [hget]
  simp only [printDashes_eq, if_neg (Nat.pos_iff_ne_zero.1 h0)]
  by_cases h1 : p % (size * B) = 0 ∧ p / (size * B) ≠ 0
  · simp [h1]
  · by_cases h2 : p % size = 0
    · by_cases h3 : p % (size * B) = 0
      · have h4 : p / (size * B) = 0 := by
          by_contra h; exact h1 ⟨h3, h⟩
        simp [h2, h3, h4]
      · simp [h2, h3]
    · by_cases h3 : p % (size * B) = 0
      · have h4 : p / (size * B) = 0 := by
          by_contra h; exact h1 ⟨h3, h⟩
        by_cases h5 : p % B = 0 <;> simp [h2, h3, h4, h5]
      · by_cases h5 : p % B = 0 <;> simp [h2, h3, h5]

theorem printSolution_chunks (size : Nat) (s : List Char) (hs : size * size ≤ s.length) :
    printSolution s size = some (((List.range (size * size)).map fun p =>
      leadChunks size (intSqrt size) p ++
        [cellPrint (cellValue size (s.getD p ' '))]).flatten) := by
  unfold printSolution
  rw [foldlM_chunks _ (fun p => leadChunks size (intSqrt size) p ++
        [cellPrint (cellValue size (s.getD p ' '))])]
  · simp
  · intro o p hp
    have hp' := List.mem_range.1 hp
    have hsize : 0 < size := by
      rcases Nat.eq_zero_or_pos size with h | h
      · subst h; simp at hp'
      · exact h
    exact printStep_eq _ _ _ _ _ (by omega) (Nat.mul_pos hsize (intSqrt_pos hsize))


/-! ## The printed text as the lines of a board -/

/-- The strings printed before the cell in row `r` and column `c` of a board of block
dimension `B`. -/
theorem leadChunks_cell {B r c : Nat} (hB : 0 < B) (hr : r < B * B) (hc : c < B * B) :
    leadChunks (B * B) B (r * (B * B) + c) =
      (if c = 0 then rowLead (B * B) B r ++ ["\n"] else []) ++ colLead (B * B) B c := by
  have hN : 0 < B * B := Nat.mul_pos hB hB
  obtain ⟨hdiv, hmod⟩ := cell_div_mod (N := B * B) (r := r) hc
  unfold leadChunks rowLead colLead
  by_cases h0 : c = 0
  · subst h0
    have e1 : (r * (B * B) + 0) % (B * B * B) = B * B * (r % B) := by
      rw [Nat.add_zero, Nat.mul_comm r (B * B), Nat.mul_mod_mul_left]
    have e2 : (r * (B * B) + 0) / (B * B * B) = r / B := by
      rw [Nat.add_zero, Nat.mul_comm r (B * B), Nat.mul_div_mul_left _ _ hN]
    have e3 : (r * (B * B) + 0) % (B * B) = 0 := by simp
    rw [e1, e2, e3]
    by_cases hrB : r % B = 0
    · by_cases hr0 : r = 0
      · subst hr0; simp
      · have hq : r / B ≠ 0 := by
          intro h
          have := Nat.div_add_mod r B
          rw [h, hrB] at this
          omega
        have hrN : r ≠ B * B := by omega
        simp [hrB, hr0, hq, hrN]
    · have : ¬ B * B * (r % B) = 0 := by
        intro h
        rcases Nat.mul_eq_zero.1 h with h | h
        · omega
        · exact hrB h
      simp [hrB, this]
  · have e3 : (r * (B * B) + c) % (B * B) = c := hmod
    have e1 : ¬ (r * (B * B) + c) % (B * B * B) = 0 := by
      intro h
      have hd : B * B ∣ r * (B * B) + c :=
        Dvd.dvd.trans (Dvd.intro _ rfl) (Nat.dvd_of_mod_eq_zero h)
      have := Nat.mod_eq_zero_of_dvd hd
      omega
    have e4 : (r * (B * B) + c) % B = c % B := by
      have : r * (B * B) + c = c + (r * B) * B := by ring
      rw [this, Nat.add_mul_mod_self_right]
    rw [e3, e4]
    have hcN : c ≠ B * B := by omega
    by_cases h5 : c % B = 0 <;> simp [e1, h0, h5, hcN]

/-- The strings of a board line. -/
theorem boardItems_chunks (size B : Nat) (s : List Char) (r : Nat) :
    ((boardItems size B s r).map Item.chunks).flatten =
      ((List.range size).map fun c =>
        [cellPrint (cellValue size (s.getD (r * size + c) ' '))] ++
          colLead size B (c + 1)).flatten := by
  unfold boardItems
  rw [flatten_map_flatten]
  congr 1
  apply List.map_congr_left
  intro c _
  unfold colLead
  by_cases h : (c + 1) % B = 0 ∧ c + 1 ≠ size
  · have h' : (c + 1) % B = 0 ∧ c + 1 ≠ 0 ∧ c + 1 ≠ size := ⟨h.1, by omega, h.2⟩
    rw [if_pos h, if_pos h']
    rfl
  · have h' : ¬ ((c + 1) % B = 0 ∧ c + 1 ≠ 0 ∧ c + 1 ≠ size) := fun h2 => h ⟨h2.1, h2.2.2⟩
    rw [if_neg h, if_neg h']
    rfl

/-- The strings printed for the cells of the row `r`, regrouped: the separator line that
precedes the row, then the board line. -/
theorem printRow_eq {B r : Nat} (hB : 0 < B) (hr : r < B * B) (s : List Char) :
    ((List.range (B * B)).map fun c => leadChunks (B * B) B (r * (B * B) + c) ++
        [cellPrint (cellValue (B * B) (s.getD (r * (B * B) + c) ' '))]).flatten =
      rowLead (B * B) B r ++ Line.chunks B (Line.board (boardItems (B * B) B s r)) := by
  have hN : 0 < B * B := Nat.mul_pos hB hB
  have step : ((List.range (B * B)).map fun c => leadChunks (B * B) B (r * (B * B) + c) ++
        [cellPrint (cellValue (B * B) (s.getD (r * (B * B) + c) ' '))]) =
      (List.range (B * B)).map fun c => (if c = 0 then rowLead (B * B) B r ++ ["\n"] else []) ++
        (colLead (B * B) B c ++
          [cellPrint (cellValue (B * B) (s.getD (r * (B * B) + c) ' '))]) := by
    apply List.map_congr_left
    intro c hc
    rw [leadChunks_cell hB hr (List.mem_range.1 hc), List.append_assoc]
  rw [step]
  obtain ⟨n, hn⟩ : ∃ n, B * B = n + 1 := ⟨B * B - 1, by omega⟩
  have first := flatten_first (rowLead (B * B) B r ++ ["\n"])
    (fun c => colLead (B * B) B c ++
      [cellPrint (cellValue (B * B) (s.getD (r * (B * B) + c) ' '))]) n
  rw [← hn] at first
  rw [first]
  have shift := flatten_shift (colLead (B * B) B)
    (fun c => [cellPrint (cellValue (B * B) (s.getD (r * (B * B) + c) ' '))]) (B * B)
  have c0 : colLead (B * B) B 0 = [] := by simp [colLead]
  have cN : colLead (B * B) B (B * B) = [] := by simp [colLead]
  rw [c0, cN, List.append_nil, List.nil_append] at shift
  rw [shift]
  simp only [Line.chunks, boardItems_chunks]
  simp

/-- The strings of the lines of the board, row by row. -/
theorem boardLines_chunks (size B : Nat) (s : List Char) :
    ((boardLines size B s).map (Line.chunks B)).flatten =
      ((List.range size).map fun r =>
        Line.chunks B (Line.board (boardItems size B s r)) ++ rowLead size B (r + 1)).flatten := by
  unfold boardLines
  rw [flatten_map_flatten]
  congr 1
  apply List.map_congr_left
  intro r _
  unfold rowLead
  by_cases h : (r + 1) % B = 0 ∧ r + 1 ≠ size
  · have h' : (r + 1) % B = 0 ∧ r + 1 ≠ 0 ∧ r + 1 ≠ size := ⟨h.1, by omega, h.2⟩
    rw [if_pos h, if_pos h']
    simp [Line.chunks]
  · have h' : ¬ ((r + 1) % B = 0 ∧ r + 1 ≠ 0 ∧ r + 1 ≠ size) := fun h2 => h ⟨h2.1, h2.2.2⟩
    rw [if_neg h, if_neg h']
    simp

/-- The text that `printSolution` prints is the text of the lines of the board. -/
theorem printSolution_boardLines {B : Nat} (hB : 0 < B) (s : List Char)
    (hs : B * B * (B * B) ≤ s.length) :
    printSolution s (B * B) = some ((boardLines (B * B) B s).map (Line.chunks B)).flatten := by
  rw [printSolution_chunks _ _ hs, intSqrt_sq, flatten_rows, boardLines_chunks]
  congr 1
  have step : ((List.range (B * B)).map fun r =>
      ((List.range (B * B)).map fun c => leadChunks (B * B) B (r * (B * B) + c) ++
        [cellPrint (cellValue (B * B) (s.getD (r * (B * B) + c) ' '))]).flatten) =
      (List.range (B * B)).map fun r =>
        rowLead (B * B) B r ++ Line.chunks B (Line.board (boardItems (B * B) B s r)) := by
    apply List.map_congr_left
    intro r hr
    exact printRow_eq hB (List.mem_range.1 hr) s
  rw [step]
  have shift := flatten_shift (rowLead (B * B) B)
    (fun r => Line.chunks B (Line.board (boardItems (B * B) B s r))) (B * B)
  have c0 : rowLead (B * B) B 0 = [] := by simp [rowLead]
  have cN : rowLead (B * B) B (B * B) = [] := by simp [rowLead]
  rw [c0, cN, List.append_nil, List.nil_append] at shift
  exact shift


/-! ## Counting the cells and the separators of a board -/

theorem countP_groups {α β : Type} (q : α → Bool) (G : β → List α) (l : List β) :
    (l.map G).flatten.countP q = (l.map fun c => (G c).countP q).sum := by
  induction l with
  | nil => rfl
  | cons a l ih =>
    rw [List.map_cons, List.flatten_cons, List.countP_append, ih, List.map_cons, List.sum_cons]

/-- The number of indices below `B*B` that end a group of `B` and are not the last one. -/
theorem count_separators {B : Nat} (hB : 0 < B) :
    (List.range (B * B)).countP (fun c => decide ((c + 1) % B = 0 ∧ c + 1 ≠ B * B)) =
      B - 1 := by
  have key : ∀ a, a < B - 1 → B ≤ (a + 1) * B ∧ (a + 1) * B + B ≤ B * B := by
    intro a ha
    have h1 : 1 * B ≤ (a + 1) * B := Nat.mul_le_mul_right B (by omega)
    have h2 : (a + 1) * B ≤ (B - 1) * B := Nat.mul_le_mul_right B (by omega)
    have h3 : (B - 1) * B + B = B * B := by
      have : (B - 1 + 1) * B = (B - 1) * B + B := Nat.succ_mul _ _
      rw [← this, Nat.sub_add_cancel hB]
    omega
  rw [countP_reindex (fun a => (a + 1) * B - 1) (B - 1) (B * B)]
  · rw [List.countP_eq_length_filter, List.filter_eq_self.2, List.length_range]
    intro a ha
    obtain ⟨h1, h2⟩ := key a (List.mem_range.1 ha)
    have e : (a + 1) * B - 1 + 1 = (a + 1) * B := by omega
    simp only [e, Nat.mul_mod_left, true_and, decide_eq_true_eq]
    omega
  · intro a ha b hb h
    obtain ⟨h1, _⟩ := key a ha
    obtain ⟨h2, _⟩ := key b hb
    have : (a + 1) * B = (b + 1) * B := by omega
    have := Nat.eq_of_mul_eq_mul_right hB this
    omega
  · intro a ha
    obtain ⟨h1, h2⟩ := key a ha
    omega
  · intro p hp hq
    simp only [decide_eq_true_eq] at hq
    have hd : (p + 1) / B * B = p + 1 := Nat.div_mul_cancel (Nat.dvd_of_mod_eq_zero hq.1)
    have hq1 : 0 < (p + 1) / B := by
      rcases Nat.eq_zero_or_pos ((p + 1) / B) with h | h
      · rw [h] at hd; omega
      · exact h
    have hq2 : (p + 1) / B < B := by
      apply Nat.lt_of_mul_lt_mul_right (a := B)
      rw [hd]; omega
    refine ⟨(p + 1) / B - 1, by omega, ?_⟩
    have : (p + 1) / B - 1 + 1 = (p + 1) / B := by omega
    simp only [this, hd]
    omega

theorem boardItems_cellCount (size B : Nat) (s : List Char) (r : Nat) :
    cellCount (boardItems size B s r) = size := by
  unfold cellCount boardItems
  rw [countP_groups, sum_map_one, List.length_range]
  intro c _
  by_cases h : (c + 1) % B = 0 ∧ c + 1 ≠ size <;> simp [h, List.countP_cons]

theorem boardItems_barCount {B : Nat} (hB : 0 < B) (s : List Char) (r : Nat) :
    barCount (boardItems (B * B) B s r) = B - 1 := by
  unfold barCount boardItems
  rw [countP_groups, ← count_separators hB, ← sum_ite_eq_countP]
  congr 1
  apply List.map_congr_left
  intro c _
  by_cases h : (c + 1) % B = 0 ∧ c + 1 ≠ B * B <;> simp [h, List.countP_cons]

theorem boardLines_boards (size B : Nat) (s : List Char) :
    (boardLines size B s).countP (fun l => l != Line.separator) = size := by
  unfold boardLines
  rw [countP_groups, sum_map_one, List.length_range]
  intro c _
  by_cases h : (c + 1) % B = 0 ∧ c + 1 ≠ size <;> simp [h, List.countP_cons]

theorem boardLines_separators {B : Nat} (hB : 0 < B) (s : List Char) :
    (boardLines (B * B) B s).countP (fun l => l == Line.separator) = B - 1 := by
  unfold boardLines
  rw [countP_groups, ← count_separators hB, ← sum_ite_eq_countP]
  congr 1
  apply List.map_congr_left
  intro c _
  by_cases h : (c + 1) % B = 0 ∧ c + 1 ≠ B * B <;> simp [h, List.countP_cons]

theorem mem_boardLines {size B : Nat} {s : List Char} {items : List Item}
    (h : Line.board items ∈ boardLines size B s) :
    ∃ r, r < size ∧ items = boardItems size B s r := by
  unfold boardLines at h
  rw [List.mem_flatten] at h
  obtain ⟨g, hg, hmem⟩ := h
  obtain ⟨r, hr, rfl⟩ := List.mem_map.1 hg
  refine ⟨r, List.mem_range.1 hr, ?_⟩
  by_cases hc : (r + 1) % B = 0 ∧ r + 1 ≠ size
  · simp [hc] at hmem
    exact hmem
  · simp [hc] at hmem
    exact hmem


/-! ## The text of a cell -/

/-- The symbol of a one-character glyph. -/
theorem singleton_eq_glyph {ch : Char} {v : Nat} (hv : v < 25)
    (h : String.singleton ch = glyph v) : ch = glyphChar v := by
  have e := glyph_eq_singleton hv
  rw [← h] at e
  have := congrArg String.data e
  simpa [String.singleton] using this

theorem cellPrint_blank (size : Nat) : cellPrint (cellValue size '.') = "  " := by
  unfold cellValue
  by_cases h : size < 10
  · rw [if_pos h]; decide
  · rw [if_neg h]; decide

theorem cellPrint_digit {size d : Nat} (hs : size < 10) (hd : d < 10) :
    cellPrint (cellValue size (glyphChar d)) = " " ++ toString (d + 1) := by
  unfold cellValue
  rw [if_pos hs]
  interval_cases d <;> decide

theorem cellPrint_glyph {size v : Nat} (hs : 10 ≤ size) (hv : v < 25) :
    cellPrint (cellValue size (glyphChar v)) = " " ++ glyph v := by
  unfold cellValue
  rw [if_neg (by omega)]
  interval_cases v <;> decide


/-! ## The decoder on an arbitrary cover -/

/-- One step of the decoder: it writes when the position is an index and the value text is not
empty, and panics otherwise. -/
theorem decodeStep_eq (sol : List Char) (label : String) :
    decodeStep sol label =
      if 0 ≤ atoi (replaceP label) ∧ atoi (replaceP label) < (sol.length : Int) ∧
          (replaceV label).data ≠ [] then
        some (sol.set (atoi (replaceP label)).toNat
          (Char.ofNat (leadByte ((replaceV label).data.headD ' '))))
      else none := by
  unfold decodeStep
  cases h : (replaceV label).data with
  | nil => simp [h]
  | cons x t =>
    by_cases hp : 0 ≤ atoi (replaceP label) ∧ atoi (replaceP label) < (sol.length : Int)
    · simp [h, hp]
    · have : ¬ (0 ≤ atoi (replaceP label) ∧ atoi (replaceP label) < (sol.length : Int) ∧
          x :: t ≠ []) := fun h3 => hp ⟨h3.1, h3.2.1⟩
      simp only [h, List.head?_cons, if_neg hp, if_neg this]

/-- The loop over the rows of one solution returns when every row can be written. -/
theorem foldlM_decodeStep_ok (labels : List String) : ∀ (init : List Char),
    (∀ label ∈ labels, 0 ≤ atoi (replaceP label) ∧
      atoi (replaceP label) < (init.length : Int) ∧ (replaceV label).data ≠ []) →
    labels.foldlM decodeStep init =
      some ((labels.map fun label => ((atoi (replaceP label)).toNat,
        Char.ofNat (leadByte ((replaceV label).data.headD ' ')))).foldl
          (fun sol qc => sol.set qc.1 qc.2) init) := by
  induction labels with
  | nil => intro init _; rfl
  | cons label labels ih =>
    intro init hall
    rw [List.foldlM_cons, decodeStep_eq, if_pos (hall label (List.mem_cons_self _ _))]
    simp only [Option.some_bind, Option.bind_eq_bind, List.map_cons, List.foldl_cons]
    apply ih
    intro l hl
    simpa using hall l (List.mem_cons_of_mem _ hl)

/-- The loop over the rows of one solution panics when some row cannot be written. -/
theorem foldlM_decodeStep_fail (labels : List String) : ∀ (init : List Char),
    (∃ label ∈ labels, ¬ (0 ≤ atoi (replaceP label) ∧
      atoi (replaceP label) < (init.length : Int) ∧ (replaceV label).data ≠ [])) →
    labels.foldlM decodeStep init = none := by
  induction labels with
  | nil => intro init h; simp at h
  | cons label labels ih =>
    intro init h
    rw [List.foldlM_cons, decodeStep_eq]
    by_cases hok : 0 ≤ atoi (replaceP label) ∧
        atoi (replaceP label) < (init.length : Int) ∧ (replaceV label).data ≠ []
    · rw [if_pos hok]
      simp only [Option.some_bind, Option.bind_eq_bind]
      apply ih
      obtain ⟨l, hl, hbad⟩ := h
      rcases List.mem_cons.1 hl with rfl | hl
      · exact absurd hok hbad
      · exact ⟨l, hl, by simpa using hbad⟩
    · rw [if_neg hok]; rfl

/-- After the writes, a written position holds the character of one of its writes. -/
theorem writes_get_mem (pvs : List (Nat × Char)) : ∀ (init : List Char) (q : Nat),
    q ∈ pvs.map Prod.fst → q < init.length →
    ∃ ch, (q, ch) ∈ pvs ∧
      (pvs.foldl (fun sol qc => sol.set qc.1 qc.2) init)[q]? = some ch := by
  induction pvs with
  | nil => intro init q h; simp at h
  | cons a t ih =>
    intro init q hmem hq
    rw [List.foldl_cons]
    by_cases ht : q ∈ t.map Prod.fst
    · obtain ⟨ch, hch, hget⟩ := ih (init.set a.1 a.2) q ht (by simpa using hq)
      exact ⟨ch, List.mem_cons_of_mem _ hch, hget⟩
    · rw [List.map_cons, List.mem_cons] at hmem
      rcases hmem with h | h
      · refine ⟨a.2, ?_, ?_⟩
        · rw [h]; exact List.mem_cons_self _ _
        · rw [writes_get_of_not_mem t _ q ht, h]
          simp [← h, hq]
      · exact absurd h ht

/-- The result of the decoder for one solution. -/
theorem decodeCover_eq (cover : List String) :
    ((∃ g, decodeCover cover = some g) ↔
      ∀ label ∈ cover, 0 ≤ atoi (replaceP label) ∧
        atoi (replaceP label) < (cover.length : Int) ∧ (replaceV label).data ≠ []) ∧
    ∀ g, decodeCover cover = some g →
      g.length = cover.length ∧
      (∀ p, p < cover.length → (∀ label ∈ cover, atoi (replaceP label) ≠ (p : Int)) →
        g.data.get? p = some (Char.ofNat 0)) ∧
      (∀ p, p < cover.length → (∃ label ∈ cover, atoi (replaceP label) = (p : Int)) →
        ∃ label ∈ cover, atoi (replaceP label) = (p : Int) ∧
          ∃ x, (replaceV label).data.head? = some x ∧
            g.data.get? p = some (Char.ofNat (leadByte x))) := by
  by_cases hall : ∀ label ∈ cover, 0 ≤ atoi (replaceP label) ∧
        atoi (replaceP label) < (cover.length : Int) ∧ (replaceV label).data ≠ []
  · have hfold := foldlM_decodeStep_ok cover (List.replicate cover.length (Char.ofNat 0))
      (by simpa using hall)
    have hdec : decodeCover cover = some (String.mk
        ((cover.map fun label => ((atoi (replaceP label)).toNat,
          Char.ofNat (leadByte ((replaceV label).data.headD ' ')))).foldl
            (fun sol qc => sol.set qc.1 qc.2)
            (List.replicate cover.length (Char.ofNat 0)))) := by
      unfold decodeCover; rw [hfold]; rfl
    refine ⟨⟨fun _ => hall, fun _ => ⟨_, hdec⟩⟩, ?_⟩
    intro g hg
    rw [hdec] at hg
    cases hg
    refine ⟨?_, ?_, ?_⟩
    · show List.length _ = _
      rw [writes_length]; simp
    · intro p hp hnone
      rw [List.get?_eq_getElem?, writes_get_of_not_mem]
      · simp [hp]
      · intro hmem
        rw [List.map_map] at hmem
        obtain ⟨label, hl, hpl⟩ := List.mem_map.1 hmem
        have h0 := (hall label hl).1
        apply hnone label hl
        simp only [Function.comp_apply] at hpl
        omega
    · intro p hp hsome
      obtain ⟨label, hl, hpl⟩ := hsome
      have hmem : p ∈ ((cover.map fun label => ((atoi (replaceP label)).toNat,
          Char.ofNat (leadByte ((replaceV label).data.headD ' ')))).map Prod.fst) := by
        rw [List.map_map]
        exact List.mem_map.2 ⟨label, hl, by simp only [Function.comp_apply]; omega⟩
      obtain ⟨ch, hch, hget⟩ := writes_get_mem _
        (List.replicate cover.length (Char.ofNat 0)) p hmem (by simpa using hp)
      obtain ⟨label', hl', hpair⟩ := List.mem_map.1 hch
      have h1 : (atoi (replaceP label')).toNat = p := congrArg Prod.fst hpair
      have h2 : Char.ofNat (leadByte ((replaceV label').data.headD ' ')) = ch :=
        congrArg Prod.snd hpair
      obtain ⟨h0, _, hne⟩ := hall label' hl'
      refine ⟨label', hl', by omega, (replaceV label').data.headD ' ', ?_, ?_⟩
      · cases hd : (replaceV label').data with
        | nil => exact absurd hd hne
        | cons x t => rfl
      · rw [List.get?_eq_getElem?, h2]
        exact hget
  · have hfail : decodeCover cover = none := by
      unfold decodeCover
      rw [foldlM_decodeStep_fail]
      · rfl
      · push_neg at hall
        obtain ⟨label, hl, hbad⟩ := hall
        refine ⟨label, hl, ?_⟩
        simp only [List.length_replicate]
        intro h3
        exact absurd h3.2.2 (by
          have := hbad h3.1 h3.2.1
          simpa using this)
    refine ⟨⟨fun ⟨g, hg⟩ => (by rw [hfail] at hg; cases hg), fun h => absurd h hall⟩, ?_⟩
    intro g hg
    rw [hfail] at hg
    cases hg


/-! ## When the loop over the solutions returns -/

theorem mapM_returns {α β : Type} (f : α → Option β) (s : List α) :
    (∃ out, s.mapM f = some out) ↔ ∀ c ∈ s, ∃ g, f c = some g := by
  induction s with
  | nil => rw [List.mapM_nil]; simp
  | cons a t ih =>
    rw [List.mapM_cons]
    cases hfa : f a with
    | none =>
      constructor
      · rintro ⟨out, h⟩; simp at h
      · intro h
        obtain ⟨g, hg⟩ := h a (List.mem_cons_self _ _)
        rw [hfa] at hg; cases hg
    | some b =>
      cases ht : t.mapM f with
      | none =>
        constructor
        · rintro ⟨out, h⟩; simp at h
        · intro h
          have := ih.2 (fun c hc => h c (List.mem_cons_of_mem _ hc))
          rw [ht] at this
          obtain ⟨_, h⟩ := this
          cases h
      | some bs =>
        constructor
        · intro _ c hc
          rcases List.mem_cons.1 hc with rfl | hc
          · exact ⟨b, hfa⟩
          · exact ih.1 ⟨bs, ht⟩ c hc
        · intro _
          exact ⟨b :: bs, by simp⟩


/-! ## The order of the rows -/

/-- The column indices of a row of the matrix increase along the row. -/
theorem RowShape.increasing {N B : Nat} {row : List Nat} (h : RowShape N B row) :
    row.Pairwise (fun a b => a < b) := by
  obtain ⟨p, hp, rfl | ⟨v, hv, rfl⟩⟩ := h
  · simp
  · have hpos : 0 < N := by omega
    have h1 := mul_add_lt_sq (Nat.div_lt_of_lt_mul hp) hv
    have h2 := mul_add_lt_sq (Nat.mod_lt p hpos) hv
    simp only [List.pairwise_cons, List.mem_cons, List.mem_singleton, List.not_mem_nil,
      forall_eq_or_imp, forall_eq, false_implies, implies_true, List.Pairwise.nil, and_true]
    refine ⟨⟨?_, ?_, ?_⟩, ⟨?_, ?_⟩, ?_⟩ <;> omega

/-- The rows created for a blank cell. -/
theorem cellRows_dot {N : Nat} (hN : Supported N) {is : List Char} {p : Nat} (hp : p < N * N)
    (h : is.get? p = some '.') :
    cellRows N (intSqrt N) is p = (List.range N).map fun v =>
      [p, N * N + p / N * N + v, N * N * 2 + p % N * N + v,
        N * N * 3 + blockOf N (intSqrt N) p * N + v] := by
  unfold cellRows
  rw [h]
  simp only [if_true]
  apply List.map_congr_left
  intro v _
  exact candRow_full hN hp v

/-- The row created for a pre-filled cell. -/
theorem cellRows_given {N B : Nat} {is : List Char} {p : Nat} {ch : Char}
    (h : is.get? p = some ch) (hdot : ch ≠ '.') :
    cellRows N B is p = [filledRow N B p ch] := by
  unfold cellRows
  rw [h]
  simp only [if_neg hdot]

/-- A symbol that is not the glyph of a value below `N` has no value. -/
theorem valueOf_eq_none {N : Nat} (hN : N ≤ 25) {ch : Char}
    (hbad : ∀ v, v < N → getValueString v ≠ some (String.singleton ch)) :
    valueOf N ch = none := by
  cases hval : valueOf N ch with
  | none => rfl
  | some v =>
    obtain ⟨hv, hg⟩ := valueOf_some hN hval
    exact absurd (by rw [getValueString_lt (by omega), hg]) (hbad v hv)

/-- The groups of rows of the cells, in the order of the positions. -/
theorem groups_get {N : Nat} {is : List Char} {p : Nat} (hp : p < N * N) :
    ((List.range (N * N)).map (cellRows N (intSqrt N) is)).get? p =
      some (cellRows N (intSqrt N) is p) := by
  rw [List.get?_eq_getElem?, List.getElem?_map, List.getElem?_range hp]
  rfl


/-! ## The all-blank matrix of size 2 -/

theorem createSudokuMatrix_blank2 :
    createSudokuMatrix 2 (List.replicate 4 '.') = some blankMatrix2 := by
  decide

set_option maxRecDepth 100000 in
/-- Among the selections of rows of the all-blank matrix of size 2 listed in increasing order,
two are exact covers. -/
theorem blankMatrix2_sublists :
    ∀ T ∈ (List.range 8).sublists, IsExactCover blankMatrix2 T →
      T = [0, 3, 5, 6] ∨ T = [1, 2, 4, 7] := by
  decide

/-- A list without repetition of numbers below `n` is, up to the order, a sublist of
`range n`. -/
theorem perm_sublist_range {n : Nat} {S : List Nat} (hnd : S.Nodup) (hlt : ∀ k ∈ S, k < n) :
    ∃ T, T ∈ (List.range n).sublists ∧ S.Perm T := by
  refine ⟨(List.range n).filter (fun k => decide (k ∈ S)), ?_, ?_⟩
  · rw [List.mem_sublists]
    exact List.filter_sublist _
  · rw [List.perm_ext_iff_of_nodup hnd ((List.nodup_range n).filter _)]
    intro k
    simp only [List.mem_filter, List.mem_range, decide_eq_true_eq]
    exact ⟨fun h => ⟨hlt k h, h⟩, fun h => h.2⟩

/-- An exact cover selects no row twice, when every row has an element. -/
theorem IsExactCover.nodup {m : Matrix} {S : List Nat} (hS : IsExactCover m S)
    (hrow : ∀ k, k < m.rows.length → ∃ j, j < m.heads.length ∧ covers m j k = true) :
    S.Nodup := by
  rw [List.nodup_iff_count_le_one]
  intro k
  by_cases hk : k ∈ S
  · obtain ⟨j, hj, hcov⟩ := hrow k (hS.1 k hk)
    have h1 := hS.2 j hj
    have h2 : S.count k ≤ S.countP (covers m j) := by
      rw [List.count_eq_countP]
      apply List.countP_mono_left
      intro x _ hx
      have : x = k := by simpa using hx
      rw [this]; exact hcov
    omega
  · rw [List.count_eq_zero_of_not_mem hk]; omega

/-- The exact covers of the all-blank matrix of size 2. -/
theorem exactCover_blankMatrix2 (S : List Nat) :
    IsExactCover blankMatrix2 S ↔ S.Perm [0, 3, 5, 6] ∨ S.Perm [1, 2, 4, 7] := by
  constructor
  · intro hS
    have hnd : S.Nodup := by
      apply hS.nodup
      intro k hk
      have hk8 : k < 8 := hk
      refine ⟨k / 2, ?_, ?_⟩
      · show k / 2 < 16
        omega
      · interval_cases k <;> decide
    obtain ⟨T, hT, hperm⟩ := perm_sublist_range hnd (fun k hk => hS.1 k hk)
    rcases blankMatrix2_sublists T hT (hS.perm hperm) with h | h
    · exact Or.inl (h ▸ hperm)
    · exact Or.inr (h ▸ hperm)
  · rintro (h | h)
    · exact IsExactCover.perm h.symm (by decide)
    · exact IsExactCover.perm h.symm (by decide)


/-! ## The characters of the printed lines -/

/-- The characters of the decimal numeral of an integer are digits and the minus sign. -/
theorem int_toString_chars (i : Int) : ∀ c ∈ (toString i).data, c.isDigit = true ∨ c = '-' := by
  intro c hc
  cases i with
  | ofNat m =>
    have e : (toString (Int.ofNat m)).data = Nat.toDigits 10 m := rfl
    rw [e] at hc
    exact Or.inl (toDigits_isDigit m c hc)
  | negSucc m =>
    have e : (toString (Int.negSucc m)).data = '-' :: Nat.toDigits 10 (m + 1) := rfl
    rw [e] at hc
    rcases List.mem_cons.1 hc with h | h
    · exact Or.inr h
    · exact Or.inl (toDigits_isDigit _ c h)

/-- The text of a cell starts with a space and holds, after it, neither a line feed nor a
vertical bar, unless the symbol of the cell is one. -/
theorem cellPrint_chars (size : Nat) {ch : Char} (h1 : ch ≠ '|') (h2 : ch ≠ '\n') :
    ∀ c ∈ (cellPrint (cellValue size ch)).data, c ≠ '|' ∧ c ≠ '\n' := by
  have key : ∀ vs : String, (∀ c ∈ vs.data, c ≠ '|' ∧ c ≠ '\n') →
      ∀ c ∈ (cellPrint vs).data, c ≠ '|' ∧ c ≠ '\n' := by
    intro vs hvs c hc
    unfold cellPrint at hc
    by_cases hdot : (vs == ".") = true
    · rw [if_pos hdot] at hc
      have : c = ' ' := by
        have e : ("  " : String).data = [' ', ' '] := rfl
        rw [e] at hc
        simpa using hc
      rw [this]; decide
    · rw [if_neg hdot, String.data_append] at hc
      rcases List.mem_append.1 hc with h | h
      · have : c = ' ' := by
          have e : (" " : String).data = [' '] := rfl
          rw [e] at h
          simpa using h
        rw [this]; decide
      · exact hvs c h
  apply key
  unfold cellValue
  intro c hc
  by_cases hs : size < 10
  · rw [if_pos hs] at hc
    by_cases herr : atoiErr (String.singleton ch) = true
    · rw [if_pos herr] at hc
      have : c = ' ' := by
        have e : (" " : String).data = [' '] := rfl
        rw [e] at hc
        simpa using hc
      rw [this]; decide
    · rw [if_neg herr] at hc
      rcases int_toString_chars _ c hc with h | h
      · constructor
        · rintro rfl; exact absurd h (by decide)
        · exact isDigit_ne_lf h
      · rw [h]; decide
  · rw [if_neg hs] at hc
    have : c = ch := by
      have e : (String.singleton ch).data = [ch] := rfl
      rw [e] at hc
      simpa using hc
    rw [this]; exact ⟨h1, h2⟩

/-- The characters of a horizontal separator line. -/
theorem dashChunks_chars (B : Nat) :
    ∀ c ∈ ((dashChunks B).map String.data).flatten, c = ' ' ∨ c = '-' ∨ c = '+' := by
  intro c hc
  obtain ⟨l, hl, hcl⟩ := List.mem_flatten.1 hc
  obtain ⟨x, hx, rfl⟩ := List.mem_map.1 hl
  unfold dashChunks at hx
  obtain ⟨g, hg, hxg⟩ := List.mem_flatten.1 hx
  obtain ⟨i, _, rfl⟩ := List.mem_map.1 hg
  rcases List.mem_append.1 hxg with h | h
  · have := List.eq_of_mem_replicate h
    subst this
    have e : (" -" : String).data = [' ', '-'] := rfl
    rw [e] at hcl
    simp at hcl
    rcases hcl with h | h
    · exact Or.inl h
    · exact Or.inr (Or.inl h)
  · by_cases hi : i + 1 ≠ B
    · rw [if_pos hi] at h
      have := List.mem_singleton.1 h
      subst this
      have e : (" +" : String).data = [' ', '+'] := rfl
      rw [e] at hcl
      simp at hcl
      rcases hcl with h | h
      · exact Or.inl h
      · exact Or.inr (Or.inr h)
    · rw [if_neg hi] at h
      simp at h

/-- The characters of a board line: the vertical bars are those of its separators, and there
is no line feed. -/
theorem items_chars (items : List Item)
    (h : ∀ t, Item.cell t ∈ items → ∀ c ∈ t.data, c ≠ '|' ∧ c ≠ '\n') :
    '\n' ∉ (((items.map Item.chunks).flatten).map String.data).flatten ∧
    ((((items.map Item.chunks).flatten).map String.data).flatten).count '|' =
      barCount items := by
  induction items with
  | nil => simp [barCount]
  | cons it items ih =>
    obtain ⟨ih1, ih2⟩ := ih (fun t ht => h t (List.mem_cons_of_mem _ ht))
    cases it with
    | cell t =>
      have ht := h t (List.mem_cons_self _ _)
      have hbar : t.data.count '|' = 0 :=
        List.count_eq_zero_of_not_mem (fun hm => (ht _ hm).1 rfl)
      have hlf : '\n' ∉ t.data := fun hm => (ht _ hm).2 rfl
      constructor
      · simp only [List.map_cons, List.flatten_cons, Item.chunks, List.singleton_append,
          List.mem_append, not_or]
        exact ⟨hlf, ih1⟩
      · simp only [List.map_cons, List.flatten_cons, Item.chunks, List.singleton_append,
          List.count_append, hbar, Nat.zero_add, ih2]
        simp [barCount, List.countP_cons]
    | bar =>
      have e : (" |" : String).data = [' ', '|'] := rfl
      constructor
      · simp only [List.map_cons, List.flatten_cons, Item.chunks, List.singleton_append,
          List.mem_append, not_or, e]
        exact ⟨by decide, ih1⟩
      · simp only [List.map_cons, List.flatten_cons, Item.chunks, List.singleton_append,
          List.count_append, e, ih2]
        have : [' ', '|'].count '|' = 1 := by decide
        rw [this]
        simp [barCount, List.countP_cons]
        omega

theorem mem_boardLines_cases {size B : Nat} {s : List Char} {line : Line}
    (h : line ∈ boardLines size B s) :
    line = Line.separator ∨ ∃ r, r < size ∧ line = Line.board (boardItems size B s r) := by
  unfold boardLines at h
  obtain ⟨g, hg, hmem⟩ := List.mem_flatten.1 h
  obtain ⟨r, hr, rfl⟩ := List.mem_map.1 hg
  rcases List.mem_cons.1 hmem with h1 | h1
  · exact Or.inr ⟨r, List.mem_range.1 hr, h1⟩
  · by_cases hc : (r + 1) % B = 0 ∧ r + 1 ≠ size
    · rw [if_pos hc] at h1
      exact Or.inl (List.mem_singleton.1 h1)
    · rw [if_neg hc] at h1
      simp at h1

theorem mem_boardItems {size B : Nat} {s : List Char} {r : Nat} {t : String}
    (h : Item.cell t ∈ boardItems size B s r) :
    ∃ c, t = cellPrint (cellValue size (s.getD (r * size + c) ' ')) := by
  unfold boardItems at h
  obtain ⟨g, hg, hmem⟩ := List.mem_flatten.1 h
  obtain ⟨c, _, rfl⟩ := List.mem_map.1 hg
  rcases List.mem_cons.1 hmem with h1 | h1
  · exact ⟨c, Item.cell.inj h1⟩
  · by_cases hc : (c + 1) % B = 0 ∧ c + 1 ≠ size
    · rw [if_pos hc] at h1
      simp at h1
    · rw [if_neg hc] at h1
      simp at h1

/-- The text of a line of the board of a grid without line feed and vertical bar: a line feed,
then a text without line feed, which holds `B-1` vertical bars in a board line and none in a
separator line. -/
theorem line_text {B : Nat} (hB : 0 < B) {s : List Char}
    (hchars : ∀ ch ∈ s, ch ≠ '|' ∧ ch ≠ '\n') {line : Line}
    (h : line ∈ boardLines (B * B) B s) :
    ∃ body, (Line.text B line).data = '\n' :: body ∧ '\n' ∉ body ∧
      body.count '|' = if line = Line.separator then 0 else B - 1 := by
  have elf : ("\n" : String).data = ['\n'] := rfl
  rcases mem_boardLines_cases h with rfl | ⟨r, _, rfl⟩
  · refine ⟨((dashChunks B).map String.data).flatten, ?_, ?_, ?_⟩
    · simp [Line.text, Line.chunks, elf]
    · intro hm
      rcases dashChunks_chars B _ hm with h | h | h <;> exact absurd h (by decide)
    · rw [if_pos rfl]
      apply List.count_eq_zero_of_not_mem
      intro hm
      rcases dashChunks_chars B _ hm with h | h | h <;> exact absurd h (by decide)
  · have hcells : ∀ t, Item.cell t ∈ boardItems (B * B) B s r →
        ∀ c ∈ t.data, c ≠ '|' ∧ c ≠ '\n' := by
      intro t ht
      obtain ⟨c, rfl⟩ := mem_boardItems ht
      have hch : s.getD (r * (B * B) + c) ' ' ≠ '|' ∧ s.getD (r * (B * B) + c) ' ' ≠ '\n' := by
        rw [List.getD_eq_getElem?_getD]
        cases hget : s[r * (B * B) + c]? with
        | none => exact ⟨by decide, by decide⟩
        | some x => exact hchars x (List.getElem?_mem hget)
      exact cellPrint_chars _ hch.1 hch.2
    obtain ⟨h1, h2⟩ := items_chars _ hcells
    refine ⟨((((boardItems (B * B) B s r).map Item.chunks).flatten).map String.data).flatten,
      ?_, h1, ?_⟩
    · simp [Line.text, Line.chunks, elf]
    · rw [if_neg (by simp), h2, boardItems_barCount hB]

/-- The text that `printSolution` prints is the texts of the lines of the board joined. -/
theorem printedText_lines {B : Nat} (hB : 0 < B) (s : List Char)
    (hs : B * B * (B * B) ≤ s.length) :
    printedText s (B * B) = some (String.join ((boardLines (B * B) B s).map (Line.text B))) := by
  unfold printedText
  rw [printSolution_boardLines hB s hs, Option.map_some']
  congr 1
  apply String.ext
  rw [String.data_join, String.data_join, List.map_map]
  have := flatten_map_flatten String.data (Line.chunks B) (boardLines (B * B) B s)
  rw [this]
  congr 1
  apply List.map_congr_left
  intro l _
  simp [Line.text, String.data_join]


/-! ## The last write to a position -/

/-- After the writes, a position holds the character of the last write to it. -/
theorem writes_get_last (pre post : List (Nat × Char)) (q : Nat) (ch : Char)
    (init : List Char) (hq : q < init.length) (hpost : q ∉ post.map Prod.fst) :
    ((pre ++ (q, ch) :: post).foldl (fun sol qc => sol.set qc.1 qc.2) init)[q]? = some ch := by
  rw [List.foldl_append, List.foldl_cons, writes_get_of_not_mem post _ q hpost]
  have hlen : q < (pre.foldl (fun sol qc => sol.set qc.1 qc.2) init).length := by
    rw [writes_length]; exact hq
  simp [hlen]

/-- The string decoded from a cover holds, at a position that some row names, the symbol of
the last row of the cover that names it. -/
theorem decodeCover_last {cover : List String} {g : String} (hg : decodeCover cover = some g)
    {pre post : List String} {label : String} (hsplit : cover = pre ++ label :: post)
    {p : Nat} (hp : atoi (replaceP label) = (p : Int))
    (hpost : ∀ l ∈ post, atoi (replaceP l) ≠ (p : Int)) :
    ∃ x, (replaceV label).data.head? = some x ∧
      g.data.get? p = some (Char.ofNat (leadByte x)) := by
  have hall := (decodeCover_eq cover).1.1 ⟨g, hg⟩
  have hfold := foldlM_decodeStep_ok cover (List.replicate cover.length (Char.ofNat 0))
    (by simpa using hall)
  have hmem : label ∈ cover := by rw [hsplit]; simp
  obtain ⟨h0, hlt, hne⟩ := hall label hmem
  have hdec : decodeCover cover = some (String.mk
      ((cover.map fun label => ((atoi (replaceP label)).toNat,
        Char.ofNat (leadByte ((replaceV label).data.headD ' ')))).foldl
          (fun sol qc => sol.set qc.1 qc.2)
          (List.replicate cover.length (Char.ofNat 0)))) := by
    unfold decodeCover; rw [hfold]; rfl
  rw [hdec] at hg
  cases hg
  refine ⟨(replaceV label).data.headD ' ', ?_, ?_⟩
  · cases hd : (replaceV label).data with
    | nil => exact absurd hd hne
    | cons x t => rfl
  · have hpn : (atoi (replaceP label)).toNat = p := by omega
    have hmap : (cover.map fun label => ((atoi (replaceP label)).toNat,
        Char.ofNat (leadByte ((replaceV label).data.headD ' ')))) =
        (pre.map fun label => ((atoi (replaceP label)).toNat,
          Char.ofNat (leadByte ((replaceV label).data.headD ' ')))) ++
        (p, Char.ofNat (leadByte ((replaceV label).data.headD ' '))) ::
        (post.map fun label => ((atoi (replaceP label)).toNat,
          Char.ofNat (leadByte ((replaceV label).data.headD ' ')))) := by
      rw [hsplit, List.map_append, List.map_cons, hpn]
    rw [List.get?_eq_getElem?]
    show (List.foldl _ _ _)[p]? = _
    rw [hmap]
    apply writes_get_last
    · rw [List.length_replicate]; omega
    · rw [List.map_map]
      intro hin
      obtain ⟨l, hl, hpl⟩ := List.mem_map.1 hin
      have hl0 := (hall l (by rw [hsplit]; simp [hl])).1
      apply hpost l hl
      simp only [Function.comp_apply] at hpl
      omega


/-! ## The encoder: columns, rows and failure -/

/-- C4 (as amended): for every size `N ≤ 25` the header built by `createMatrixHeader(N, m)`
adds exactly `4*N*N` columns to `m` and leaves the rows alone; the matrix that
`createSudokuMatrix` returns has exactly `4*N*N` columns whatever the puzzle holds, and it is
returned for every puzzle of at least `N*N` symbols. -/
theorem createMatrixHeader_columns (N : Nat) (hN : N ≤ 25) (m : Matrix) :
    (∃ m', createMatrixHeader N m = some m' ∧
      m'.heads.length = m.heads.length + 4 * N * N ∧ m'.rows = m.rows) ∧
    (∀ is mm, createSudokuMatrix N is = some mm → mm.heads.length = 4 * N * N) ∧
    (∀ is : List Char, N * N ≤ is.length → ∃ mm, createSudokuMatrix N is = some mm) := by
  refine ⟨⟨_, createMatrixHeader_eq hN m, ?_, rfl⟩, ?_, ?_⟩
  · simp [headerLabels_length]
  · intro is mm h
    by_cases hl : N * N ≤ is.length
    · rw [createSudokuMatrix_eq hN is hl] at h
      cases h
      exact headerLabels_length N
    · rw [createSudokuMatrix_short is (by omega)] at h
      cases h
  · intro is hl
    exact ⟨_, createSudokuMatrix_eq hN is hl⟩

/-- Witness of C4 at size 4 and the empty matrix. -/
theorem createMatrixHeader_columns_witness :
    4 ≤ 25 ∧
    ((∃ m', createMatrixHeader 4 Matrix.new = some m' ∧
      m'.heads.length = Matrix.new.heads.length + 4 * 4 * 4 ∧ m'.rows = Matrix.new.rows) ∧
    (∀ is mm, createSudokuMatrix 4 is = some mm → mm.heads.length = 4 * 4 * 4) ∧
    (∀ is : List Char, 4 * 4 ≤ is.length → ∃ mm, createSudokuMatrix 4 is = some mm)) :=
  ⟨by decide, createMatrixHeader_columns 4 (by decide) Matrix.new⟩

/-- C4 as stated fails at size 26: `createMatrixHeader` aborts in `getValueString(25)` and
builds no header at all, so there is no header of `4*26*26` columns. -/
theorem createMatrixHeader_columns_fails_26 :
    ¬ ∃ m', createMatrixHeader 26 Matrix.new = some m' ∧ m'.heads.length = 4 * 26 * 26 := by
  rw [createMatrixHeader_none (by decide)]
  simp

/-- C5: for a supported size `N` and a puzzle of `N*N` symbols, `createSudokuMatrix` returns a
matrix whose rows are, cell after cell, one row for a pre-filled cell and `N` rows for a blank
cell (each of them starting in the column of its cell), hence `f + N*(N*N - f)` rows for `f`
pre-filled cells: `N*N*N` rows for the all-blank puzzle and `N*N` rows for a full one. -/
theorem createSudokuMatrix_rowCount (N : Nat) (is : List Char) (hN : Supported N)
    (hl : is.length = N * N) :
    ∃ m groups, createSudokuMatrix N is = some m ∧ m.rows = List.flatten groups ∧
      groups.length = N * N ∧
      (∀ p g, groups.get? p = some g →
        (g.length = if is.get? p = some '.' then N else 1) ∧ ∀ row ∈ g, row.head? = some p) ∧
      m.rows.length = filledCount is + N * (N * N - filledCount is) ∧
      ((∀ ch ∈ is, ch = '.') → m.rows.length = N * N * N) ∧
      ((∀ ch ∈ is, ch ≠ '.') → m.rows.length = N * N) := by
  refine ⟨_, (List.range (N * N)).map (cellRows N (intSqrt N) is),
    createSudokuMatrix_eq hN.le is (by omega), rfl, by simp, ?_, ?_, ?_, ?_⟩
  · intro p g hg
    rw [List.get?_eq_getElem?, List.getElem?_map] at hg
    cases hr : (List.range (N * N))[p]? with
    | none => rw [hr] at hg; simp at hg
    | some q =>
      rw [hr] at hg
      simp only [Option.map_some', Option.some.injEq] at hg
      have hq := List.getElem?_eq_some_iff.1 hr
      obtain ⟨hlt, hq⟩ := hq
      simp only [List.length_range] at hlt
      simp only [List.getElem_range] at hq
      subst hq hg
      have hpl : p < is.length := by omega
      refine ⟨?_, fun row hrow => cellRows_head hrow⟩
      rw [cellRows_length N _ is p hpl]
      have : is.get? p = some is[p] := by simp [List.getElem?_eq_getElem hpl]
      rw [this]
      simp
  · exact matrixRows_length N is hl
  · intro hall
    have h0 : filledCount is = 0 := by
      unfold filledCount
      rw [List.countP_eq_zero]
      intro ch hch; simp [hall ch hch]
    show (matrixRows N is).length = _
    rw [matrixRows_length N is hl, h0]; simp; ring
  · intro hall
    have h0 : filledCount is = N * N := by
      unfold filledCount
      rw [← hl, List.countP_eq_length]
      intro ch hch; simpa using hall ch hch
    show (matrixRows N is).length = _
    rw [matrixRows_length N is hl, h0]; simp

/-- Witness of C5 at size 2 and the puzzle `"0..."`. -/
theorem createSudokuMatrix_rowCount_witness :
    Supported 2 ∧ ['0', '.', '.', '.'].length = 2 * 2 ∧
    ∃ m groups, createSudokuMatrix 2 ['0', '.', '.', '.'] = some m ∧
      m.rows = List.flatten groups ∧ groups.length = 2 * 2 ∧
      (∀ p g, groups.get? p = some g →
        (g.length = if ['0', '.', '.', '.'].get? p = some '.' then 2 else 1) ∧
          ∀ row ∈ g, row.head? = some p) ∧
      m.rows.length = filledCount ['0', '.', '.', '.'] +
        2 * (2 * 2 - filledCount ['0', '.', '.', '.']) ∧
      ((∀ ch ∈ ['0', '.', '.', '.'], ch = '.') → m.rows.length = 2 * 2 * 2) ∧
      ((∀ ch ∈ ['0', '.', '.', '.'], ch ≠ '.') → m.rows.length = 2 * 2) :=
  ⟨by decide, rfl, createSudokuMatrix_rowCount 2 ['0', '.', '.', '.'] (by decide) rfl⟩

/-- C10 (as amended): for a supported size `N`, `createSudokuMatrix(N, puzzle)` returns no
matrix exactly when the puzzle has fewer than `N*N` symbols (the index `is[p]` is then out of
range); a puzzle of `N*N` or more symbols always yields a matrix, whatever symbols it holds. -/
theorem createSudokuMatrix_returns_iff (N : Nat) (is : List Char) (hN : Supported N) :
    (∃ m, createSudokuMatrix N is = some m) ↔ N * N ≤ is.length := by
  constructor
  · rintro ⟨m, hm⟩
    by_contra hlt
    rw [createSudokuMatrix_short is (by omega)] at hm
    cases hm
  · intro hl
    exact ⟨_, createSudokuMatrix_eq hN.le is hl⟩

/-- Witness of C10 at size 2 and a puzzle holding the symbol `x`. -/
theorem createSudokuMatrix_returns_iff_witness :
    Supported 2 ∧
    ((∃ m, createSudokuMatrix 2 ['x', '.', '.', '.'] = some m) ↔
      2 * 2 ≤ ['x', '.', '.', '.'].length) :=
  ⟨by decide, createSudokuMatrix_returns_iff 2 ['x', '.', '.', '.'] (by decide)⟩

/-- C10 as stated fails: a puzzle holding the symbol `x`, which is neither `.` nor a glyph,
and a puzzle of five symbols for size 2 both make `createSudokuMatrix` return a matrix. -/
theorem createSudokuMatrix_accepts_invalid :
    (∃ m, createSudokuMatrix 2 ['x', '.', '.', '.'] = some m) ∧
    (∃ m, createSudokuMatrix 2 ['.', '.', '.', '.', '.'] = some m) :=
  ⟨⟨_, createSudokuMatrix_eq (by decide) _ (by decide)⟩,
   ⟨_, createSudokuMatrix_eq (by decide) _ (by decide)⟩⟩

/-- C6 (as amended): for a supported size `N` and a puzzle of `N*N` symbols, each of them `.`
or the glyph of a value below `N`, every row of the matrix has exactly four elements, in the
columns labelled `p<p>`, `r<row>v<g>`, `c<col>v<g>` and `b<block>v<g>` for a cell `p` and the
glyph `g` of a value `v` below `N`, which is the symbol of the cell when the cell is
pre-filled. -/
theorem createSudokuMatrix_row_columns (N : Nat) (is : List Char) (hN : Supported N)
    (hl : is.length = N * N)
    (hsym : ∀ ch ∈ is, ch = '.' ∨ ∃ v, v < N ∧ glyph v = String.singleton ch) :
    ∃ m, createSudokuMatrix N is = some m ∧
      ∀ row ∈ m.rows, ∃ p v, p < N * N ∧ v < N ∧ row.length = 4 ∧
        (is.get? p = some '.' ∨ ∃ ch, is.get? p = some ch ∧ String.singleton ch = glyph v) ∧
        row.map (fun j => m.heads.getD j "") =
          [labelP p, labelR (p / N) (glyph v), labelC (p % N) (glyph v),
            labelB (p / (N * intSqrt N) * intSqrt N + p / intSqrt N % intSqrt N) (glyph v)] := by
  refine ⟨_, createSudokuMatrix_eq hN.le is (by omega), ?_⟩
  intro row hrow
  obtain ⟨p, hp, hrow⟩ := mem_matrixRows hrow
  have hb := blockOf_lt_of_supported hN hp
  obtain ⟨ch, hget, h | h⟩ := mem_cellRows hrow
  · obtain ⟨hdot, v, hv, rfl⟩ := h
    obtain ⟨e1, e2⟩ := candRow_labels (B := intSqrt N) hp hv hb
    refine ⟨p, v, hp, hv, by rw [e1]; rfl, Or.inl (by rw [hget, hdot]), e2⟩
  · obtain ⟨hdot, rfl⟩ := h
    have hmem : ch ∈ is := List.get?_mem hget
    rcases hsym ch hmem with h0 | ⟨v, hv, hg⟩
    · exact absurd h0 hdot
    · have hval := valueOf_of_glyph hN.le hv hg
      obtain ⟨e1, e2⟩ := candRow_labels (B := intSqrt N) hp hv hb
      refine ⟨p, v, hp, hv, ?_, Or.inr ⟨ch, hget, hg.symm⟩, ?_⟩
      · simp only [filledRow, hval]; rw [e1]; rfl
      · simp only [filledRow, hval]; exact e2

/-- Witness of C6 at size 2 and the puzzle `"0..."`. -/
theorem createSudokuMatrix_row_columns_witness :
    Supported 2 ∧ ['0', '.', '.', '.'].length = 2 * 2 ∧
    (∀ ch ∈ ['0', '.', '.', '.'], ch = '.' ∨ ∃ v, v < 2 ∧ glyph v = String.singleton ch) ∧
    ∃ m, createSudokuMatrix 2 ['0', '.', '.', '.'] = some m ∧
      ∀ row ∈ m.rows, ∃ p v, p < 2 * 2 ∧ v < 2 ∧ row.length = 4 ∧
        (['0', '.', '.', '.'].get? p = some '.' ∨
          ∃ ch, ['0', '.', '.', '.'].get? p = some ch ∧ String.singleton ch = glyph v) ∧
        row.map (fun j => m.heads.getD j "") =
          [labelP p, labelR (p / 2) (glyph v), labelC (p % 2) (glyph v),
            labelB (p / (2 * intSqrt 2) * intSqrt 2 + p / intSqrt 2 % intSqrt 2) (glyph v)] :=
  have hsym : ∀ ch ∈ ['0', '.', '.', '.'],
      ch = '.' ∨ ∃ v, v < 2 ∧ glyph v = String.singleton ch := by
    intro ch hch
    simp only [List.mem_cons, List.mem_singleton, List.not_mem_nil, or_false] at hch
    rcases hch with rfl | rfl | rfl | rfl
    · exact Or.inr ⟨0, by decide, rfl⟩
    · exact Or.inl rfl
    · exact Or.inl rfl
    · exact Or.inl rfl
  ⟨by decide, rfl, hsym, createSudokuMatrix_row_columns 2 ['0', '.', '.', '.'] (by decide) rfl hsym⟩

/-- C6 as stated fails: in the size-2 puzzle `"2..."` every symbol is `.` or a glyph of the
alphabet, yet the row of the first cell has a single element, in the column `p0`. -/
theorem createSudokuMatrix_row_single :
    ∃ m, createSudokuMatrix 2 ['2', '.', '.', '.'] = some m ∧ m.rows.head? = some [0] ∧
      (∀ ch ∈ ['2', '.', '.', '.'], ch = '.' ∨ String.singleton ch ∈ valueTable) :=
  ⟨_, createSudokuMatrix_eq (by decide) _ (by decide), rfl, by decide⟩

/-! ## The labels of the header -/

/-- C7: for every size `N` in `[1, 25]` the header that `createMatrixHeader` builds on the
empty matrix consists of `4*N*N` pairwise distinct labels; it holds the label of every
constraint (family, index, value) of the board, and two constraints of the board with the same
label are equal. -/
theorem createMatrixHeader_injective (N : Nat) (_h1 : 1 ≤ N) (h25 : N ≤ 25) :
    ∃ m, createMatrixHeader N Matrix.new = some m ∧ m.heads.length = 4 * N * N ∧
      m.heads.Nodup ∧
      (∀ i j, i < 4 * N * N → j < 4 * N * N → m.heads.get? i = m.heads.get? j → i = j) ∧
      (∀ k : Constraint, k.InRange N → k.label ∈ m.heads) ∧
      (∀ k1 k2 : Constraint, k1.InRange N → k2.InRange N → k1.label = k2.label → k1 = k2) := by
  have hm := createMatrixHeader_eq h25 Matrix.new
  simp only [Matrix.new, List.nil_append] at hm
  refine ⟨_, hm, headerLabels_length N, headerLabels_nodup h25, ?_,
    fun k hk => label_mem_headerLabels hk, fun k1 k2 hk1 hk2 h => Constraint.label_inj h25 hk1 hk2 h⟩
  intro i j hi hj h
  have hl := headerLabels_length N
  have hi' : i < (headerLabels N).length := by omega
  have hj' : j < (headerLabels N).length := by omega
  simp only [] at h
  rw [List.get?_eq_getElem?, List.get?_eq_getElem?, List.getElem?_eq_getElem hi',
    List.getElem?_eq_getElem hj', Option.some.injEq] at h
  exact (List.Nodup.getElem_inj_iff (headerLabels_nodup h25)).1 h

/-- Witness of C7 at size 9. -/
theorem createMatrixHeader_injective_witness :
    1 ≤ 9 ∧ 9 ≤ 25 ∧
    ∃ m, createMatrixHeader 9 Matrix.new = some m ∧ m.heads.length = 4 * 9 * 9 ∧
      m.heads.Nodup ∧
      (∀ i j, i < 4 * 9 * 9 → j < 4 * 9 * 9 → m.heads.get? i = m.heads.get? j → i = j) ∧
      (∀ k : Constraint, k.InRange 9 → k.label ∈ m.heads) ∧
      (∀ k1 k2 : Constraint, k1.InRange 9 → k2.InRange 9 → k1.label = k2.label → k1 = k2) :=
  ⟨by decide, by decide, createMatrixHeader_injective 9 (by decide) (by decide)⟩

/-! ## The decoder: order of the solutions -/

/-- C9: when `convertDLXSolutions` returns, the result has the length of its input and its
`i`-th string is the one that `convertDLXSolutions` returns for the `i`-th cover alone; so
equal covers at two indices yield equal strings at these indices, none being dropped. -/
theorem convertDLXSolutions_pointwise (covers : List (List String)) (out : List String)
    (h : convertDLXSolutions covers = some out) :
    out.length = covers.length ∧
    (∀ i c, covers.get? i = some c →
      ∃ g, out.get? i = some g ∧ convertDLXSolutions [c] = some [g]) ∧
    (∀ i j c, covers.get? i = some c → covers.get? j = some c →
      ∃ g, out.get? i = some g ∧ out.get? j = some g) := by
  obtain ⟨hlen, hget⟩ := mapM_option_some decodeCover covers out h
  refine ⟨hlen, ?_, ?_⟩
  · intro i c hc
    obtain ⟨g, hg, hd⟩ := hget i c hc
    exact ⟨g, hg, (convertDLXSolutions_single c g).2 hd⟩
  · intro i j c hi hj
    obtain ⟨g, hg, hd⟩ := hget i c hi
    obtain ⟨g', hg', hd'⟩ := hget j c hj
    rw [hd] at hd'
    cases hd'
    exact ⟨g, hg, hg'⟩

/-- Witness of C9 on three covers, the first and the last being equal. -/
theorem convertDLXSolutions_pointwise_witness :
    convertDLXSolutions [["p0v1"], ["p0v0"], ["p0v1"]] = some ["1", "0", "1"] ∧
    (["1", "0", "1"].length = [["p0v1"], ["p0v0"], ["p0v1"]].length ∧
    (∀ i c, [["p0v1"], ["p0v0"], ["p0v1"]].get? i = some c →
      ∃ g, ["1", "0", "1"].get? i = some g ∧ convertDLXSolutions [c] = some [g]) ∧
    (∀ i j c, [["p0v1"], ["p0v0"], ["p0v1"]].get? i = some c →
      [["p0v1"], ["p0v0"], ["p0v1"]].get? j = some c →
      ∃ g, ["1", "0", "1"].get? i = some g ∧ ["1", "0", "1"].get? j = some g)) :=
  ⟨by decide, convertDLXSolutions_pointwise _ _ (by decide)⟩

/-! ## Decoding exact covers -/

/-- C8: for a supported size `N`, a puzzle of `N*N` symbols and an exact cover of the matrix
that `createSudokuMatrix` builds, the rows being reported in any order and each in any cyclic
order of its columns: the cover has `N*N` rows, the position parsed from every row label lies
in `[0, N*N)`, and `convertDLXSolutions` returns for the cover a string of length `N*N` that
holds at every position `p` the glyph of the one selected row that covers the column `p<p>`. -/
theorem convertDLXSolutions_exactCover (N : Nat) (is : List Char) (m : Matrix)
    (sel : List (Nat × Nat)) (hN : Supported N) (hl : is.length = N * N)
    (hm : createSudokuMatrix N is = some m) (hS : IsExactCover m (sel.map Prod.fst)) :
    sel.length = N * N ∧
    (∀ kr ∈ sel, 0 ≤ atoi (replaceP (rowLabel m kr.1 kr.2)) ∧
      atoi (replaceP (rowLabel m kr.1 kr.2)) < ((N * N : Nat) : Int)) ∧
    ∃ g, convertDLXSolutions [sel.map fun kr => rowLabel m kr.1 kr.2] = some [g] ∧
      g.length = N * N ∧
      ∀ p, p < N * N → ∃ k v, k ∈ sel.map Prod.fst ∧ covers m p k = true ∧
        (∀ k' ∈ sel.map Prod.fst, covers m p k' = true → k' = k) ∧ v < N ∧
        (m.rows.getD k []).map (fun j => m.heads.getD j "") =
          [labelP p, labelR (p / N) (glyph v), labelC (p % N) (glyph v),
            labelB (p / (N * intSqrt N) * intSqrt N + p / intSqrt N % intSqrt N)
              (glyph v)] ∧
        glyph v = String.singleton (glyphChar v) ∧ g.data.get? p = some (glyphChar v) := by
  rw [createSudokuMatrix_eq hN.le is (by omega)] at hm
  cases hm
  have hrows : ∀ row ∈ matrixRows N is, RowShape N (intSqrt N) row := fun row hrow =>
    (row_shape hN hrow).1
  obtain ⟨hlen, hshape, g, hg, hgl, hget⟩ := cover_decode hN hrows hS
  refine ⟨hlen, ?_, g, (convertDLXSolutions_single _ g).2 hg, hgl, ?_⟩
  · intro kr hkr
    obtain ⟨hs, h4⟩ := hshape kr hkr
    obtain ⟨h1, h2, _, _⟩ := hs.full h4
    have hN25 := hN.le
    have hsq := hN.sq_lt
    rw [rowLabel_full hN hs h4, replaceP_rowText _ _ _ _ _ _ (by omega),
      atoi_toDigits _ (by omega)]
    constructor <;> omega
  · intro p hp
    have hcol : p < (headerLabels N).length := by rw [headerLabels_length]; nlinarith
    obtain ⟨k, hk, hcov⟩ := countP_one_exists _ _ (hS.2 p hcol)
    obtain ⟨kr, hkr, rfl⟩ := List.mem_map.1 hk
    obtain ⟨hs, h4⟩ := hshape kr hkr
    obtain ⟨h1, h2, h3, _⟩ := hs.full h4
    have hcell : (pvOf N ((matrixRows N is).getD kr.1 [])).1 = p := by
      rw [← h3]
      exact (hs.mem_cell hp).1 (by simpa [covers] using hcov)
    have hlab := hs.labels hN h4
    have hgp := hget kr hkr
    rw [hcell] at hlab hgp
    have hN25 := hN.le
    refine ⟨kr.1, (pvOf N ((matrixRows N is).getD kr.1 [])).2, hk, hcov, ?_, h2, hlab,
      glyph_eq_singleton (by omega), by simpa using hgp⟩
    intro k' hk' hcov'
    exact countP_one_unique _ _ (hS.2 p hcol) hk' hk hcov' hcov

/-- C2: given preservation. For a supported size `N`, a puzzle of `N*N` symbols holding at the
position `p` a symbol `x` other than `.`, and an exact cover of the matrix that
`createSudokuMatrix` builds, every string that `convertDLXSolutions` returns for the cover has
`x` at the position `p`. -/
theorem convertDLXSolutions_given (N : Nat) (is : List Char) (m : Matrix)
    (sel : List (Nat × Nat)) (p : Nat) (x : Char) (g : String) (hN : Supported N)
    (hl : is.length = N * N) (hm : createSudokuMatrix N is = some m)
    (hS : IsExactCover m (sel.map Prod.fst)) (hx : is.get? p = some x) (hdot : x ≠ '.')
    (hg : convertDLXSolutions [sel.map fun kr => rowLabel m kr.1 kr.2] = some [g]) :
    g.data.get? p = some x := by
  have hp : p < N * N := by
    rw [← hl]
    exact (List.get?_eq_some.1 hx).1
  rw [createSudokuMatrix_eq hN.le is (by omega)] at hm
  cases hm
  have hrows : ∀ row ∈ matrixRows N is, RowShape N (intSqrt N) row := fun row hrow =>
    (row_shape hN hrow).1
  obtain ⟨hlen, hshape, g', hg', hgl, hget⟩ := cover_decode hN hrows hS
  have hgg : g = g' := by
    have := (convertDLXSolutions_single _ g).1 hg
    rw [hg'] at this
    exact (Option.some.inj this).symm
  subst hgg
  have hcol : p < (headerLabels N).length := by rw [headerLabels_length]; nlinarith
  obtain ⟨k, hk, hcov⟩ := countP_one_exists _ _ (hS.2 p hcol)
  obtain ⟨kr, hkr, rfl⟩ := List.mem_map.1 hk
  obtain ⟨hs, h4⟩ := hshape kr hkr
  obtain ⟨h1, h2, h3, hrow⟩ := hs.full h4
  have hcellOf : cellOf ((matrixRows N is).getD kr.1 []) = p :=
    (hs.mem_cell hp).1 (by simpa [covers] using hcov)
  have hcell : (pvOf N ((matrixRows N is).getD kr.1 [])).1 = p := by rw [← h3]; exact hcellOf
  have hgp := hget kr hkr
  rw [hcell] at hgp
  -- the selected row of the cell `p` is the row of the symbol `x`
  have hmem := (row_shape hN (getD_mem_rows (hS.1 _ hk))).2
  rw [hcellOf] at hmem
  obtain ⟨ch, hch, h | h⟩ := mem_cellRows hmem
  · rw [hx] at hch
    exact absurd ((Option.some.inj hch).trans h.1) hdot
  · rw [hx] at hch
    cases hch
    obtain ⟨_, hfr⟩ := h
    have hN25 := hN.le
    unfold filledRow at hfr
    cases hval : valueOf N x with
    | none => rw [hval] at hfr; rw [hfr] at h4; simp at h4
    | some v =>
      rw [hval] at hfr
      simp only [] at hfr
      obtain ⟨hv, hgx⟩ := valueOf_some hN25 hval
      have hpv : (pvOf N ((matrixRows N is).getD kr.1 [])).2 = v := by
        rw [hfr, candRow_full hN hp v, pvOf_full N _ p v hv]
      rw [hpv] at hgp
      have : glyphChar v = x := by
        have e := glyph_eq_singleton (show v < 25 by omega)
        rw [hgx] at e
        have := congrArg String.data e
        simpa [String.singleton] using this.symm
      rw [this] at hgp
      simpa using hgp

/-- Witness of C8 on the size-2 puzzle `"0..."` and its exact cover. -/
theorem convertDLXSolutions_exactCover_witness :
    Supported 2 ∧ puzzle2.length = 2 * 2 ∧ createSudokuMatrix 2 puzzle2 = some matrix2 ∧
    IsExactCover matrix2 (cover2.map Prod.fst) ∧
    (cover2.length = 2 * 2 ∧
    (∀ kr ∈ cover2, 0 ≤ atoi (replaceP (rowLabel matrix2 kr.1 kr.2)) ∧
      atoi (replaceP (rowLabel matrix2 kr.1 kr.2)) < ((2 * 2 : Nat) : Int)) ∧
    ∃ g, convertDLXSolutions [cover2.map fun kr => rowLabel matrix2 kr.1 kr.2] = some [g] ∧
      g.length = 2 * 2 ∧
      ∀ p, p < 2 * 2 → ∃ k v, k ∈ cover2.map Prod.fst ∧ covers matrix2 p k = true ∧
        (∀ k' ∈ cover2.map Prod.fst, covers matrix2 p k' = true → k' = k) ∧ v < 2 ∧
        (matrix2.rows.getD k []).map (fun j => matrix2.heads.getD j "") =
          [labelP p, labelR (p / 2) (glyph v), labelC (p % 2) (glyph v),
            labelB (p / (2 * intSqrt 2) * intSqrt 2 + p / intSqrt 2 % intSqrt 2) (glyph v)] ∧
        glyph v = String.singleton (glyphChar v) ∧ g.data.get? p = some (glyphChar v)) :=
  ⟨by decide, by decide, by decide, by decide,
    convertDLXSolutions_exactCover 2 puzzle2 matrix2 cover2 (by decide) (by decide) (by decide)
      (by decide)⟩

/-- Witness of C2 on the size-2 puzzle `"0..."`, whose first cell is given. -/
theorem convertDLXSolutions_given_witness :
    Supported 2 ∧ puzzle2.length = 2 * 2 ∧ createSudokuMatrix 2 puzzle2 = some matrix2 ∧
    IsExactCover matrix2 (cover2.map Prod.fst) ∧ puzzle2.get? 0 = some '0' ∧ '0' ≠ '.' ∧
    convertDLXSolutions [cover2.map fun kr => rowLabel matrix2 kr.1 kr.2] = some ["0110"] ∧
    "0110".data.get? 0 = some '0' :=
  ⟨by decide, by decide, by decide, by decide, by decide, by decide, by decide,
    convertDLXSolutions_given 2 puzzle2 matrix2 cover2 0 '0' "0110" (by decide) (by decide)
      (by decide) (by decide) (by decide) (by decide) (by decide)⟩

/-! ## Round trip -/

/-- C3: round trip. For a supported size `N` and a complete board over the glyphs of the
values below `N` (valid or not), given by the values `vals` of its cells: the labels of the
candidate rows "cell `p` holds the value of the board at `p`", which are rows of the matrix
that `createSudokuMatrix` builds for the all-blank puzzle, taken in any order and each in any
cyclic order of its four column labels, are decoded by `convertDLXSolutions` into the board
string itself. -/
theorem convertDLXSolutions_roundTrip (N : Nat) (vals order : List Nat) (rot : Nat → Nat)
    (hN : Supported N) (hlen : vals.length = N * N) (hvals : ∀ v ∈ vals, v < N)
    (hperm : order.Perm (List.range (N * N))) :
    (∃ m, createSudokuMatrix N (List.replicate (N * N) '.') = some m ∧
      ∀ p, p < N * N → rowLabel m (p * N + vals.getD p 0) (rot p) =
        rowText p (p / N) (p % N) (p / (N * intSqrt N) * intSqrt N + p / intSqrt N % intSqrt N)
          (glyph (vals.getD p 0)) (rot p)) ∧
    convertDLXSolutions [order.map fun p =>
        rowText p (p / N) (p % N) (p / (N * intSqrt N) * intSqrt N + p / intSqrt N % intSqrt N)
          (glyph (vals.getD p 0)) (rot p)] =
      some [String.mk (vals.map glyphChar)] := by
  have hN25 := hN.le
  have hval : ∀ p, p < N * N → vals.getD p 0 < N := by
    intro p hp
    rw [List.getD_eq_getElem _ _ (by omega)]
    exact hvals _ (List.getElem_mem _)
  have hmem : ∀ p, p ∈ order ↔ p < N * N := fun p => by
    rw [hperm.mem_iff, List.mem_range]
  constructor
  · refine ⟨_, createSudokuMatrix_eq hN25 _ (by simp), ?_⟩
    intro p hp
    exact rowLabel_blank hN hp (hval p hp) (rot p)
  · rw [convertDLXSolutions_single]
    have hrel : List.Forall₂ (fun label (pv : Nat × Nat) =>
        ∃ r c b rot, label = rowText pv.1 r c b (glyph pv.2) rot)
        (order.map fun p => rowText p (p / N) (p % N)
          (p / (N * intSqrt N) * intSqrt N + p / intSqrt N % intSqrt N)
          (glyph (vals.getD p 0)) (rot p))
        (order.map fun p => (p, vals.getD p 0)) := by
      rw [List.forall₂_map_left_iff, List.forall₂_map_right_iff, List.forall₂_same]
      intro p _
      exact ⟨_, _, _, _, rfl⟩
    have hol : order.length = N * N := by simpa using hperm.length_eq
    obtain ⟨g, hg, hgl, hget⟩ := decodeCover_rows _ _ hrel
      (by
        intro pv hpv
        obtain ⟨p, hp, rfl⟩ := List.mem_map.1 hpv
        have hp' := (hmem p).1 hp
        have := hval p hp'
        refine ⟨by simpa [hol] using hp', by simp only []; omega⟩)
      (by simpa [hol] using hN.sq_lt)
      (by
        have : (order.map fun p => (p, vals.getD p 0)).map Prod.fst = order := by
          simp [List.map_map, Function.comp_def]
        rw [this, hperm.nodup_iff]
        exact List.nodup_range _)
    rw [hg]
    congr 1
    apply String.ext
    apply List.ext_getElem?
    intro i
    by_cases hi : i < N * N
    · have := hget (i, vals.getD i 0) (List.mem_map.2 ⟨i, (hmem i).2 hi, rfl⟩)
      simp only [] at this
      rw [this]
      simp [List.getD_eq_getElem _ _ (show i < vals.length by omega),
        List.getElem?_eq_getElem (show i < vals.length by omega)]
    · rw [List.getElem?_eq_none (by rw [hgl]; simp [hol]; omega),
        List.getElem?_eq_none (by simp; omega)]

/-- Witness of C3 on the size-2 board `"0110"`, the rows taken in the order 3, 0, 2, 1 and the
row of the cell `p` rotated by `p`. -/
theorem convertDLXSolutions_roundTrip_witness :
    Supported 2 ∧ [0, 1, 1, 0].length = 2 * 2 ∧ (∀ v ∈ [0, 1, 1, 0], v < 2) ∧
    [3, 0, 2, 1].Perm (List.range (2 * 2)) ∧
    ((∃ m, createSudokuMatrix 2 (List.replicate (2 * 2) '.') = some m ∧
      ∀ p, p < 2 * 2 → rowLabel m (p * 2 + [0, 1, 1, 0].getD p 0) (id p) =
        rowText p (p / 2) (p % 2) (p / (2 * intSqrt 2) * intSqrt 2 + p / intSqrt 2 % intSqrt 2)
          (glyph ([0, 1, 1, 0].getD p 0)) (id p)) ∧
    convertDLXSolutions [[3, 0, 2, 1].map fun p =>
        rowText p (p / 2) (p % 2) (p / (2 * intSqrt 2) * intSqrt 2 + p / intSqrt 2 % intSqrt 2)
          (glyph ([0, 1, 1, 0].getD p 0)) (id p)] =
      some [String.mk ([0, 1, 1, 0].map glyphChar)]) :=
  ⟨by decide, by decide, by decide, by decide,
    convertDLXSolutions_roundTrip 2 [0, 1, 1, 0] [3, 0, 2, 1] id (by decide) (by decide)
      (by decide) (by decide)⟩

/-! ## Exact covers are the filled boards -/

/-- C1 (as amended): for every block dimension `B` from 1 to 5, with `N = B*B`,
`createSudokuMatrix` builds a matrix for the all-blank puzzle of `N*N` cells; its row
`p*N + v` is the candidate "cell `p` holds value `v`", in the columns `p<p>`, `r<row>v<g>`,
`c<col>v<g>` and `b<block>v<g>` of the row, column and block (block row times `B` plus block
column) of `p`; and a selection `S` of rows is an exact cover exactly when it is, up to the
order, the selection of one row `p*N + grid p` for every cell `p`, for a grid whose rows,
columns and `B`-by-`B` blocks each hold every one of the `N` values exactly once. -/
theorem exactCover_iff_validGrid (B : Nat) (S : List Nat) (hB1 : 1 ≤ B) (hB5 : B ≤ 5) :
    ∃ m, createSudokuMatrix (B * B) (List.replicate (B * B * (B * B)) '.') = some m ∧
      (∀ p v, p < B * B * (B * B) → v < B * B →
        (m.rows.getD (p * (B * B) + v) []).map (fun j => m.heads.getD j "") =
          [labelP p, labelR (p / (B * B)) (glyph v), labelC (p % (B * B)) (glyph v),
            labelB (p / (B * B) / B * B + p % (B * B) / B) (glyph v)]) ∧
      (IsExactCover m S ↔
        ∃ grid, IsValidGrid B grid ∧ S.Perm (rowsOfGrid (B * B) grid)) := by
  have hN : B * B ≤ 25 := by
    have := Nat.mul_le_mul hB5 hB5
    omega
  refine ⟨_, createSudokuMatrix_eq hN _ (by simp), ?_, ?_⟩
  · intro p v hp hv
    simp only []
    rw [blank_row hp hv, ← blockOf_eq (by omega)]
    obtain ⟨e1, e2⟩ := candRow_labels (B := B) hp hv (blockOf_lt_sq hp)
    rw [← e1]; exact e2
  · constructor
    · intro h
      obtain ⟨hgrid, hperm⟩ := exactCover_grid h
      exact ⟨gridOf (B * B) S, (grid_exactCover_iff hgrid).1 (h.perm hperm), hperm⟩
    · rintro ⟨grid, hvalid, hperm⟩
      exact ((grid_exactCover_iff hvalid.1).2 hvalid).perm hperm.symm

/-- Witness of C1 at `B = 2` and the rows of the board `0123 / 2301 / 1032 / 3210`. -/
theorem exactCover_iff_validGrid_witness :
    1 ≤ 2 ∧ 2 ≤ 5 ∧
    ∃ m, createSudokuMatrix (2 * 2) (List.replicate (2 * 2 * (2 * 2)) '.') = some m ∧
      (∀ p v, p < 2 * 2 * (2 * 2) → v < 2 * 2 →
        (m.rows.getD (p * (2 * 2) + v) []).map (fun j => m.heads.getD j "") =
          [labelP p, labelR (p / (2 * 2)) (glyph v), labelC (p % (2 * 2)) (glyph v),
            labelB (p / (2 * 2) / 2 * 2 + p % (2 * 2) / 2) (glyph v)]) ∧
      (IsExactCover m [0, 5, 10, 15, 18, 23, 24, 29, 33, 36, 43, 46, 51, 54, 57, 60] ↔
        ∃ grid, IsValidGrid 2 grid ∧
          [0, 5, 10, 15, 18, 23, 24, 29, 33, 36, 43, 46, 51, 54, 57, 60].Perm
            (rowsOfGrid (2 * 2) grid)) :=
  ⟨by decide, by decide,
    exactCover_iff_validGrid 2 [0, 5, 10, 15, 18, 23, 24, 29, 33, 36, 43, 46, 51, 54, 57, 60]
      (by decide) (by decide)⟩

/-- C1 as stated fails at `B = 6`: for the size 36 `createSudokuMatrix` aborts in
`getValueString(25)` and builds no matrix of which a set of rows could be an exact cover. -/
theorem exactCover_no_matrix_36 :
    ¬ ∃ m, createSudokuMatrix (6 * 6) (List.replicate (6 * 6 * (6 * 6)) '.') = some m := by
  rw [createSudokuMatrix_large (by decide)]
  simp

/-- The board `0123 / 2301 / 1032 / 3210` is a valid grid of block dimension 2, and its rows
are an exact cover of the matrix of the all-blank puzzle of size 4. -/
theorem validGrid_example :
    IsValidGrid 2 (fun p => [0, 1, 2, 3, 2, 3, 0, 1, 1, 0, 3, 2, 3, 2, 1, 0].getD p 0) ∧
    IsExactCover ⟨headerLabels 4, matrixRows 4 (List.replicate 16 '.')⟩
      [0, 5, 10, 15, 18, 23, 24, 29, 33, 36, 43, 46, 51, 54, 57, 60] := by
  have hv : IsValidGrid 2 (fun p => [0, 1, 2, 3, 2, 3, 0, 1, 1, 0, 3, 2, 3, 2, 1, 0].getD p 0) := by
    decide
  exact ⟨hv, (grid_exactCover_iff (B := 2) hv.1).2 hv⟩

/-! ## The glyph table, the block dimension, the header labels and the block index -/

/-- C14: for every `v` below 25, `getValueString v` is the `v`-th element of the sequence
`"0"` to `"9"`, `"A"` to `"O"`, a string of one character; `getValueString` is injective below
25, and the index in the table is an inverse: the index of `getValueString v` is `v`. -/
theorem getValueString_inverse (v w : Nat) (hv : v < 25) (hw : w < 25) :
    getValueString v = ("0123456789ABCDEFGHIJKLMNO".data.get? v).map String.singleton ∧
    (∃ g, getValueString v = some g ∧ g.length = 1 ∧ valueTable.indexOf g = v) ∧
    (getValueString v = getValueString w → v = w) := by
  refine ⟨(getValueString_char hv).1, ⟨glyph v, getValueString_lt hv, glyph_length hv,
    (getValueString_char hv).2⟩, ?_⟩
  intro h
  rw [getValueString_lt hv, getValueString_lt hw] at h
  exact glyph_inj hv hw (Option.some.inj h)

/-- Witness of C14 at the values 10 and 11, the glyphs `"A"` and `"B"`. -/
theorem getValueString_inverse_witness :
    10 < 25 ∧ 11 < 25 ∧
    (getValueString 10 = ("0123456789ABCDEFGHIJKLMNO".data.get? 10).map String.singleton ∧
    (∃ g, getValueString 10 = some g ∧ g.length = 1 ∧ valueTable.indexOf g = 10) ∧
    (getValueString 10 = getValueString 11 → 10 = 11)) :=
  ⟨by decide, by decide, getValueString_inverse 10 11 (by decide) (by decide)⟩

/-- Counterexample of C15: the size 2 is supported and its block dimension is 1, whose square
is not 2. -/
theorem intSqrt_two_not_square : Supported 2 ∧ intSqrt 2 = 1 ∧ intSqrt 2 * intSqrt 2 ≠ 2 := by
  decide

/-- C15, amended: for a supported size `N`, the block dimension `intSqrt N` that
`createSudokuMatrix` and `printSolution` compute satisfies `B*B = N` exactly when `N` is not 2,
that is for the sizes 4, 9, 16 and 25. -/
theorem intSqrt_supported_square (N : Nat) (hN : Supported N) :
    intSqrt N * intSqrt N = N ↔ N ≠ 2 := by
  rcases hN with h | h | h | h | h <;> subst h <;> decide

/-- Witness of C15 at the size 9. -/
theorem intSqrt_supported_square_witness :
    Supported 9 ∧ (intSqrt 9 * intSqrt 9 = 9 ↔ 9 ≠ 2) :=
  ⟨by decide, intSqrt_supported_square 9 (by decide)⟩

/-- C16: for every size `N` up to 25 and every `i` below `4*N*N`, `createMatrixHeader` returns
and the `i`-th column it pushed has the label `p<i>` for `i < N*N`, `r<j/N>v<glyph(j%N)>` with
`j = i - N*N` for `N*N ≤ i < 2*N*N`, `c<j/N>v<glyph(j%N)>` with `j = i - 2*N*N` for
`2*N*N ≤ i < 3*N*N` and `b<j/N>v<glyph(j%N)>` with `j = i - 3*N*N` otherwise, the glyph of a
value below `N` being the result of `getValueString`. -/
theorem createMatrixHeader_label (N i : Nat) (m : Matrix) (hN : N ≤ 25) (hi : i < 4 * N * N) :
    ∃ m', createMatrixHeader N m = some m' ∧
      m'.heads.length = m.heads.length + 4 * N * N ∧
      (∀ v, v < N → getValueString v = some (glyph v)) ∧
      m'.heads.get? (m.heads.length + i) = some
        (if i < N * N then labelP i
         else if i < 2 * N * N then labelR ((i - N * N) / N) (glyph ((i - N * N) % N))
         else if i < 3 * N * N then
           labelC ((i - 2 * N * N) / N) (glyph ((i - 2 * N * N) % N))
         else labelB ((i - 3 * N * N) / N) (glyph ((i - 3 * N * N) % N))) := by
  have h2 : 2 * N * N = N * N * 2 := by ring
  have h3 : 3 * N * N = N * N * 3 := by ring
  have h4 : 4 * N * N = N * N * 4 := by ring
  refine ⟨_, createMatrixHeader_eq hN m, ?_, fun v hv => getValueString_lt (by omega), ?_⟩
  · simp [headerLabels_length]
  · have hlen : i < (headerLabels N).length := by rw [headerLabels_length]; exact hi
    have e : (m.heads ++ headerLabels N).get? (m.heads.length + i) =
        (headerLabels N).get? i := by
      simp [List.getElem?_append_right]
    simp only [e]
    have e2 : (headerLabels N).get? i = some (headLabel N i) := by
      unfold headerLabels
      rw [List.get?_eq_getElem?, List.getElem?_map, List.getElem?_range (by omega)]
      rfl
    rw [e2, h2, h3]
    rfl

/-- Witness of C16 at the sixth column of the header of size 2, the column `r0v1`. -/
theorem createMatrixHeader_label_witness :
    2 ≤ 25 ∧ 5 < 4 * 2 * 2 ∧
    ∃ m', createMatrixHeader 2 Matrix.new = some m' ∧
      m'.heads.length = Matrix.new.heads.length + 4 * 2 * 2 ∧
      (∀ v, v < 2 → getValueString v = some (glyph v)) ∧
      m'.heads.get? (Matrix.new.heads.length + 5) = some
        (if 5 < 2 * 2 then labelP 5
         else if 5 < 2 * 2 * 2 then labelR ((5 - 2 * 2) / 2) (glyph ((5 - 2 * 2) % 2))
         else if 5 < 3 * 2 * 2 then
           labelC ((5 - 2 * 2 * 2) / 2) (glyph ((5 - 2 * 2 * 2) % 2))
         else labelB ((5 - 3 * 2 * 2) / 2) (glyph ((5 - 3 * 2 * 2) % 2))) :=
  ⟨by decide, by decide, createMatrixHeader_label 2 5 Matrix.new (by decide) (by decide)⟩

/-- C18: for every block dimension `B ≥ 1`, `N = B*B` and every position `p` below `N*N`, the
block dimension computed from `N` is `B`, the block index `(p / (N*B)) * B + (p / B) % B` that
`createSudokuMatrix` computes equals `(row / B) * B + col / B` for `row = p / N` and
`col = p % N` and lies below `N`, and every block index below `N` is taken by exactly `N`
positions. -/
theorem blockOf_rowCol (B p : Nat) (hB : 1 ≤ B) (hp : p < B * B * (B * B)) :
    intSqrt (B * B) = B ∧
    blockOf (B * B) (intSqrt (B * B)) p = p / (B * B * B) * B + p / B % B ∧
    blockOf (B * B) (intSqrt (B * B)) p = p / (B * B) / B * B + p % (B * B) / B ∧
    blockOf (B * B) (intSqrt (B * B)) p < B * B ∧
    ∀ b, b < B * B → (List.range (B * B * (B * B))).countP
      (fun q => decide (blockOf (B * B) (intSqrt (B * B)) q = b)) = B * B := by
  rw [intSqrt_sq]
  exact ⟨rfl, rfl, blockOf_eq hB, blockOf_lt_sq hp, fun b hb => blockOf_count hb⟩

/-- Witness of C18 at the position 40 of the board of size 9. -/
theorem blockOf_rowCol_witness :
    1 ≤ 3 ∧ 40 < 3 * 3 * (3 * 3) ∧
    (intSqrt (3 * 3) = 3 ∧
    blockOf (3 * 3) (intSqrt (3 * 3)) 40 = 40 / (3 * 3 * 3) * 3 + 40 / 3 % 3 ∧
    blockOf (3 * 3) (intSqrt (3 * 3)) 40 = 40 / (3 * 3) / 3 * 3 + 40 % (3 * 3) / 3 ∧
    blockOf (3 * 3) (intSqrt (3 * 3)) 40 < 3 * 3 ∧
    ∀ b, b < 3 * 3 → (List.range (3 * 3 * (3 * 3))).countP
      (fun q => decide (blockOf (3 * 3) (intSqrt (3 * 3)) q = b)) = 3 * 3) :=
  ⟨by decide, by decide, blockOf_rowCol 3 40 (by decide) (by decide)⟩


/-! ## The printed board -/

/-- C12: for every block dimension `B ≥ 1`, `size = B*B` and every grid string of length
`size*size`, `printSolution` returns and the text it prints is the text of the lines of the
board, which are `size` board lines of `size` cells each, every board line with exactly `B-1`
vertical separators (one after every `B`-th column except the last), and exactly `B-1`
horizontal separator lines (one after every `B`-th row except the last). When no symbol of the
grid is a vertical bar or a line feed, the text of every line is a line feed followed by a text
without line feed, which holds exactly `B-1` characters `|` in a board line and none in a
separator line. -/
theorem printSolution_layout (B : Nat) (s : List Char) (hB : 1 ≤ B)
    (hs : s.length = B * B * (B * B)) :
    printSolution s (B * B) = some ((boardLines (B * B) B s).map (Line.chunks B)).flatten ∧
    printedText s (B * B) =
      some (String.join ((boardLines (B * B) B s).map (Line.text B))) ∧
    (boardLines (B * B) B s).countP (fun l => l != Line.separator) = B * B ∧
    (∀ items, Line.board items ∈ boardLines (B * B) B s →
      cellCount items = B * B ∧ barCount items = B - 1) ∧
    (boardLines (B * B) B s).countP (fun l => l == Line.separator) = B - 1 ∧
    ((∀ ch ∈ s, ch ≠ '|' ∧ ch ≠ '\n') → ∀ line ∈ boardLines (B * B) B s,
      ∃ body, (Line.text B line).data = '\n' :: body ∧ '\n' ∉ body ∧
        body.count '|' = if line = Line.separator then 0 else B - 1) := by
  refine ⟨printSolution_boardLines hB s (by omega), printedText_lines hB s (by omega),
    boardLines_boards _ _ _, ?_, boardLines_separators hB s,
    fun hchars line hline => line_text hB hchars hline⟩
  intro items hitems
  obtain ⟨r, _, rfl⟩ := mem_boardLines hitems
  exact ⟨boardItems_cellCount _ _ _ _, boardItems_barCount hB _ _⟩

/-- Witness of C12 on a grid of size 4, where every board line has one vertical separator and
the board has one horizontal separator line. -/
theorem printSolution_layout_witness :
    1 ≤ 2 ∧ "0123230110323210".data.length = 2 * 2 * (2 * 2) ∧
    (printSolution "0123230110323210".data (2 * 2) =
      some ((boardLines (2 * 2) 2 "0123230110323210".data).map (Line.chunks 2)).flatten ∧
    printedText "0123230110323210".data (2 * 2) =
      some (String.join ((boardLines (2 * 2) 2 "0123230110323210".data).map (Line.text 2))) ∧
    (boardLines (2 * 2) 2 "0123230110323210".data).countP (fun l => l != Line.separator) =
      2 * 2 ∧
    (∀ items, Line.board items ∈ boardLines (2 * 2) 2 "0123230110323210".data →
      cellCount items = 2 * 2 ∧ barCount items = 2 - 1) ∧
    (boardLines (2 * 2) 2 "0123230110323210".data).countP (fun l => l == Line.separator) =
      2 - 1 ∧
    ((∀ ch ∈ "0123230110323210".data, ch ≠ '|' ∧ ch ≠ '\n') →
      ∀ line ∈ boardLines (2 * 2) 2 "0123230110323210".data,
        ∃ body, (Line.text 2 line).data = '\n' :: body ∧ '\n' ∉ body ∧
          body.count '|' = if line = Line.separator then 0 else 2 - 1)) :=
  ⟨by decide, by decide, printSolution_layout 2 "0123230110323210".data (by decide) (by decide)⟩

set_option maxRecDepth 100000 in
/-- The text printed for a solved grid of size 4. -/
theorem printedText_example :
    printedText "0123230110323210".data 4 =
      some "\n 1 2 | 3 4\n 3 4 | 1 2\n - - + - -\n 2 1 | 4 3\n 4 3 | 2 1" := by
  decide

/-- C13: for a size of at least 1, the body of the loop of `printSolution` at a position `p`
that holds the symbol `ch` prints, after the separators, the text of the cell: two spaces for
the blank `.` at every size; for a size below 10 and the glyph of a digit `d`, a space and the
decimal numeral of `d+1`; for a size of at least 10 and a glyph of the alphabet, a space and the
glyph unchanged. -/
theorem printSolution_cell (size p : Nat) (s : List Char) (out : List String) (ch : Char)
    (hsize : 1 ≤ size) (hch : s.get? p = some ch) :
    ∃ text, printStep size (intSqrt size) s out p =
        some (out ++ (leadChunks size (intSqrt size) p ++ [text])) ∧
      (ch = '.' → text = "  ") ∧
      (∀ d, size < 10 → d < 10 → String.singleton ch = glyph d →
        text = " " ++ toString (d + 1)) ∧
      (∀ v, 10 ≤ size → v < 25 → String.singleton ch = glyph v → text = " " ++ glyph v) := by
  have hp : p < s.length := (List.get?_eq_some.1 hch).1
  have hget : s.getD p ' ' = ch := by
    rw [List.getD_eq_getElem?_getD, ← List.get?_eq_getElem?, hch]; rfl
  refine ⟨cellPrint (cellValue size ch), ?_, ?_, ?_, ?_⟩
  · rw [printStep_eq size _ s out p hp (Nat.mul_pos hsize (intSqrt_pos hsize)), hget]
  · rintro rfl; exact cellPrint_blank size
  · intro d hs hd h
    rw [singleton_eq_glyph (by omega) h]
    exact cellPrint_digit hs hd
  · intro v hs hv h
    rw [singleton_eq_glyph hv h]
    exact cellPrint_glyph hs hv

/-- Witness of C13 at the first cell of a grid of size 4, where the glyph `0` prints as 1. -/
theorem printSolution_cell_witness :
    1 ≤ 4 ∧ "0123230110323210".data.get? 0 = some '0' ∧
    ∃ text, printStep 4 (intSqrt 4) "0123230110323210".data [] 0 =
        some ([] ++ (leadChunks 4 (intSqrt 4) 0 ++ [text])) ∧
      ('0' = '.' → text = "  ") ∧
      (∀ d, 4 < 10 → d < 10 → String.singleton '0' = glyph d →
        text = " " ++ toString (d + 1)) ∧
      (∀ v, 10 ≤ 4 → v < 25 → String.singleton '0' = glyph v → text = " " ++ glyph v) :=
  ⟨by decide, by decide,
    printSolution_cell 4 0 "0123230110323210".data [] '0' (by decide) (by decide)⟩

/-! ## The decoder makes no completeness check -/

/-- Counterexample of C11: a cover of four rows that names the position 0 twice and the
position 3 never is decoded to a string, whose last symbol is the zero rune; no error is
raised. -/
theorem convertDLXSolutions_incomplete :
    convertDLXSolutions
      [["p0r0v0c0v0b0v0", "p0r0v1c0v1b0v1", "p1r0v1c1v1b0v1", "p2r1v1c0v1b1v1"]] =
      some [String.mk ['1', '1', '1', Char.ofNat 0]] := by
  decide

/-- C11, amended: `convertDLXSolutions` does not check that a cover assigns every position
exactly once. It returns exactly when, in every cover, every row label yields a position that
is an index of the cover (at least 0 and below the number of its rows) and a value text that is
not empty, and panics otherwise. When it returns, the `i`-th string has as many symbols as the
`i`-th cover has rows; a position named by no row holds the zero rune, and a position named by
one or several rows holds the symbol of the last row of the cover that names it. -/
theorem convertDLXSolutions_unchecked (s : List (List String)) :
    ((∃ out, convertDLXSolutions s = some out) ↔
      ∀ cover ∈ s, ∀ label ∈ cover, 0 ≤ atoi (replaceP label) ∧
        atoi (replaceP label) < (cover.length : Int) ∧ (replaceV label).data ≠ []) ∧
    ∀ out, convertDLXSolutions s = some out → out.length = s.length ∧
      ∀ i cover, s.get? i = some cover → ∃ g, out.get? i = some g ∧
        g.length = cover.length ∧
        (∀ p, p < cover.length → (∀ label ∈ cover, atoi (replaceP label) ≠ (p : Int)) →
          g.data.get? p = some (Char.ofNat 0)) ∧
        (∀ p, p < cover.length → (∃ label ∈ cover, atoi (replaceP label) = (p : Int)) →
          ∃ label ∈ cover, atoi (replaceP label) = (p : Int) ∧
            ∃ x, (replaceV label).data.head? = some x ∧
              g.data.get? p = some (Char.ofNat (leadByte x))) ∧
        (∀ (p : Nat) (pre : List String) (label : String) (post : List String),
          cover = pre ++ label :: post → atoi (replaceP label) = (p : Int) →
          (∀ later ∈ post, atoi (replaceP later) ≠ (p : Int)) →
          ∃ x, (replaceV label).data.head? = some x ∧
            g.data.get? p = some (Char.ofNat (leadByte x))) := by
  constructor
  · unfold convertDLXSolutions
    rw [mapM_returns]
    constructor
    · intro h cover hc
      exact (decodeCover_eq cover).1.1 (h cover hc)
    · intro h cover hc
      exact (decodeCover_eq cover).1.2 (h cover hc)
  · intro out hout
    obtain ⟨hlen, hget⟩ := mapM_option_some decodeCover s out hout
    refine ⟨hlen, ?_⟩
    intro i cover hi
    obtain ⟨g, hg, hdec⟩ := hget i cover hi
    obtain ⟨h1, h2, h3⟩ := (decodeCover_eq cover).2 g hdec
    exact ⟨g, hg, h1, h2, h3, fun p pre label post hsplit hp hpost =>
      decodeCover_last hdec hsplit hp hpost⟩

/-! ## The order of the rows and the row of an invalid symbol -/

/-- C17: for a supported size `N` and a puzzle of `N*N` symbols, `createSudokuMatrix` returns a
matrix whose rows are the groups of rows of the positions `0, 1, ..., N*N-1` in this order. The
group of a blank cell `p` holds the candidate rows of the values `0, 1, ..., N-1` in this
order, the row of `(p, v)` being linked in the order cell column, row column, column column,
block column; the group of a pre-filled cell is one row that starts with the cell column; and
the column indices increase along every row, which is the order of the header. -/
theorem createSudokuMatrix_rowOrder (N : Nat) (is : List Char) (hN : Supported N)
    (hl : is.length = N * N) :
    ∃ (m : Matrix) (groups : List (List (List Nat))), createSudokuMatrix N is = some m ∧ groups.length = N * N ∧
      m.rows = groups.flatten ∧
      (∀ p, p < N * N → is.get? p = some '.' →
        groups.get? p = some ((List.range N).map fun v =>
          [p, N * N + p / N * N + v, N * N * 2 + p % N * N + v,
            N * N * 3 + blockOf N (intSqrt N) p * N + v]) ∧
        ∀ v, v < N →
          [p, N * N + p / N * N + v, N * N * 2 + p % N * N + v,
            N * N * 3 + blockOf N (intSqrt N) p * N + v].map (fun j => m.heads.getD j "") =
          [labelP p, labelR (p / N) (glyph v), labelC (p % N) (glyph v),
            labelB (blockOf N (intSqrt N) p) (glyph v)]) ∧
      (∀ p, p < N * N → is.get? p ≠ some '.' →
        ∃ row : List Nat, groups.get? p = some [row] ∧ row.head? = some p) ∧
      ∀ row ∈ m.rows, row.Pairwise (fun a b => a < b) := by
  refine ⟨_, (List.range (N * N)).map (cellRows N (intSqrt N) is),
    createSudokuMatrix_eq hN.le is (by omega), by simp, rfl, ?_, ?_, ?_⟩
  · intro p hp hdot
    refine ⟨by rw [groups_get hp, cellRows_dot hN hp hdot], ?_⟩
    intro v hv
    obtain ⟨e1, e2⟩ := candRow_labels (B := intSqrt N) hp hv (blockOf_lt_of_supported hN hp)
    rw [← e1]
    exact e2
  · intro p hp hdot
    have hlt : p < is.length := by omega
    have hget : is.get? p = some (is.get ⟨p, hlt⟩) := List.get?_eq_get hlt
    have hne : is.get ⟨p, hlt⟩ ≠ '.' := fun h => hdot (by rw [hget, h])
    refine ⟨filledRow N (intSqrt N) p (is.get ⟨p, hlt⟩), ?_, ?_⟩
    · rw [groups_get hp, cellRows_given hget hne]
    · apply @cellRows_head N (intSqrt N) is
      rw [cellRows_given hget hne]
      exact List.mem_singleton_self _
  · intro row hrow
    exact (row_shape hN hrow).1.increasing

/-- Witness of C17 on the size-2 puzzle `"0..."`. -/
theorem createSudokuMatrix_rowOrder_witness :
    Supported 2 ∧ puzzle2.length = 2 * 2 ∧
    ∃ (m : Matrix) (groups : List (List (List Nat))), createSudokuMatrix 2 puzzle2 = some m ∧ groups.length = 2 * 2 ∧
      m.rows = groups.flatten ∧
      (∀ p, p < 2 * 2 → puzzle2.get? p = some '.' →
        groups.get? p = some ((List.range 2).map fun v =>
          [p, 2 * 2 + p / 2 * 2 + v, 2 * 2 * 2 + p % 2 * 2 + v,
            2 * 2 * 3 + blockOf 2 (intSqrt 2) p * 2 + v]) ∧
        ∀ v, v < 2 →
          [p, 2 * 2 + p / 2 * 2 + v, 2 * 2 * 2 + p % 2 * 2 + v,
            2 * 2 * 3 + blockOf 2 (intSqrt 2) p * 2 + v].map (fun j => m.heads.getD j "") =
          [labelP p, labelR (p / 2) (glyph v), labelC (p % 2) (glyph v),
            labelB (blockOf 2 (intSqrt 2) p) (glyph v)]) ∧
      (∀ p, p < 2 * 2 → puzzle2.get? p ≠ some '.' →
        ∃ row : List Nat, groups.get? p = some [row] ∧ row.head? = some p) ∧
      ∀ row ∈ m.rows, row.Pairwise (fun a b => a < b) :=
  ⟨by decide, by decide, createSudokuMatrix_rowOrder 2 puzzle2 (by decide) (by decide)⟩

/-- C19: for a supported size `N` and a puzzle of `N*N` symbols whose cell `p` holds a symbol
other than `.` that is not the glyph of a value below `N`, `createSudokuMatrix` returns a
matrix in which the group of rows of the cell `p` is the one row `[p]`, which references only
the column `p<p>`; no other row references that column, and the matrix has no exact cover. -/
theorem createSudokuMatrix_invalid_symbol (N : Nat) (is : List Char) (p : Nat) (ch : Char)
    (hN : Supported N) (hl : is.length = N * N) (hch : is.get? p = some ch) (hdot : ch ≠ '.')
    (hbad : ∀ v, v < N → getValueString v ≠ some (String.singleton ch)) :
    ∃ (m : Matrix) (groups : List (List (List Nat))), createSudokuMatrix N is = some m ∧ m.rows = groups.flatten ∧
      groups.length = N * N ∧ groups.get? p = some [[p]] ∧
      m.heads.get? p = some (labelP p) ∧
      (∀ row ∈ m.rows, p ∈ row → row = [p]) ∧
      ∀ S, ¬ IsExactCover m S := by
  have hp : p < N * N := by
    rw [← hl]; exact (List.get?_eq_some.1 hch).1
  have hcell : cellRows N (intSqrt N) is p = [[p]] := by
    rw [cellRows_given hch hdot]
    unfold filledRow
    rw [valueOf_eq_none hN.le hbad]
  have hrows : ∀ row ∈ matrixRows N is, p ∈ row → row = [p] := by
    intro row hrow hmem
    obtain ⟨hs, hin⟩ := row_shape hN hrow
    rw [(hs.mem_cell hp).1 hmem, hcell] at hin
    exact List.mem_singleton.1 hin
  have hcol : p < (headerLabels N).length := by rw [headerLabels_length]; nlinarith
  refine ⟨_, (List.range (N * N)).map (cellRows N (intSqrt N) is),
    createSudokuMatrix_eq hN.le is (by omega), rfl, by simp, ?_, ?_, hrows, ?_⟩
  · rw [groups_get hp, hcell]
  · show (headerLabels N).get? p = some (labelP p)
    rw [List.get?_eq_getElem?, List.getElem?_eq_getElem hcol]
    have := head_P (N := N) hp
    rw [List.getD_eq_getElem _ _ hcol] at this
    rw [this]
  · intro S hS
    obtain ⟨k, hk, hcov⟩ := countP_one_exists _ _ (hS.2 p hcol)
    have hmem : p ∈ (matrixRows N is).getD k [] := by simpa [covers] using hcov
    have h1 := hrows _ (getD_mem_rows (hS.1 k hk)) hmem
    obtain ⟨_, _, h4⟩ := exactCover_cells (N := N) (B := intSqrt N)
      (by rw [headerLabels_length]) (fun row hrow => (row_shape hN hrow).1) hS
    have := h4 k hk
    rw [h1] at this
    simp at this

/-- Witness of C19 on the size-4 puzzle `"1...2...3...4..."`, whose cell 12 holds the symbol
`4`, which is not the glyph of a value below 4. -/
theorem createSudokuMatrix_invalid_symbol_witness :
    Supported 4 ∧ "1...2...3...4...".data.length = 4 * 4 ∧
    "1...2...3...4...".data.get? 12 = some '4' ∧ '4' ≠ '.' ∧
    (∀ v, v < 4 → getValueString v ≠ some (String.singleton '4')) ∧
    ∃ (m : Matrix) (groups : List (List (List Nat))), createSudokuMatrix 4 "1...2...3...4...".data = some m ∧
      m.rows = groups.flatten ∧
      groups.length = 4 * 4 ∧ groups.get? 12 = some [[12]] ∧
      m.heads.get? 12 = some (labelP 12) ∧
      (∀ row ∈ m.rows, 12 ∈ row → row = [12]) ∧
      ∀ S, ¬ IsExactCover m S :=
  ⟨by decide, by decide, by decide, by decide, by decide,
    createSudokuMatrix_invalid_symbol 4 "1...2...3...4...".data 12 '4' (by decide) (by decide)
      (by decide) (by decide) (by decide)⟩


/-! ## The size 2 -/

/-- C20: the size 2 is supported and its block dimension `sizeSqrt` is 1, so the block index
that `createSudokuMatrix` computes for a position `p` below 4 is its row index `p / 2`. In the
matrix of the all-blank puzzle of size 2 the candidate row of the cell `p` and the value `v`,
which is the row `p*2 + v`, has the column labels `p<p>`, `r<p/2>v<g>`, `c<p%2>v<g>` and
`b<p/2>v<g>`: the block column has the index and the glyph of the row column. The exact covers
of this matrix are, up to the order of the rows, the selections of the rows of the grids
`[[a, b], [c, d]]` over the values 0 and 1 whose rows and columns hold distinct values, which
are the two Latin squares `[[0, 1], [1, 0]]` and `[[1, 0], [0, 1]]`. -/
theorem createSudokuMatrix_size_two :
    Supported 2 ∧ intSqrt 2 = 1 ∧
    (∀ p, p < 4 → blockOf 2 (intSqrt 2) p = p / 2) ∧
    ∃ m, createSudokuMatrix 2 (List.replicate 4 '.') = some m ∧
      m.rows.length = 8 ∧
      (∀ p, p < 4 → ∀ v, v < 2 →
        (m.rows.getD (p * 2 + v) []).map (fun j => m.heads.getD j "") =
          [labelP p, labelR (p / 2) (glyph v), labelC (p % 2) (glyph v),
            labelB (p / 2) (glyph v)]) ∧
      (∀ S, IsExactCover m S ↔
        ∃ a b c d, a < 2 ∧ b < 2 ∧ c < 2 ∧ d < 2 ∧ a ≠ b ∧ c ≠ d ∧ a ≠ c ∧ b ≠ d ∧
          S.Perm [0 * 2 + a, 1 * 2 + b, 2 * 2 + c, 3 * 2 + d]) ∧
      ∀ a b c d, a < 2 → b < 2 → c < 2 → d < 2 →
        ((a ≠ b ∧ c ≠ d ∧ a ≠ c ∧ b ≠ d) ↔
          (a = 0 ∧ b = 1 ∧ c = 1 ∧ d = 0) ∨ (a = 1 ∧ b = 0 ∧ c = 0 ∧ d = 1)) := by
  refine ⟨by decide, sqrt_two, ?_, blankMatrix2, createSudokuMatrix_blank2, rfl, ?_, ?_, ?_⟩
  · intro p _
    rw [sqrt_two, blockOf_two]
  · decide
  · intro S
    rw [exactCover_blankMatrix2]
    constructor
    · rintro (h | h)
      · exact ⟨0, 1, 1, 0, by decide, by decide, by decide, by decide, by decide, by decide,
          by decide, by decide, h⟩
      · exact ⟨1, 0, 0, 1, by decide, by decide, by decide, by decide, by decide, by decide,
          by decide, by decide, h⟩
    · rintro ⟨a, b, c, d, ha, hb, hc, hd, h1, h2, h3, h4, h⟩
      have : (a = 0 ∧ b = 1 ∧ c = 1 ∧ d = 0) ∨ (a = 1 ∧ b = 0 ∧ c = 0 ∧ d = 1) := by omega
      rcases this with ⟨rfl, rfl, rfl, rfl⟩ | ⟨rfl, rfl, rfl, rfl⟩
      · exact Or.inl h
      · exact Or.inr h
  · intro a b c d ha hb hc hd
    omega


end Sudoku
